import Mathlib

/-!
# RED: a shallow embedding of `pkg/red/red.go`

The package keeps one process-wide `Red` value (`main`) that only the worker
goroutine touches.  Callers talk to the worker through two buffered channels,
`toWorker` and `fromWorker`, and keep a private `*Red` of their own.

Modelling decisions

* `int64` is `Int` with an explicit two's-complement wrap (`wrapInt64`).
* `time.Time` is an `Int`: nanoseconds counted from the zero `Time`, so the
  zero value of the type is `0`.  `time.Duration` is an `int64` number of
  nanoseconds; `Time.Sub` saturates at the ends of that range, as the Go
  library does.
* The two channels are FIFO lists.  The worker goroutine is run when a caller
  blocks in `receive`; it handles the queued messages in order until a reply
  is available.
* The clock is an oracle: every call of `time.Now()` in a caller and every
  iteration of the worker loop takes the next reading.
* Caller-side `*Red` values live in a heap addressed by natural numbers, so
  that in-place updates through a pointer and aliasing are visible.
* `verbose` logging and the benchmarking `Nanosleep` pause do not influence
  any value and are left out.
-/

namespace RED

/-! ## Machine integers and time -/

/-- Two's-complement wrap of an integer into the `int64` range. -/
def wrapInt64 (x : Int) : Int := (x + 2 ^ 63) % 2 ^ 64 - 2 ^ 63

/-- Smallest `time.Duration`. -/
def minDuration : Int := -(2 ^ 63)

/-- Largest `time.Duration`. -/
def maxDuration : Int := 2 ^ 63 - 1

/-- The constant `time.Second`, in nanoseconds. -/
def Second : Int := 1000000000

/-- The method `Time.Sub` of the Go library: `t - u`, replaced by the largest (smallest)
`Duration` when the difference does not fit. -/
def timeSub (t u : Int) : Int :=
  if maxDuration < t - u then maxDuration
  else if t - u < minDuration then minDuration
  else t - u

/-- The call `time.Since(t)` evaluated when the clock reads `now`. -/
def timeSince (now t : Int) : Int := timeSub now t

/-- Go strings. -/
abbrev GoString := String

/-! ## Data model -/

/-- Red is the master struct for tracking Requests, Errors and Duration. -/
structure Red where
  Requests : Int
  Errors : Int
  Duration : Int
  StartTime : Int
  deriving DecidableEq, Repr

/-- Fields are an enum of the fields we want to update (a Go `int`). -/
abbrev Fields := Int

def REQUESTS : Fields := 0
def ERRORS : Fields := 1
def DURATION : Fields := 2
def NONE : Fields := 3

/-- The method `func (field Fields) String() string`. -/
def Fields.String (field : Fields) : GoString :=
  if field = REQUESTS then "REQUESTS"
  else if field = ERRORS then "ERRORS"
  else if field = DURATION then "DURATION"
  else "unknown-field"

/-- The enum of operations (a Go `int`). -/
abbrev ops := Int

def add : ops := 0
def getall : ops := 1
def set : ops := 2
def start : ops := 3
def now : ops := 4

/-- The method `func (op ops) String() string`. -/
def ops.String (op : ops) : GoString :=
  if op = add then "add"
  else if op = getall then "getall"
  else if op = set then "set"
  else if op = start then "StartTime"
  else if op = now then "now"
  else "unknown operation"

/-- What the UI sends to the worker via a channel. -/
structure msg where
  operation : ops
  operand : Fields
  value : Int
  deriving DecidableEq, Repr

/-- Ways in which a run stops without returning. -/
inductive Fault where
  /-- The worker met `panic(... unknown operand ...)`. -/
  | unknownOperand (m : msg)
  /-- The worker met `panic(... unknown opcode ...)`. -/
  | unknownOpcode (m : msg)
  /-- A nil (or dangling) pointer was dereferenced. -/
  | nilDereference
  /-- The caller waits on `fromWorker` and nothing will ever arrive. -/
  | blocked
  deriving DecidableEq, Repr

/-! ## The worker -/

/-- One iteration of the loop in `worker`: the message `m` is applied to
`main` while the clock reads `t`.  The result is the new `main` and the values
handed to `reply`, in order. -/
def workerStep (t : Int) (main : Red) (m : msg) : Except Fault (Red × List Red) :=
  if m.operation = start then
    .ok (⟨0, 0, 0, t⟩, [])
  else if m.operation = add then
    if m.operand = REQUESTS then
      let main1 := { main with Requests := wrapInt64 (main.Requests + m.value) }
      .ok (main1, [main1])
    else if m.operand = ERRORS then
      let main1 := { main with Errors := wrapInt64 (main.Errors + m.value) }
      .ok (main1, [main1])
    else .error (.unknownOperand m)
  else if m.operation = set then
    if m.operand = REQUESTS then
      let main1 := { main with Requests := m.value }
      .ok (main1, [main1])
    else if m.operand = ERRORS then
      let main1 := { main with Errors := m.value }
      .ok (main1, [main1])
    else .error (.unknownOperand m)
  else if m.operation = getall then
    .ok (main, [main])
  else if m.operation = now then
    let tmp := { main with Duration := timeSince t main.StartTime }
    .ok (main, [tmp])
  else .error (.unknownOpcode m)

/-! ## The process state -/

/-- Everything the package's functions can read or write. -/
structure World where
  /-- The internal Red variable, owned by the worker. -/
  main : Red
  /-- Contents of the channel `toWorker`, oldest first. -/
  toWorker : List msg
  /-- Contents of the channel `fromWorker`, oldest first. -/
  fromWorker : List Red
  /-- The `Red` values callers hold pointers to, by address. -/
  heap : List Red
  /-- Successive readings of the clock. -/
  clock : Nat → Int
  /-- Index of the next clock reading. -/
  tick : Nat
  /-- History of every message handed to `send` (a ghost field). -/
  sent : List msg

/-- A `*Red`: `none` is the nil pointer, `some a` points at `heap[a]`. -/
abbrev Ptr := Option Nat

/-- The call `time.Now()`: the next clock reading. -/
def timeNow (w : World) : Int × World :=
  (w.clock w.tick, { w with tick := w.tick + 1 })

/-- The expression `&Red{...}`: a fresh cell holding `v`. -/
def alloc (v : Red) (w : World) : Nat × World :=
  (w.heap.length, { w with heap := w.heap ++ [v] })

/-- Read through a non-nil pointer. -/
def load (a : Nat) (w : World) : Except Fault Red :=
  match w.heap[a]? with
  | some v => .ok v
  | none => .error .nilDereference

/-- Write through a non-nil pointer. -/
def store (a : Nat) (v : Red) (w : World) : World :=
  { w with heap := w.heap.set a v }

/-- Function `send` sends a request to the worker from the UI. -/
def send (operation : ops) (operand : Fields) (value : Int) (w : World) : World :=
  { w with
    toWorker := w.toWorker ++ [⟨operation, operand, value⟩]
    sent := w.sent ++ [⟨operation, operand, value⟩] }

/-- The worker drains `pending` (the contents of `toWorker`) in order until a
reply can be taken from `fromWorker`. -/
def awaitReply : List msg → World → Except Fault (Red × World)
  | [], w =>
    match w.fromWorker with
    | r :: rest => .ok (r, { w with toWorker := [], fromWorker := rest })
    | [] => .error .blocked
  | m :: ms, w =>
    match w.fromWorker with
    | r :: rest => .ok (r, { w with toWorker := m :: ms, fromWorker := rest })
    | [] =>
      match workerStep (w.clock w.tick) w.main m with
      | .error e => .error e
      | .ok (main1, replies) =>
        -- `fromWorker` is empty here, so it now holds exactly `replies`
        awaitReply ms { w with main := main1, fromWorker := replies, tick := w.tick + 1 }

/-- Function `receive` gets stuff sent back from worker to the UI. -/
def receive (w : World) : Except Fault (Red × World) :=
  awaitReply w.toWorker w

/-- The assignment `r.Requests, r.Errors, r.Duration = tmp.Requests,
tmp.Errors, tmp.Duration` through the pointer `a`. -/
def assignFrom (a : Nat) (tmp : Red) (w : World) : Except Fault World :=
  match w.heap[a]? with
  | some old =>
    .ok (store a ⟨tmp.Requests, tmp.Errors, tmp.Duration, old.StartTime⟩ w)
  | none => .error .nilDereference

/-! ## Text and structured encodings -/

/-- Nearest integer to a rational, ties going to the even neighbour. -/
def roundHalfEven (q : ℚ) : Int :=
  if q - ⌊q⌋ < 1 / 2 then ⌊q⌋
  else if 1 / 2 < q - ⌊q⌋ then ⌊q⌋ + 1
  else if ⌊q⌋ % 2 = 0 then ⌊q⌋ else ⌊q⌋ + 1

/-- The `float64` nearest to a rational (round to nearest, ties to even, with
gradual underflow).  A `float64` is represented by the rational it denotes; no
quantity formatted here comes near the overflow threshold. -/
def float64 (q : ℚ) : ℚ :=
  if q = 0 then 0
  else
    let e : Int := max (Int.log 2 |q| - 52) (-1074)
    roundHalfEven (q / 2 ^ e) * 2 ^ e

/-- The method `func (d Duration) Seconds() float64` of the Go library:
`float64(d / Second) + float64(d % Second) / 1e9`. -/
def Seconds (d : Int) : ℚ :=
  float64 (float64 (Int.tdiv d Second) + float64 (float64 (Int.tmod d Second) / 1000000000))

/-- The verb `%d` on an `int64`. -/
def fmtD (n : Int) : GoString := toString n

/-- The verb `%f` on a `float64`: six digits after the point, the exact value
rounded half to even. -/
def fmtF (x : ℚ) : GoString :=
  let n : Nat := (roundHalfEven (|x| * 1000000)).toNat
  let frac : GoString := toString (n % 1000000)
  (if x < 0 then "-" else "") ++ toString (n / 1000000) ++ "."
    ++ "".pushn '0' (6 - frac.length) ++ frac

/-- The text `fmt.Sprintf("%d, %d, %fs", r.Requests, r.Errors, r.Duration.Seconds())`. -/
def formatRed (v : Red) : GoString :=
  fmtD v.Requests ++ ", " ++ fmtD v.Errors ++ ", " ++ fmtF (Seconds v.Duration) ++ "s"

/-- The bytes `json.Marshal` gives for the three-field struct built in `MarshalJSON`. -/
def jsonRed (v : Red) : GoString :=
  "\x7b\"requests\":" ++ fmtD v.Requests ++ ",\"errors\":" ++ fmtD v.Errors
    ++ ",\"duration\":" ++ fmtD v.Duration ++ "\x7d"

/-- The verb `%q` on a string without special characters. -/
def fmtQ (s : GoString) : GoString := "\"" ++ s ++ "\""

/-- The error text shared by the nil checks. -/
def nilText : GoString := "r is nil, please call Start() first"

/-- The error text of the `default` branch of `Add` and `Set`; `name` is
`"Add"` or `"Set"`. -/
def usageText (name : GoString) (f : Fields) (val : Int) : GoString :=
  "usage error, unsupported operand " ++ fmtQ (Fields.String f) ++ " for " ++ name ++ "("
    ++ fmtQ (Fields.String f) ++ ", " ++ fmtD val ++ ")"

/-! ## The public interface -/

/-- Start returns a handle and sets the Start time. -/
def Start (w : World) : Ptr × World :=
  let w1 := send start NONE 0 w
  let (t, w2) := timeNow w1
  let (a, w3) := alloc ⟨0, 0, 0, t⟩ w2
  (some a, w3)

/-- The round trip shared by `Add`, `Set`, `GetAll` and `Now`: send the
message, wait for the reply, copy three fields of the reply into `*r`. -/
def roundTrip (a : Nat) (operation : ops) (operand : Fields) (value : Int) (w : World) :
    Except Fault World :=
  match receive (send operation operand value w) with
  | .error e => .error e
  | .ok (tmp, w1) => assignFrom a tmp w1

/-- Add sends an add message to a singleton worker.  The result is the
returned `error` (`none` for nil) and the state left behind. -/
def Red.Add (r : Ptr) (f : Fields) (val : Int) (w : World) :
    Except Fault (Option GoString × World) :=
  match r with
  | none => .ok (some nilText, w)
  | some a =>
    if f = REQUESTS ∨ f = ERRORS then
      match roundTrip a add f val w with
      | .error e => .error e
      | .ok w1 => .ok (none, w1)
    else .ok (some (usageText "Add" f val), w)

/-- Set sends a set message. -/
def Red.Set (r : Ptr) (f : Fields) (val : Int) (w : World) :
    Except Fault (Option GoString × World) :=
  match r with
  | none => .ok (some nilText, w)
  | some a =>
    if f = REQUESTS ∨ f = ERRORS then
      match roundTrip a set f val w with
      | .error e => .error e
      | .ok w1 => .ok (none, w1)
    else .ok (some (usageText "Set" f val), w)

/-- GetAll sends a getall message. -/
def Red.GetAll (r : Ptr) (w : World) : Except Fault (Option GoString × World) :=
  match r with
  | none => .ok (some nilText, w)
  | some a =>
    match roundTrip a getall NONE 0 w with
    | .error e => .error e
    | .ok w1 => .ok (none, w1)

/-- Now fills in the Duration field of a Red.  The result is the returned
pointer and the state left behind. -/
def Red.Now (r : Ptr) (w : World) : Except Fault (Ptr × World) :=
  match r with
  | none =>
    -- create a temporary one so we don't have to return a non-Red
    let (a, w0) := alloc ⟨0, 0, 0, 0⟩ w
    match roundTrip a now NONE 0 w0 with
    | .error e => .error e
    | .ok w1 => .ok (some a, w1)
  | some a =>
    match roundTrip a now NONE 0 w with
    | .error e => .error e
    | .ok w1 => .ok (some a, w1)

/-- String converts r into a string. -/
def Red.String (r : Ptr) (w : World) : Except Fault (GoString × World) :=
  match r with
  | none => .ok (nilText, w)
  | some a =>
    match load a w with
    | .error e => .error e
    | .ok v => .ok (formatRed v, w)

/-- MarshalJSON converts r into a shortened json.  The result is the pair of
the bytes and the `error` returned. -/
def Red.MarshalJSON (r : Ptr) (w : World) :
    Except Fault ((GoString × Option GoString) × World) :=
  match r with
  | none => .error .nilDereference
  | some a =>
    match load a w with
    | .error e => .error e
    | .ok v => .ok ((jsonRed v, none), w)

/-- One statement `r.X -= v.X`: both cells are read, then `*r` is written. -/
def subtractField (upd : Red → Red → Red) (r v : Ptr) (w : World) : Except Fault World :=
  match r, v with
  | some a, some b =>
    match w.heap[a]?, w.heap[b]? with
    | some x, some y => .ok (store a (upd x y) w)
    | _, _ => .error .nilDereference
  | _, _ => .error .nilDereference

/-- Subtract is a convenience function for a caller who subtracts two
measurements to get a rate. -/
def Red.Subtract (r v : Ptr) (w : World) : Except Fault (Ptr × World) :=
  match subtractField
      (fun x y => { x with Requests := wrapInt64 (x.Requests - y.Requests) }) r v w with
  | .error e => .error e
  | .ok w1 =>
    match subtractField
        (fun x y => { x with Errors := wrapInt64 (x.Errors - y.Errors) }) r v w1 with
    | .error e => .error e
    | .ok w2 =>
      match subtractField
          (fun x y => { x with Duration := wrapInt64 (x.Duration - y.Duration) }) r v w2 with
      | .error e => .error e
      | .ok w3 => .ok (r, w3)

/-- The state of the package after `init`, before any call: `main` is the
zero `Red`, both channels are empty. -/
def initWorld (clock : Nat → Int) : World :=
  ⟨⟨0, 0, 0, 0⟩, [], [], [], clock, 0, []⟩

/-! ## Single-caller use -/

/-- Single-caller use between two public calls: no reply is waiting to be
read, and the only messages not yet handled are `start` messages, the one kind
`Start` sends without waiting. -/
def SingleCaller (w : World) : Prop :=
  w.fromWorker = [] ∧ ∀ m ∈ w.toWorker, m.operation = start

instance (w : World) : Decidable (SingleCaller w) := by
  unfold SingleCaller
  infer_instance

/-- The value of `main` once the worker has handled the pending `start`
messages `ms`, the first of them while the clock index is `k`. -/
def settle (clock : Nat → Int) : List msg → Nat → Red → Red
  | [], _, s => s
  | _ :: ms, k, _ => settle clock ms (k + 1) ⟨0, 0, 0, clock k⟩

/-- The store as the next message of a single caller will find it. -/
def settledMain (w : World) : Red := settle w.clock w.toWorker w.tick w.main

/-- The clock index at which the next message of a single caller is handled. -/
def settledTick (w : World) : Nat := w.tick + w.toWorker.length

/-- The state a single caller's round trip leaves behind when the worker moved
`main` to `s1` and replied `r` to the message `m`: both channels are empty and
three fields of the cell at `a` (which held `old`) are overwritten from `r`. -/
def replied (w : World) (a : Nat) (old s1 r : Red) (m : msg) : World :=
  { main := s1, toWorker := [], fromWorker := [],
    heap := w.heap.set a ⟨r.Requests, r.Errors, r.Duration, old.StartTime⟩,
    clock := w.clock, tick := settledTick w + 1, sent := w.sent ++ [m] }

/-! ## Sample states -/

/-- A clock that starts at 1000 and advances by 10 per reading. -/
def sampleClock : Nat → Int := fun n => 1000 + 10 * n

/-- The state right after the first `Start()`; the handle is at address 0. -/
def sampleWorld : World := (Start (initWorld sampleClock)).2

/-- A clock stuck at 63900000000000000000 ns after the zero `Time`, a moment
late in the year 2025. -/
def lateClock : Nat → Int := fun _ => 63900000000000000000

/-- The sample state after `Add(REQUESTS, 5)` on the first handle. -/
def sampleBusy : World :=
  match Red.Add (some 0) REQUESTS 5 sampleWorld with
  | .ok (_, w1) => w1
  | .error _ => sampleWorld

/-- A state in which a caller holds two snapshots, at addresses 0 and 1. -/
def samplePair : World :=
  (alloc ⟨10, 1, 20, 5⟩ (alloc ⟨16, 3, 50, 7⟩ (initWorld sampleClock)).2).2

/-- A state in which a caller holds a snapshot at address 0 and an
equal-valued copy of it at address 1. -/
def sampleTwin : World :=
  (alloc ⟨16, 3, 50, 7⟩ (alloc ⟨16, 3, 50, 7⟩ (initWorld sampleClock)).2).2

/-! ## The worker loop over a whole queue -/

/-- The loop `for m := range toWorker` of `worker`, run over the messages `ms`
received from `toWorker`, in order; every reply is appended to `fromWorker`. -/
def worker : List msg → World → Except Fault World
  | [], w => .ok w
  | m :: ms, w =>
    match workerStep (w.clock w.tick) w.main m with
    | .error e => .error e
    | .ok (main1, replies) =>
      worker ms { w with main := main1, fromWorker := w.fromWorker ++ replies,
                         tick := w.tick + 1 }

/-- The messages the public interface can build: `start`, `getall`, `now`, and
`add` or `set` on REQUESTS or ERRORS. -/
def ValidMsg (m : msg) : Prop :=
  m.operation = start ∨ m.operation = getall ∨ m.operation = now ∨
    ((m.operation = add ∨ m.operation = set) ∧ (m.operand = REQUESTS ∨ m.operand = ERRORS))

instance (m : msg) : Decidable (ValidMsg m) := by
  unfold ValidMsg
  infer_instance

/-- The sum of the values of the messages in `ms` whose operand is `f`. -/
def fieldSum (f : Fields) (ms : List msg) : Int :=
  ((ms.filter fun m => m.operand = f).map fun m => m.value).sum

/-- The messages `add(f, v)` with `f` REQUESTS or ERRORS. -/
def IsAdd (m : msg) : Prop :=
  m.operation = add ∧ (m.operand = REQUESTS ∨ m.operand = ERRORS)

instance (m : msg) : Decidable (IsAdd m) := by
  unfold IsAdd
  infer_instance

/-- Three `add` messages of a sample run, and the same in another order. -/
def sampleAdds : List msg := [⟨add, REQUESTS, 4⟩, ⟨add, ERRORS, 1⟩, ⟨add, REQUESTS, 3⟩]

/-- The sample `add` messages in another order. -/
def sampleAddsShuffled : List msg :=
  [⟨add, ERRORS, 1⟩, ⟨add, REQUESTS, 3⟩, ⟨add, REQUESTS, 4⟩]

/-- A sample queue with every kind of message in it. -/
def sampleMsgs : List msg :=
  [⟨start, NONE, 0⟩, ⟨add, REQUESTS, 5⟩, ⟨now, NONE, 0⟩, ⟨set, ERRORS, 2⟩, ⟨getall, NONE, 0⟩]

/-! ## Sequences of public calls -/

/-- One call of a single caller on its handle: `Add(field, value)`, or
`Set(field, value)` when `isSet` holds. -/
structure Call where
  isSet : Bool
  field : Fields
  value : Int
  deriving DecidableEq, Repr

/-- The calls `cs` made one after the other on the handle `r`; a call that
returns an error is followed by the next call all the same. -/
def runCalls (r : Ptr) : List Call → World → Except Fault World
  | [], w => .ok w
  | c :: cs, w =>
    match (if c.isSet then Red.Set r c.field c.value w else Red.Add r c.field c.value w) with
    | .error e => .error e
    | .ok (_, w1) => runCalls r cs w1

/-- The sample state after `Add(REQUESTS, 5)` and `Add(ERRORS, 2)` on the first
handle: the store and the handle hold 5 requests and 2 errors. -/
def sampleCounted : World :=
  match runCalls (some 0) [⟨false, REQUESTS, 5⟩, ⟨false, ERRORS, 2⟩] sampleWorld with
  | .ok w1 => w1
  | .error _ => sampleWorld

/-- Whether, counted in exact arithmetic from the counters `r` and `e`, every
call that is let through leaves its counter between 0 and the largest int64:
a `Set` by the value it stores, an `Add` by the sum it makes. -/
def staysNonNeg : Int → Int → List Call → Bool
  | _, _, [] => true
  | r, e, c :: cs =>
    if c.field = REQUESTS then
      decide (0 ≤ (if c.isSet then c.value else r + c.value) ∧
          (if c.isSet then c.value else r + c.value) < 2 ^ 63) &&
        staysNonNeg (if c.isSet then c.value else r + c.value) e cs
    else if c.field = ERRORS then
      decide (0 ≤ (if c.isSet then c.value else e + c.value) ∧
          (if c.isSet then c.value else e + c.value) < 2 ^ 63) &&
        staysNonNeg r (if c.isSet then c.value else e + c.value) cs
    else staysNonNeg r e cs

/-- Calls with large values that are not negative: two `Set(REQUESTS, 2^62)`,
an `Add` on DURATION, which is refused, and an `Add` to each counter. -/
def sampleLarge : List Call :=
  [⟨true, REQUESTS, 2 ^ 62⟩, ⟨true, REQUESTS, 2 ^ 62⟩, ⟨false, DURATION, 2 ^ 63 - 1⟩,
   ⟨false, REQUESTS, 1⟩, ⟨false, ERRORS, 2 ^ 62⟩]

/-! ## Scanning the wire text

The parts of the Go library that `redFromReader` runs: `fmt.Sscanf` with the
fixed format `"%d, %d, %g"`, and under it `strconv.ParseInt`, `strconv.Atoi`
and `strconv.ParseFloat`.  The input is a list of runes. -/

/-- The ways `fmt.Sscanf` fails on the format `"%d, %d, %g"`. -/
inductive ScanError where
  /-- Out of input where a value should start (`io.EOF`). -/
  | eof
  /-- Out of input inside the literal text of the format
  (`io.ErrUnexpectedEOF`). -/
  | unexpectedEOF
  /-- The message "unexpected newline". -/
  | unexpectedNewline
  /-- The message "input does not match format". -/
  | inputDoesNotMatch
  /-- The message "expected space in input to match format". -/
  | expectedSpace
  /-- The message "newline in input does not match format". -/
  | newlineInInput
  /-- The message "expected integer". -/
  | expectedInteger
  /-- The error `strconv.ErrSyntax`. -/
  | badSyntax
  /-- The error `strconv.ErrRange`. -/
  | outOfRange
  deriving DecidableEq, Repr

/-- A `float64`: a rational it denotes exactly, an infinity, or a NaN. -/
inductive Float64Val where
  | finite (q : ℚ)
  | inf (neg : Bool)
  | nan
  deriving DecidableEq, Repr

/-- The line-feed rune. -/
def newline : Char := Char.ofNat 10

/-- The function `isSpace` of package `fmt`: the Unicode white space runes. -/
def isSpace (c : Char) : Bool :=
  (9 ≤ c.toNat ∧ c.toNat ≤ 13) ∨ c.toNat = 32 ∨ c.toNat = 133 ∨ c.toNat = 160
    ∨ c.toNat = 5760 ∨ (8192 ≤ c.toNat ∧ c.toNat ≤ 8202) ∨ c.toNat = 8232
    ∨ c.toNat = 8233 ∨ c.toNat = 8239 ∨ c.toNat = 8287 ∨ c.toNat = 12288

/-- The runes `0` to `9`. -/
def decimalDigits : List Char := "0123456789".toList

/-- The runes that are hexadecimal digits. -/
def hexadecimalDigits : List Char := "0123456789aAbBcCdDeEfF".toList

/-- The value of a decimal digit. -/
def digitVal (c : Char) : Nat := c.toNat - 48

/-- The value of a hexadecimal digit. -/
def hexVal (c : Char) : Nat :=
  if c ∈ decimalDigits then c.toNat - 48
  else if c.toNat < 97 then c.toNat - 55 else c.toNat - 87

/-- The method `SkipSpace` while a format is being followed (a newline is not
a space there): spaces are dropped, a newline is an error. -/
def skipSpace : List Char → Except ScanError (List Char)
  | [] => .ok []
  | c :: cs =>
    if c = newline then .error .unexpectedNewline
    else if isSpace c then skipSpace cs
    else .ok (c :: cs)

/-- The method `accept`: the next rune goes into the token if it is one of
`ok`.  The result is whether it did, the token and the input left. -/
def accept (ok tok inp : List Char) : Bool × List Char × List Char :=
  match inp with
  | [] => (false, tok, [])
  | c :: cs => if c ∈ ok then (true, tok ++ [c], cs) else (false, tok, c :: cs)

/-- The loop `for s.accept(ok) {}`. -/
def acceptAll (ok : List Char) : List Char → List Char → List Char × List Char
  | tok, [] => (tok, [])
  | tok, c :: cs => if c ∈ ok then acceptAll ok (tok ++ [c]) cs else (tok, c :: cs)

/-- The loop of `strconv.ParseUint` in base 10 at 64 bits, started with `n`. -/
def parseUint : List Char → Nat → Except ScanError Nat
  | [], n => .ok n
  | c :: cs, n =>
    if c ∈ decimalDigits then
      if 2 ^ 64 ≤ n * 10 + digitVal c then .error .outOfRange
      else parseUint cs (n * 10 + digitVal c)
    else .error .badSyntax

/-- The function `strconv.ParseInt(s, 10, 64)`, which is also `strconv.Atoi`
where `int` has 64 bits. -/
def ParseInt (s : List Char) : Except ScanError Int :=
  match s with
  | [] => .error .badSyntax
  | c :: cs =>
    let neg : Bool := c = '-'
    let digits : List Char := if c = '+' ∨ c = '-' then cs else c :: cs
    if digits = [] then .error .badSyntax
    else
      match parseUint digits 0 with
      | .error e => .error e
      | .ok un =>
        if neg then (if 2 ^ 63 < un then .error .outOfRange else .ok (-(un : Int)))
        else (if 2 ^ 63 ≤ un then .error .outOfRange else .ok (un : Int))

/-- The method `scanInt` for the verb `%d` at 64 bits: spaces, an optional
sign, decimal digits, then `ParseInt` on the token. -/
def scanInt (inp : List Char) : Except ScanError (Int × List Char) :=
  match skipSpace inp with
  | .error e => .error e
  | .ok [] => .error .eof
  | .ok (c :: cs) =>
    match accept "+-".toList [] (c :: cs) with
    | (_, _, []) => .error .eof
    | (_, tok, d :: ds) =>
      if d ∈ decimalDigits then
        match acceptAll decimalDigits tok (d :: ds) with
        | (tok1, rest) =>
          match ParseInt tok1 with
          | .error e => .error e
          | .ok v => .ok (v, rest)
      else .error .expectedInteger

/-- The method `floatToken`: the longest run of runes that looks like the
start of a floating-point number.  The result is the token and the input
left. -/
def floatToken (inp : List Char) : List Char × List Char :=
  let n1 := accept "nN".toList [] inp
  let n2 := if n1.1 then accept "aA".toList n1.2.1 n1.2.2 else (false, n1.2)
  let n3 := if n2.1 then accept "nN".toList n2.2.1 n2.2.2 else (false, n2.2)
  if n3.1 then n3.2
  else
    let s1 := accept "+-".toList n3.2.1 n3.2.2
    let i1 := accept "iI".toList s1.2.1 s1.2.2
    let i2 := if i1.1 then accept "nN".toList i1.2.1 i1.2.2 else (false, i1.2)
    let i3 := if i2.1 then accept "fF".toList i2.2.1 i2.2.2 else (false, i2.2)
    if i3.1 then i3.2
    else
      let z := accept "0".toList i3.2.1 i3.2.2
      let x := if z.1 then accept "xX".toList z.2.1 z.2.2 else (false, z.2)
      let digits := if x.1 then hexadecimalDigits ++ "_".toList else decimalDigits ++ "_".toList
      let exp := if x.1 then "pP".toList else "eEpP".toList
      let m := acceptAll digits x.2.1 x.2.2
      let dot := accept ".".toList m.1 m.2
      let fr := if dot.1 then acceptAll digits dot.2.1 dot.2.2 else dot.2
      let e := accept exp fr.1 fr.2
      if e.1 then
        let es := accept "+-".toList e.2.1 e.2.2
        acceptAll (decimalDigits ++ "_".toList) es.2.1 es.2.2
      else e.2

/-- What `strconv.ParseFloat` reads off a well-formed string: one of the
special values, or the number `±mant * base^(-fracDigits) * b^exp`, where
`base` and `b` are 10 and 10 for a decimal and 16 and 2 for a hexadecimal
number. -/
inductive FloatLit where
  | special (v : Float64Val)
  | number (neg hex : Bool) (mant fracDigits : Nat) (exp : Int)
  deriving DecidableEq, Repr

/-- ASCII lower case, as in `commonPrefixLenIgnoreCase`. -/
def lowerASCII (c : Char) : Char :=
  if 65 ≤ c.toNat ∧ c.toNat ≤ 90 then Char.ofNat (c.toNat + 32) else c

/-- The function `special` of `strconv`, on a whole string: infinities and
NaN, whatever the case of the letters. -/
def special (s : List Char) : Option Float64Val :=
  let l := s.map lowerASCII
  if l = "inf".toList ∨ l = "+inf".toList ∨ l = "infinity".toList ∨ l = "+infinity".toList then
    some (.inf false)
  else if l = "-inf".toList ∨ l = "-infinity".toList then some (.inf true)
  else if l = "nan".toList then some .nan
  else none

/-- The function `underscoreOK` of `strconv` after the sign and the base prefix:
`saw` tells whether the rune before was a digit (or the prefix), `under`
whether it was an underscore. -/
def underscoreLoop (hex : Bool) : List Char → Bool → Bool → Bool
  | [], _, under => !under
  | c :: cs, saw, under =>
    if c ∈ decimalDigits ∨ (hex ∧ c ∈ hexadecimalDigits) then underscoreLoop hex cs true false
    else if c = '_' then (if saw then underscoreLoop hex cs false true else false)
    else if under then false
    else underscoreLoop hex cs false false

/-- The function `underscoreOK` of `strconv`: underscores only between digits,
or between a base prefix and a digit. -/
def underscoreOK (s : List Char) : Bool :=
  let t := match s with
    | c :: cs => if c = '-' ∨ c = '+' then cs else c :: cs
    | [] => []
  match t with
  | z :: x :: rest =>
    if z = '0' ∧ (lowerASCII x = 'b' ∨ lowerASCII x = 'o' ∨ lowerASCII x = 'x') then
      underscoreLoop (lowerASCII x = 'x') rest true false
    else underscoreLoop false t false false
  | _ => underscoreLoop false t false false

/-- The digits loop of `readFloat`.  The state is the mantissa read so far,
the number of digits after the point, and whether a point and a digit were
seen; the result adds the input left. -/
def readMantissa (hex : Bool) :
    List Char → Nat → Nat → Bool → Bool → (Nat × Nat × Bool) × List Char
  | [], mant, frac, _, sawdigits => ((mant, frac, sawdigits), [])
  | c :: cs, mant, frac, sawdot, sawdigits =>
    if c = '_' then readMantissa hex cs mant frac sawdot sawdigits
    else if c = '.' then
      (if sawdot then ((mant, frac, sawdigits), c :: cs)
       else readMantissa hex cs mant frac true sawdigits)
    else if c ∈ decimalDigits then
      readMantissa hex cs (mant * (if hex then 16 else 10) + digitVal c)
        (if sawdot then frac + 1 else frac) sawdot true
    else if hex ∧ c ∈ hexadecimalDigits then
      readMantissa hex cs (mant * 16 + hexVal c) (if sawdot then frac + 1 else frac) sawdot true
    else ((mant, frac, sawdigits), c :: cs)

/-- The exponent digits loop of `readFloat`: underscores are skipped and the
value stops growing once it has reached 10000. -/
def readExpDigits : List Char → Nat → Nat × List Char
  | [], e => (e, [])
  | c :: cs, e =>
    if c = '_' then readExpDigits cs e
    else if c ∈ decimalDigits then
      readExpDigits cs (if e < 10000 then e * 10 + digitVal c else e)
    else (e, c :: cs)

/-- The function `readFloat` of `strconv` on a string that is not a special
value, together with the test of `ParseFloat` that the whole string was used
and the test on underscores. -/
def readFloat (s : List Char) : Option FloatLit :=
  match s with
  | [] => none
  | c :: cs =>
    let neg : Bool := c = '-'
    let t : List Char := if c = '+' ∨ c = '-' then cs else c :: cs
    let hex : Bool := match t with
      | z :: x :: _ :: _ => z = '0' ∧ lowerASCII x = 'x'
      | _ => false
    let body : List Char := if hex then t.drop 2 else t
    match readMantissa hex body 0 0 false false with
    | ((mant, frac, sawdigits), rest) =>
      if !sawdigits then none
      else
        match rest with
        | [] => if hex then none
                else if s.contains '_' ∧ !underscoreOK s then none
                else some (.number neg hex mant frac 0)
        | e :: es =>
          if lowerASCII e = (if hex then 'p' else 'e') then
            match es with
            | [] => none
            | g :: gs =>
              let eneg : Bool := g = '-'
              let ds : List Char := if g = '+' ∨ g = '-' then gs else g :: gs
              match ds with
              | [] => none
              | d :: _ =>
                if d ∈ decimalDigits then
                  match readExpDigits ds 0 with
                  | (ev, []) =>
                    if s.contains '_' ∧ !underscoreOK s then none
                    else some (.number neg hex mant frac (if eneg then -(ev : Int) else ev))
                  | (_, _ :: _) => none
                else none
          else none

/-- The syntax side of `strconv.ParseFloat`. -/
def parseFloatLit (s : List Char) : Option FloatLit :=
  match special s with
  | some v => some (.special v)
  | none => readFloat s

/-- The rational a number read by `readFloat` stands for. -/
def litValue (neg hex : Bool) (mant fracDigits : Nat) (exp : Int) : ℚ :=
  (if neg then -1 else 1) * (mant : ℚ)
    * (if hex then (2 : ℚ) ^ (exp - 4 * (fracDigits : Int))
       else (10 : ℚ) ^ (exp - (fracDigits : Int)))

/-- The function `strconv.ParseFloat(s, 64)`: the nearest `float64`, with a
range error when that is out of range. -/
def ParseFloat (s : List Char) : Except ScanError Float64Val :=
  match parseFloatLit s with
  | none => .error .badSyntax
  | some (.special v) => .ok v
  | some (.number neg hex mant frac exp) =>
    if (2 : ℚ) ^ 1024 ≤ |float64 (litValue neg hex mant frac exp)| then .error .outOfRange
    else .ok (.finite (float64 (litValue neg hex mant frac exp)))

/-- The function `math.Ldexp`: `x * 2^k`, rounded, infinite when out of
range. -/
def Ldexp (x : Float64Val) (k : Int) : Float64Val :=
  match x with
  | .finite q =>
    if (2 : ℚ) ^ 1024 ≤ |float64 (q * (2 : ℚ) ^ k)| then .inf (decide (q < 0))
    else .finite (float64 (q * (2 : ℚ) ^ k))
  | v => v

/-- The method `convertFloat`: `ParseFloat`, except that a decimal mantissa
with a binary exponent (`1.5p3`) is put together with `Atoi` and `Ldexp`. -/
def convertFloat (tok : List Char) : Except ScanError Float64Val :=
  if tok.contains 'p' ∧ !(tok.contains 'x' ∨ tok.contains 'X') then
    match ParseFloat (tok.takeWhile fun c => c ≠ 'p') with
    | .error e => .error e
    | .ok f =>
      match ParseInt ((tok.dropWhile fun c => c ≠ 'p').drop 1) with
      | .error e => .error e
      | .ok k => .ok (Ldexp f k)
  else ParseFloat tok

/-- The scan of a `*float64` operand under the verb `%g`: the token taken by
`floatToken` after spaces, and the input left. -/
def scanFloatToken (inp : List Char) : Except ScanError (List Char × List Char) :=
  match skipSpace inp with
  | .error e => .error e
  | .ok [] => .error .eof
  | .ok (c :: cs) => .ok (floatToken (c :: cs))

/-- The method `advance` on the literal text `", "` of the format: a comma,
then at least one space (or the end of the input), a newline not being
one. -/
def advanceCommaSpace (inp : List Char) : Except ScanError (List Char) :=
  match inp with
  | [] => .error .unexpectedEOF
  | c :: cs =>
    if c ≠ ',' then .error .inputDoesNotMatch
    else
      match cs with
      | [] => .ok []
      | d :: ds =>
        if !isSpace d then .error .expectedSpace
        else if d = newline then .error .newlineInInput
        else .ok (ds.dropWhile fun x => isSpace x ∧ x ≠ newline)

/-- The first two fields and the token of the third, as `doScanf` reads them
under `"%d, %d, %g"`.  An error comes with the number of fields stored before
it and with their values. -/
def scanFields (line : List Char) :
    Except (Nat × ScanError × Int × Int) (Int × Int × List Char) :=
  match scanInt line with
  | .error e => .error (0, e, 0, 0)
  | .ok (r, rest1) =>
    match advanceCommaSpace rest1 with
    | .error e => .error (1, e, r, 0)
    | .ok rest2 =>
      match scanInt rest2 with
      | .error e => .error (1, e, r, 0)
      | .ok (er, rest3) =>
        match advanceCommaSpace rest3 with
        | .error e => .error (2, e, r, er)
        | .ok rest4 =>
          match scanFloatToken rest4 with
          | .error e => .error (2, e, r, er)
          | .ok (tok, _) => .ok (r, er, tok)

/-- The outcome of `fmt.Sscanf(line, "%d, %d, %g", &red.Requests,
&red.Errors, &duration)`: the count and error returned and the three
operands as the call leaves them (they start as zero). -/
structure Scanned where
  n : Nat
  err : Option ScanError
  Requests : Int
  Errors : Int
  duration : Float64Val

/-- The call `fmt.Sscanf(line, "%d, %d, %g", &red.Requests, &red.Errors,
&duration)`. -/
def Sscanf (line : List Char) : Scanned :=
  match scanFields line with
  | .error (n, e, r, er) => ⟨n, some e, r, er, .finite 0⟩
  | .ok (r, er, tok) =>
    match convertFloat tok with
    | .error e => ⟨2, some e, r, er, .finite 0⟩
    | .ok d => ⟨3, none, r, er, d⟩

/-! ## The command `redstat` (`cmd/redstat/main.go`)

The command runs in a process of its own, with its own copy of package `red`.
What lies outside the program is an oracle: the answers of `http.Get`, and the
value the platform gives when a `float64` that does not fit is converted to
`int64` (the Go specification leaves it open).  Output on the standard output
is kept as a list of strings; `verbose` logging and `time.Sleep` are left
out. -/

/-- What `http.Get(url)` hands back: an error with its text, or a response
with its status code and what reading the body gives (an error text or the
bytes as a string). -/
inductive HttpResult where
  | failed (err : GoString)
  | response (StatusCode : Int) (Body : Except GoString GoString)

/-- The errors `getRed` and `redFromReader` return. -/
inductive RedstatError where
  /-- The text "getRed: connection refused, ...". -/
  | connectionRefused (err : GoString)
  /-- The text "getRed: get request failed, ...". -/
  | getFailed (err : GoString)
  /-- The text "getRed, read of body reported an error, ...". -/
  | badStatus (code : Int)
  /-- The text "io.Readall failed, ...". -/
  | readAllFailed (err : GoString)
  /-- The text "sscanf failed to scan a Red from ...". -/
  | sscanfFailed (line : GoString) (err : ScanError)
  /-- The text "sscanf failed, read ... fields from ...". -/
  | tooFewFields (n : Nat) (line : GoString)
  deriving DecidableEq, Repr

/-- The state of a `redstat` process and of what it talks to. -/
structure Env where
  /-- The state of package `red` in this process. -/
  world : World
  /-- The answer to the k-th `http.Get` of a URL. -/
  responses : GoString → Nat → HttpResult
  /-- The number of `http.Get` calls made. -/
  fetched : Nat
  /-- The platform's result for converting a `float64` that does not fit
  `int64`. -/
  f2i : Float64Val → Int
  /-- The lines printed by `report`. -/
  stdout : List GoString
  /-- The value of each Red handed to `report` at that moment (a ghost
  field). -/
  reports : List Red

/-- How a run of `redstat` ends without returning. -/
inductive Stop where
  /-- A run-time panic inside package `red`. -/
  | fault (f : Fault)
  /-- The call `panic(err)`, with `crash` set. -/
  | panicked (e : RedstatError)
  /-- The call `log.Fatalf`, which exits the process. -/
  | fatal (e : RedstatError)
  deriving DecidableEq, Repr

/-- A rational with its fraction dropped (rounding toward zero). -/
def truncate (q : ℚ) : Int := if 0 ≤ q then ⌊q⌋ else ⌈q⌉

/-- The conversion `time.Duration(duration)` of a `float64`: the fraction is
dropped; a value that does not fit is converted as the platform does. -/
def toInt64 (f2i : Float64Val → Int) (x : Float64Val) : Int :=
  match x with
  | .finite q =>
    if -(2 ^ 63 : Int) ≤ truncate q ∧ truncate q < 2 ^ 63 then truncate q else f2i x
  | v => f2i v

/-- The function `redFromReader`; `reader` is what `ioutil.ReadAll` gives.  The
result is the pointer and the error returned. -/
def redFromReader (reader : Except GoString GoString) (env : Env) :
    (Ptr × Option RedstatError) × Env :=
  match reader with
  | .error e =>
    let (z, w1) := alloc ⟨0, 0, 0, 0⟩ env.world
    ((some z, some (.readAllFailed e)), { env with world := w1 })
  | .ok line =>
    match (Sscanf line.toList).err with
    | some e =>
      let (z, w1) := alloc ⟨0, 0, 0, 0⟩ env.world
      ((some z, some (.sscanfFailed line e)), { env with world := w1 })
    | none =>
      if (Sscanf line.toList).n < 3 then
        let (z, w1) := alloc ⟨0, 0, 0, 0⟩ env.world
        ((some z, some (.tooFewFields (Sscanf line.toList).n line)), { env with world := w1 })
      else
        let (red, w1) := alloc
          ⟨(Sscanf line.toList).Requests, (Sscanf line.toList).Errors,
            wrapInt64 (toInt64 env.f2i (Sscanf line.toList).duration * Second), 0⟩ env.world
        ((some red, none), { env with world := w1 })

/-- The function `getRed`: gets a datum.  The result is the pointer and the
error returned. -/
def getRed (url : GoString) (env : Env) : (Ptr × Option RedstatError) × Env :=
  match Start env.world with
  | (zero, w1) =>
    match env.responses url env.fetched with
    | .failed err =>
      if "connection refused".toList <:+: err.toList then
        ((zero, some (.connectionRefused err)),
          { env with world := w1, fetched := env.fetched + 1 })
      else
        ((zero, some (.getFailed err)), { env with world := w1, fetched := env.fetched + 1 })
    | .response code body =>
      if code > 299 then
        ((zero, some (.badStatus code)), { env with world := w1, fetched := env.fetched + 1 })
      else
        match redFromReader body { env with world := w1, fetched := env.fetched + 1 } with
        | ((_, some e), env2) => ((zero, some e), env2)
        | ((red, none), env2) => ((red, none), env2)

/-- The function `report`: produces human-oriented or json output. -/
def report (r : Ptr) (json : Bool) (env : Env) : Except Fault Env :=
  let seen : List Red := match r with
    | some a => (env.world.heap[a]?).toList
    | none => []
  if json then
    match Red.MarshalJSON r env.world with
    | .error f => .error f
    | .ok ((s, _), w1) =>
      .ok { env with world := w1, stdout := env.stdout ++ ["red = " ++ s],
                     reports := env.reports ++ seen }
  else
    match Red.String r env.world with
    | .error f => .error f
    | .ok (s, w1) =>
      .ok { env with world := w1, stdout := env.stdout ++ ["red = " ++ s ++ "\n"],
                     reports := env.reports ++ seen }

/-- The assignment `difference.Duration = tick`. -/
def setDuration (r : Ptr) (tick : Int) (w : World) : Except Fault World :=
  match r with
  | none => .error .nilDereference
  | some a =>
    match w.heap[a]? with
    | none => .error .nilDereference
    | some v => .ok (store a { v with Duration := tick } w)

/-- The end of a run on an error of `getRed`: `panic(err)` when `crash` is
set, `log.Fatalf` otherwise. -/
def halt (crash : Bool) (e : RedstatError) : Stop :=
  if crash then .panicked e else .fatal e

/-- The loop `for i := 1; i < (count + 1); i++` of `redstat`, entered with the
current `i`, `first` and `difference`.  The first argument bounds the number
of rounds; started at `count + 1` it is never used up before the loop
condition fails. -/
def redstatLoop (url : GoString) (json crash : Bool) (count tick : Int) :
    Nat → Int → Ptr → Ptr → Env → Except Stop (Ptr × Env)
  | 0, _, _, difference, env => .ok (difference, env)
  | k + 1, i, first, difference, env =>
    if i < wrapInt64 (count + 1) then
      match getRed url env with
      | ((_, some e), _) => .error (halt crash e)
      | ((second, none), env1) =>
        match Red.Subtract second first env1.world with
        | .error f => .error (.fault f)
        | .ok (difference1, w2) =>
          match setDuration difference1 tick w2 with
          | .error f => .error (.fault f)
          | .ok w3 =>
            match report difference1 json { env1 with world := w3 } with
            | .error f => .error (.fault f)
            | .ok env4 =>
              if i = wrapInt64 (count - 1) then .ok (difference1, env4)
              else redstatLoop url json crash count tick k (i + 1) second difference1 env4
    else .ok (difference, env)

/-- The function `redstat`: queries an interface a specified number of times.
The result is the pointer returned. -/
def redstat (url : GoString) (delay count : Int) (json crash : Bool) (env : Env) :
    Except Stop (Ptr × Env) :=
  if count = -1 ∨ count = 0 then
    match getRed url env with
    | ((_, some e), _) => .error (halt crash e)
    | ((first, none), env1) =>
      match report first json env1 with
      | .error f => .error (.fault f)
      | .ok env2 => .ok (first, env2)
  else if delay ≠ -1 then
    match getRed url env with
    | ((_, some e), _) => .error (halt crash e)
    | ((first, none), env1) =>
      redstatLoop url json crash count (wrapInt64 (delay * Second))
        (wrapInt64 (count + 1)).toNat 1 first none env1
  else .ok (none, env)

/-- A process that has just started, with the given answers to `http.Get`; the
platform converts a `float64` that does not fit to the smallest `int64`. -/
def initEnv (responses : GoString → Nat → HttpResult) : Env :=
  ⟨initWorld sampleClock, responses, 0, fun _ => -(2 ^ 63), [], []⟩

/-- A server whose k-th answer is status 200 with the k-th of the given
lines (and a refused connection once they are used up). -/
def serve (lines : List GoString) : GoString → Nat → HttpResult :=
  fun _ k =>
    match lines[k]? with
    | some l => .response 200 (.ok l)
    | none => .failed "dial tcp: connection refused"

/-- The state after a `getRed` that went well and read the sample `s`: `Start`
has queued its message and made its handle, and `s` sits in a new cell. -/
def fetchedEnv (env : Env) (s : Red) : Env :=
  { env with world := (alloc s (Start env.world).2).2, fetched := env.fetched + 1 }

/-- Three samples served one after the other. -/
def sampleServer : GoString → Nat → HttpResult :=
  serve ["10, 0, 0", "16, 0, 0", "30, 0, 0"]

/-- The report `redstat` makes of the sample `s` when `first` points at a cell
holding `x`: the differences of the counters, tagged with `tick`. -/
def delta (s x : Red) (tick : Int) : Red :=
  ⟨wrapInt64 (s.Requests - x.Requests), wrapInt64 (s.Errors - x.Errors), tick, s.StartTime⟩

/-- The state after one round of the loop of `redstat` that read the sample
`s` and reported `d`: the cell of the sample now holds `d`. -/
def roundEnv (env : Env) (s d : Red) (json : Bool) : Env :=
  { fetchedEnv env s with
    world := store (env.world.heap.length + 1) d (fetchedEnv env s).world,
    stdout := env.stdout
      ++ [if json then "red = " ++ jsonRed d else "red = " ++ formatRed d ++ "\n"],
    reports := env.reports ++ [d] }

/-- The sample run after its first fetch, which read 10, 0, 0. -/
def sampleEnv1 : Env := fetchedEnv (initEnv sampleServer) ⟨10, 0, 0, 0⟩

/-- The sample run after its first round, which read 16, 0, 0. -/
def sampleEnv2 : Env :=
  roundEnv sampleEnv1 ⟨16, 0, 0, 0⟩ (delta ⟨16, 0, 0, 0⟩ ⟨10, 0, 0, 0⟩ 1000000000) false

/-- The sample run after its second round, which read 30, 0, 0. -/
def sampleEnv3 : Env :=
  roundEnv sampleEnv2 ⟨30, 0, 0, 0⟩ (delta ⟨30, 0, 0, 0⟩ ⟨6, 0, 1000000000, 0⟩ 1000000000) false


/-! ## Many goroutines calling at once

Callers run in goroutines of their own and meet the worker only through the
two channels.  Each point at which a goroutine can block or be preempted is
one action of the system: a caller's `send`, the worker's receive from
`toWorker` (with the handling of the message, which touches `main` and nothing
a caller can read), the worker's send in `reply`, a caller's `receive`, and
each of the three stores of `r.Requests, r.Errors, r.Duration = tmp.Requests,
tmp.Errors, tmp.Duration`, which no lock or channel protects.  The replies
carry no mark of the call they answer: a goroutine takes whichever reply is
first in `fromWorker`. -/

/-- The capacity of both channels: `make(chan msg, 100)` and
`make(chan *Red, 100)`. -/
def capacity : Nat := 100

/-- The message `Add` or `Set` sends for the call `c` when the field passes
the `switch`; `none` when the call returns the usage error without sending. -/
def Call.message (c : Call) : Option msg :=
  if c.field = REQUESTS ∨ c.field = ERRORS then
    some ⟨if c.isSet then set else add, c.field, c.value⟩
  else none

/-- Where a goroutine is in its current call. -/
inductive Phase where
  /-- Between two calls. -/
  | idle
  /-- Blocked in `receive`, its message sent. -/
  | waiting
  /-- It holds the reply `tmp` and has made the first `stored` of the three
  stores into its handle. -/
  | copying (tmp : Red) (stored : Nat)
  deriving DecidableEq, Repr

/-- A goroutine that makes `Add` and `Set` calls on a handle: the calls it has
not begun yet, in program order, and where it is in the current one. -/
structure Goroutine where
  handle : Nat
  todo : List Call
  phase : Phase
  deriving DecidableEq, Repr

/-- The actions of the system. -/
inductive Action where
  /-- Goroutine `i` begins its next call: the `switch` on the field and, when
  it passes, `r.send(...)`. -/
  | call (i : Nat)
  /-- The worker receives the next message from `toWorker` and handles it up
  to its call of `reply`. -/
  | take
  /-- The worker's `fromWorker <- &tmp` in `reply`. -/
  | reply
  /-- Goroutine `i` gets its `tmp := r.receive()`. -/
  | receive (i : Nat)
  /-- Goroutine `i` makes the next of its three stores into its handle; after
  the third the call returns. -/
  | store (i : Nat)
  deriving DecidableEq, Repr

/-- The worker, the channels and the calling goroutines. -/
structure Machine where
  world : World
  /-- The reply the worker has built and not yet sent. -/
  outbox : List Red
  goroutines : List Goroutine
  /-- Every call begun so far, with the index of its goroutine, in the order
  in which the calls were begun (a ghost field). -/
  order : List (Nat × Call)
  /-- Every message the worker has received so far, in order (a ghost field). -/
  handled : List msg
  /-- Every reply a goroutine has received so far, with the index of the
  goroutine (a ghost field). -/
  seen : List (Nat × Red)

/-- One store of the assignment `r.Requests, r.Errors, r.Duration =
tmp.Requests, tmp.Errors, tmp.Duration` through the pointer `a`: into
`Requests` when `k` is 0, into `Errors` when it is 1, into `Duration`
otherwise. -/
def storeField (a k : Nat) (tmp : Red) (w : World) : Except Fault World :=
  match w.heap[a]? with
  | none => .error .nilDereference
  | some old =>
    .ok (store a
      (if k = 0 then { old with Requests := tmp.Requests }
       else if k = 1 then { old with Errors := tmp.Errors }
       else { old with Duration := tmp.Duration }) w)

/-- One action, where it is enabled; `none` where the goroutine is blocked,
has nothing left to run, or panics. -/
def step (a : Action) (s : Machine) : Option Machine :=
  match a with
  | .call i =>
    match s.goroutines[i]? with
    | none => none
    | some g =>
      match g.phase, g.todo with
      | .idle, c :: rest =>
        match c.message with
        | none =>
          some { s with
            goroutines := s.goroutines.set i { g with todo := rest }
            order := s.order ++ [(i, c)] }
        | some m =>
          if s.world.toWorker.length < capacity then
            some { s with
              world := send m.operation m.operand m.value s.world
              goroutines := s.goroutines.set i { g with todo := rest, phase := .waiting }
              order := s.order ++ [(i, c)] }
          else none
      | _, _ => none
  | .take =>
    match s.outbox, s.world.toWorker with
    | [], m :: ms =>
      match workerStep (s.world.clock s.world.tick) s.world.main m with
      | .error _ => none
      | .ok (main1, replies) =>
        some { s with
          world := { s.world with main := main1, toWorker := ms, tick := s.world.tick + 1 }
          outbox := replies
          handled := s.handled ++ [m] }
    | _, _ => none
  | .reply =>
    match s.outbox with
    | [] => none
    | r :: rest =>
      if s.world.fromWorker.length < capacity then
        some { s with
          world := { s.world with fromWorker := s.world.fromWorker ++ [r] }
          outbox := rest }
      else none
  | .receive i =>
    match s.goroutines[i]? with
    | none => none
    | some g =>
      match g.phase, s.world.fromWorker with
      | .waiting, r :: rest =>
        some { s with
          world := { s.world with fromWorker := rest }
          goroutines := s.goroutines.set i { g with phase := .copying r 0 }
          seen := s.seen ++ [(i, r)] }
      | _, _ => none
  | .store i =>
    match s.goroutines[i]? with
    | none => none
    | some g =>
      match g.phase with
      | .copying tmp k =>
        match storeField g.handle k tmp s.world with
        | .error _ => none
        | .ok w1 =>
          some { s with
            world := w1
            goroutines := s.goroutines.set i
              { g with phase := if k < 2 then .copying tmp (k + 1) else .idle } }
      | _ => none

/-- A schedule: the actions taken one after the other. -/
def run : List Action → Machine → Option Machine
  | [], s => some s
  | a :: rest, s =>
    match step a s with
    | none => none
    | some s1 => run rest s1

/-- The system in which goroutine `i` is about to make the calls `progs[i].2`
on the handle at address `progs[i].1`. -/
def initMachine (w : World) (progs : List (Nat × List Call)) : Machine :=
  { world := w, outbox := [], goroutines := progs.map fun p => ⟨p.1, p.2, .idle⟩,
    order := [], handled := [], seen := [] }

/-- Every goroutine has returned from its last call. -/
def Finished (s : Machine) : Prop :=
  ∀ g ∈ s.goroutines, g.todo = [] ∧ g.phase = .idle

instance (s : Machine) : Decidable (Finished s) := by
  unfold Finished
  infer_instance

/-- The calls of goroutine `i` in `order`, in that order. -/
def callsOf (i : Nat) (order : List (Nat × Call)) : List Call :=
  (order.filter fun p => p.1 = i).map Prod.snd

/-- The messages sent by the calls of `order`, in that order. -/
def messages (order : List (Nat × Call)) : List msg :=
  order.filterMap fun p => p.2.message

/-- The number of goroutines blocked in `receive`. -/
def waitingCount (gs : List Goroutine) : Nat :=
  (gs.filter fun g => g.phase = .waiting).length

/-- The last reply goroutine `i` has received, if it has received one. -/
def lastSeen (i : Nat) (seen : List (Nat × Red)) : Option Red :=
  ((seen.filter fun p => p.1 = i).map Prod.snd).getLast?

/-- The handle that held `init` once all three fields of the reply have been
copied into it. -/
def copied (init : Red) (reply : Option Red) : Red :=
  match reply with
  | none => init
  | some r => ⟨r.Requests, r.Errors, r.Duration, init.StartTime⟩

/-- What every schedule keeps true of the system started from `w0` with the
programs `progs`. -/
structure Inv (w0 : World) (progs : List (Nat × List Call)) (s : Machine) : Prop where
  prog : ∀ i g, s.goroutines[i]? = some g →
    ∃ p, progs[i]? = some p ∧ g.handle = p.1 ∧ callsOf i s.order ++ g.todo = p.2
  size : s.goroutines.length = progs.length
  fifo : s.handled ++ s.world.toWorker = w0.toWorker ++ messages s.order
  clock : s.world.clock = w0.clock
  heap : s.world.heap.length = w0.heap.length
  seq : ∃ w1, worker s.handled w0 = .ok w1 ∧ w1.main = s.world.main ∧
    w1.tick = s.world.tick ∧
    w1.fromWorker = s.seen.map Prod.snd ++ s.world.fromWorker ++ s.outbox
  count : waitingCount s.goroutines + s.seen.length = (messages s.order).length

/-- What a handle holds that only one goroutine copies into, when it held `init`
at first and `last` is the last reply that goroutine received: outside the
copy, `init` or the three fields of `last`; inside the copy of `tmp`, the
fields of `tmp` stored so far. -/
def OwnsCell : Phase → Option Red → Red → Option Red → Prop
  | .copying tmp k, last, init, cell =>
    last = some tmp ∧ k ≤ 2 ∧
    ∃ c, cell = some c ∧ c.StartTime = init.StartTime ∧
      (0 < k → c.Requests = tmp.Requests) ∧ (1 < k → c.Errors = tmp.Errors)
  | _, last, init, cell => cell = some (copied init last)

/-- What every schedule keeps true of the handle of goroutine `i` when no other
goroutine has the same handle. -/
def Owns (w0 : World) (i : Nat) (s : Machine) : Prop :=
  ∀ g init, s.goroutines[i]? = some g → w0.heap[g.handle]? = some init →
    OwnsCell g.phase (lastSeen i s.seen) init s.world.heap[g.handle]?

/-- The messages that change the store: `start`, and `add` or `set` on
REQUESTS or ERRORS. -/
def IsUpdate (m : msg) : Prop :=
  m.operation = start ∨
    ((m.operation = add ∨ m.operation = set) ∧ (m.operand = REQUESTS ∨ m.operand = ERRORS))

instance (m : msg) : Decidable (IsUpdate m) := by
  unfold IsUpdate
  infer_instance

/-- The number of messages in `ms` other than `start`, the ones the worker
answers. -/
def answered (ms : List msg) : Nat :=
  (ms.filter fun m => m.operation ≠ start).length

/-- The actions a goroutine in this phase still has to take in its call. -/
def Phase.left : Phase → Nat
  | .copying _ 0 => 3
  | .copying _ 1 => 2
  | .copying _ _ => 1
  | _ => 0

/-- A bound on the number of actions the system can still take: every action
makes it smaller. -/
def Machine.fuel (s : Machine) : Nat :=
  (s.goroutines.map fun g => 7 * g.todo.length + g.phase.left).sum
    + 6 * s.world.toWorker.length + 5 * s.outbox.length + 4 * s.world.fromWorker.length

/-- The state after two calls of `Start()`: two handles, at addresses 0 and 1,
and two `start` messages the worker has not yet received. -/
def sampleStarted : World := (Start (Start (initWorld sampleClock)).2).2

/-- Two goroutines: one calls `Add(REQUESTS, 1)` and then `Set(ERRORS, 7)` on
the first handle, the other `Add(REQUESTS, 2)` on the second. -/
def sampleProgs : List (Nat × List Call) :=
  [(0, [⟨false, REQUESTS, 1⟩, ⟨true, ERRORS, 7⟩]), (1, [⟨false, REQUESTS, 2⟩])]

/-- A schedule of the two goroutines in which both send before the worker
runs, and the second goroutine receives the reply to the first one's `add`. -/
def sampleSchedule : List Action :=
  [.call 0, .call 1, .take, .take, .take, .reply, .receive 1, .take, .reply, .receive 0,
   .store 1, .store 0, .store 0, .store 1, .store 1, .store 0,
   .call 0, .take, .reply, .receive 0, .store 0, .store 0, .store 0]

/-- The state the sample schedule ends in. -/
def sampleFinal : Machine :=
  (run sampleSchedule (initMachine sampleStarted sampleProgs)).getD
    (initMachine sampleStarted sampleProgs)

/-- Two goroutines on one handle, the first, as in `BenchmarkAdd`: one calls
`Add(REQUESTS, 1)`, the other `Add(ERRORS, 1)` and then `Add(REQUESTS, 1)`. -/
def sampleShared : List (Nat × List Call) :=
  [(0, [⟨false, REQUESTS, 1⟩]), (0, [⟨false, ERRORS, 1⟩, ⟨false, REQUESTS, 1⟩])]

/-- A schedule of the two goroutines on one handle: the first goroutine is
preempted after the first of its three stores, the second makes both its calls,
then the first makes its other two stores. -/
def sampleTornSchedule : List Action :=
  [.call 0, .take, .take, .take, .reply, .receive 0, .store 0,
   .call 1, .take, .reply, .receive 1, .store 1, .store 1, .store 1,
   .call 1, .take, .reply, .receive 1, .store 1, .store 1, .store 1,
   .store 0, .store 0]

/-- The state the schedule on one handle ends in. -/
def sampleTorn : Machine :=
  (run sampleTornSchedule (initMachine sampleStarted sampleShared)).getD
    (initMachine sampleStarted sampleShared)

/-! ## Sequences of calls of the whole public interface -/

/-- One call of `Start`, `Add`, `Set`, `GetAll` or `Now`, with its arguments. -/
inductive PublicCall where
  | Start
  | Add (r : Ptr) (f : Fields) (val : Int)
  | Set (r : Ptr) (f : Fields) (val : Int)
  | GetAll (r : Ptr)
  | Now (r : Ptr)
  deriving DecidableEq, Repr

/-- The state a public call leaves behind when it returns; the value it returns
is dropped. -/
def callPublic (c : PublicCall) (w : World) : Except Fault World :=
  match c with
  | .Start => .ok (Start w).2
  | .Add r f val =>
    match Red.Add r f val w with
    | .error e => .error e
    | .ok (_, w1) => .ok w1
  | .Set r f val =>
    match Red.Set r f val w with
    | .error e => .error e
    | .ok (_, w1) => .ok w1
  | .GetAll r =>
    match Red.GetAll r w with
    | .error e => .error e
    | .ok (_, w1) => .ok w1
  | .Now r =>
    match Red.Now r w with
    | .error e => .error e
    | .ok (_, w1) => .ok w1

/-- Public calls made one after the other. -/
def runPublic : List PublicCall → World → Except Fault World
  | [], w => .ok w
  | c :: cs, w =>
    match callPublic c w with
    | .error e => .error e
    | .ok w1 => runPublic cs w1

/-- The receiver a call is made on; `Start` has none. -/
def PublicCall.handle : PublicCall → Ptr
  | .Start => none
  | .Add r _ _ => r
  | .Set r _ _ => r
  | .GetAll r => r
  | .Now r => r

/-- The number of cells a call adds to the heap: `Start` makes its handle, and
`Now` on nil its temporary `&Red{}`. -/
def PublicCall.cells : PublicCall → Nat
  | .Start => 1
  | .Now none => 1
  | _ => 0

/-- Every receiver in the calls is nil or points at a cell that exists by the
time of the call, in a heap that has `n` cells before the first call. -/
def handlesOK : Nat → List PublicCall → Bool
  | _, [] => true
  | n, c :: cs =>
    (match c.handle with
      | none => true
      | some a => decide (a < n)) && handlesOK (n + c.cells) cs

/-- The message a call hands to `send`, if it gets that far: nothing on a nil
receiver (but for `Now`) and nothing for `Add` or `Set` on a field other than
REQUESTS and ERRORS. -/
def PublicCall.message : PublicCall → Option msg
  | .Start => some ⟨start, NONE, 0⟩
  | .Add r f val =>
    if r ≠ none ∧ (f = REQUESTS ∨ f = ERRORS) then some ⟨add, f, val⟩ else none
  | .Set r f val =>
    if r ≠ none ∧ (f = REQUESTS ∨ f = ERRORS) then some ⟨set, f, val⟩ else none
  | .GetAll r => if r ≠ none then some ⟨getall, NONE, 0⟩ else none
  | .Now _ => some ⟨now, NONE, 0⟩

/-- The cell a call copies its reply into: the receiver, or for `Now` on nil
the new cell, in a heap of `n` cells. -/
def PublicCall.target (c : PublicCall) (n : Nat) : Nat :=
  match c.handle with
  | some a => a
  | none => n

/-- A sample of calls: good ones, calls on nil, calls on fields that are not
counters. -/
def samplePublic : List PublicCall :=
  [.Add none REQUESTS 1, .Start, .Add (some 0) REQUESTS 5, .Set (some 0) DURATION 3,
   .Add (some 0) 17 2, .Start, .Set (some 1) ERRORS (-4), .GetAll none, .GetAll (some 0),
   .Now none, .Now (some 2), .Add (some 1) NONE 9]

/-! ## The wire format, in the words of the specification

One line, `<requests:int>, <errors:int>, <duration:float seconds>`, read
positionally.  These definitions follow the specification and not the code:
the theorems on `redFromReader` compare the code with them. -/

/-- A blank: white space other than the newline. -/
def isBlank (c : Char) : Bool := isSpace c && decide (c ≠ newline)

/-- The text `<int>`: an optional sign, then one or more decimal digits. -/
def isInteger (s : List Char) : Bool :=
  match s with
  | [] => false
  | c :: cs =>
    if c = '+' ∨ c = '-' then !cs.isEmpty && cs.all fun d => decide (d ∈ decimalDigits)
    else (c :: cs).all fun d => decide (d ∈ decimalDigits)

/-- The number a run of decimal digits stands for when `n` was read before
it. -/
def decimalValue : List Char → Nat → Nat
  | [], n => n
  | c :: cs, n => decimalValue cs (n * 10 + digitVal c)

/-- The number a text `<int>` stands for. -/
def integerValue (s : List Char) : Int :=
  match s with
  | [] => 0
  | c :: cs =>
    if c = '-' then -(decimalValue cs 0 : Int)
    else if c = '+' then (decimalValue cs 0 : Int)
    else (decimalValue (c :: cs) 0 : Int)

/-- The lines that follow the wire format up to the start of the third field:
blanks, an integer, a comma, one or more blanks, an integer, a comma, one or
more blanks, and then the text `third`, which starts with a rune that is not
white space.  The two integers are `r` and `e` and fit 64 bits. -/
def WireLine (line : List Char) (r e : Int) (third : List Char) : Prop :=
  ∃ sp0 i1 sp1 i2 sp2 : List Char,
    line = sp0 ++ (i1 ++ ',' :: (sp1 ++ (i2 ++ ',' :: (sp2 ++ third)))) ∧
    (∀ c ∈ sp0, isBlank c = true) ∧ isInteger i1 = true ∧ integerValue i1 = r ∧
    sp1 ≠ [] ∧ (∀ c ∈ sp1, isBlank c = true) ∧ isInteger i2 = true ∧ integerValue i2 = e ∧
    sp2 ≠ [] ∧ (∀ c ∈ sp2, isBlank c = true) ∧
    -(2 ^ 63) ≤ r ∧ r < 2 ^ 63 ∧ -(2 ^ 63) ≤ e ∧ e < 2 ^ 63 ∧
    ∃ (c : Char) (rest : List Char), third = c :: rest ∧ isSpace c = false

/-- The first field of a line: the text before the first comma, without the
blanks in front. -/
def firstToken (line : List Char) : List Char :=
  (line.dropWhile isBlank).takeWhile fun c => decide (c ≠ ',')

/-- The text after the first comma of a line; empty when there is no comma. -/
def afterComma (line : List Char) : List Char :=
  (line.dropWhile fun c => decide (c ≠ ',')).drop 1

/-- The second field of a line. -/
def secondToken (line : List Char) : List Char := firstToken (afterComma line)

/-- The text after the second comma of a line, without the blanks in front. -/
def thirdText (line : List Char) : List Char :=
  (afterComma (afterComma line)).dropWhile isBlank

/-- A text without its sign, if it starts with one. -/
def unsigned (s : List Char) : List Char :=
  match s with
  | c :: cs => if c = '+' ∨ c = '-' then cs else c :: cs
  | [] => []

/-- Whether a text begins with a digit, or with a point and a digit. -/
def startsDigits : List Char → Bool
  | a :: b :: _ => decide (a ∈ decimalDigits) || (decide (a = '.') && decide (b ∈ decimalDigits))
  | [a] => decide (a ∈ decimalDigits)
  | [] => false

/-- Whether a text begins as a floating-point number does: after an optional
sign, a digit, or a point and a digit, or `inf` in any case of the letters;
or, without a sign, `nan` in any case of the letters. -/
def startsNumber (s : List Char) : Bool :=
  startsDigits (unsigned s) || "inf".toList.isPrefixOf ((unsigned s).map lowerASCII)
    || "nan".toList.isPrefixOf (s.map lowerASCII)

/-! ## Lemmas on the worker and the round trip -/

theorem settle_eq (clock : Nat → Int) (ms : List msg) (k : Nat) (s : Red) :
    settle clock ms k s
      = if ms = [] then s else ⟨0, 0, 0, clock (k + ms.length - 1)⟩ := by
  induction ms generalizing k s with
  | nil => simp [settle]
  | cons m ms ih =>
    rw [settle, ih]
    by_cases h : ms = []
    · subst h; simp
    · have : 0 < ms.length := List.length_pos.mpr h
      simp [h]

theorem workerStep_start (t : Int) (s : Red) (m : msg) (h : m.operation = start) :
    workerStep t s m = .ok (⟨0, 0, 0, t⟩, []) := by
  simp [workerStep, h]

theorem awaitReply_starts (m : msg) (s1 r : Red) :
    ∀ (ms : List msg) (w : World), w.fromWorker = [] →
      (∀ x ∈ ms, x.operation = start) →
      workerStep (w.clock (w.tick + ms.length)) (settle w.clock ms w.tick w.main) m
        = .ok (s1, [r]) →
      awaitReply (ms ++ [m]) w
        = .ok (r, { w with main := s1, toWorker := [], fromWorker := [],
                           tick := w.tick + ms.length + 1 }) := by
  intro ms
  induction ms with
  | nil =>
    intro w hf _ hstep
    simp only [List.length_nil, Nat.add_zero, settle] at hstep
    simp [awaitReply, hf, hstep]
  | cons x xs ih =>
    intro w hf hall hstep
    have hx : x.operation = start := hall x (List.mem_cons_self _ _)
    have hxs : ∀ y ∈ xs, y.operation = start := fun y hy => hall y (List.mem_cons_of_mem _ hy)
    simp only [List.cons_append, awaitReply, hf, workerStep_start _ _ _ hx]
    have key := ih { w with main := ⟨0, 0, 0, w.clock w.tick⟩, fromWorker := [],
                            tick := w.tick + 1 } rfl hxs
    simp only [settle, List.length_cons] at hstep
    simp only [Nat.add_assoc, Nat.add_comm 1] at key hstep ⊢
    exact key hstep

/-- In single-caller use a round trip whose message the worker answers with
one reply `r` returns, and leaves exactly this state behind. -/
theorem roundTrip_single (w : World) (a : Nat) (old : Red) (operation : ops)
    (operand : Fields) (value : Int) (s1 r : Red)
    (hw : SingleCaller w) (ha : w.heap[a]? = some old)
    (hstep : workerStep (w.clock (settledTick w)) (settledMain w) ⟨operation, operand, value⟩
      = .ok (s1, [r])) :
    roundTrip a operation operand value w
      = .ok (replied w a old s1 r ⟨operation, operand, value⟩) := by
  have h := awaitReply_starts ⟨operation, operand, value⟩ s1 r w.toWorker
    (send operation operand value w) hw.1 hw.2 hstep
  simp only [roundTrip, receive]
  have hsend : (send operation operand value w).toWorker
      = w.toWorker ++ [⟨operation, operand, value⟩] := rfl
  rw [hsend, h]
  simp [assignFrom, store, send, ha, settledTick, replied]

theorem heap_lt_of_getElem? (w : World) (a : Nat) (old : Red) (ha : w.heap[a]? = some old) :
    a < w.heap.length := by
  rcases Nat.lt_or_ge a w.heap.length with h | h
  · exact h
  · rw [List.getElem?_eq_none h] at ha; cases ha

theorem replied_heap (w : World) (a : Nat) (old s1 r : Red) (m : msg)
    (ha : w.heap[a]? = some old) :
    (replied w a old s1 r m).heap[a]?
      = some ⟨r.Requests, r.Errors, r.Duration, old.StartTime⟩ := by
  have hlt := heap_lt_of_getElem? w a old ha
  simp [replied, List.getElem?_set, hlt]

/-! ## The worker's handling of `add` and `set` -/

/-- C1. For every worker state `s`, every field `f` in {REQUESTS, ERRORS} and
every value `v`, the worker handling `add(f, v)` makes the named counter its
old value plus `v` in int64 arithmetic, leaves the other counter, Duration and
StartTime alone, and replies exactly once with a copy of the new state.  In
single-caller use `h.Add(f, v)` returns nil and leaves the handle's Requests,
Errors and Duration equal to the store's new values. -/
theorem add_spec (f : Fields) (v : Int) (hf : f = REQUESTS ∨ f = ERRORS) :
    (∀ (t : Int) (s : Red), ∃ s1 : Red,
      workerStep t s ⟨add, f, v⟩ = .ok (s1, [s1]) ∧
      (f = REQUESTS → s1.Requests = wrapInt64 (s.Requests + v) ∧ s1.Errors = s.Errors) ∧
      (f = ERRORS → s1.Errors = wrapInt64 (s.Errors + v) ∧ s1.Requests = s.Requests) ∧
      s1.Duration = s.Duration ∧ s1.StartTime = s.StartTime) ∧
    (∀ (w : World) (a : Nat) (old : Red), SingleCaller w → w.heap[a]? = some old →
      ∃ w1 : World,
        Red.Add (some a) f v w = .ok (none, w1) ∧
        workerStep (w.clock (settledTick w)) (settledMain w) ⟨add, f, v⟩
          = .ok (w1.main, [w1.main]) ∧
        w1.heap[a]?
          = some ⟨w1.main.Requests, w1.main.Errors, w1.main.Duration, old.StartTime⟩) := by
  have hworker : ∀ (t : Int) (s : Red), ∃ s1 : Red,
      workerStep t s ⟨add, f, v⟩ = .ok (s1, [s1]) ∧
      (f = REQUESTS → s1.Requests = wrapInt64 (s.Requests + v) ∧ s1.Errors = s.Errors) ∧
      (f = ERRORS → s1.Errors = wrapInt64 (s.Errors + v) ∧ s1.Requests = s.Requests) ∧
      s1.Duration = s.Duration ∧ s1.StartTime = s.StartTime := by
    intro t s
    rcases hf with h | h <;> subst h
    · exact ⟨{ s with Requests := wrapInt64 (s.Requests + v) },
        by simp [workerStep, add, start], by simp [REQUESTS, ERRORS]⟩
    · exact ⟨{ s with Errors := wrapInt64 (s.Errors + v) },
        by simp [workerStep, add, start, REQUESTS, ERRORS], by simp [REQUESTS, ERRORS]⟩
  refine ⟨hworker, ?_⟩
  intro w a old hw ha
  obtain ⟨s1, hstep, -⟩ := hworker (w.clock (settledTick w)) (settledMain w)
  have hrt := roundTrip_single w a old add f v s1 s1 hw ha hstep
  refine ⟨replied w a old s1 s1 ⟨add, f, v⟩, ?_, hstep, replied_heap w a old s1 s1 _ ha⟩
  simp only [Red.Add, hf, if_true, hrt]

/-- C1, at a sample state: on the handle returned by the first `Start()`,
`Add(REQUESTS, 7)` returns nil with store and handle at Requests = 7. -/
theorem add_spec_witness :
    (REQUESTS = REQUESTS ∨ REQUESTS = ERRORS) ∧ SingleCaller sampleWorld ∧
    sampleWorld.heap[0]? = some ⟨0, 0, 0, 1000⟩ ∧
    (∃ s1 : Red, workerStep 5 ⟨1, 2, 3, 4⟩ ⟨add, REQUESTS, 7⟩ = .ok (s1, [s1]) ∧
      s1.Requests = wrapInt64 (1 + 7)) ∧
    (∃ w1 : World, Red.Add (some 0) REQUESTS 7 sampleWorld = .ok (none, w1) ∧
      w1.heap[0]? = some ⟨w1.main.Requests, w1.main.Errors, w1.main.Duration, 1000⟩) := by
  have h := add_spec REQUESTS 7 (Or.inl rfl)
  refine ⟨Or.inl rfl, by decide, by decide, ?_, ?_⟩
  · obtain ⟨s1, h1, h2, -⟩ := h.1 5 ⟨1, 2, 3, 4⟩
    exact ⟨s1, h1, (h2 rfl).1⟩
  · obtain ⟨w1, h1, -, h3⟩ := h.2 sampleWorld 0 ⟨0, 0, 0, 1000⟩ (by decide) (by decide)
    exact ⟨w1, h1, h3⟩

/-- C2. For every worker state `s`, every field `f` in {REQUESTS, ERRORS} and
every value `v`, the worker handling `set(f, v)` makes the named counter exactly
`v`, whatever it was, leaves the other counter, Duration and StartTime alone,
and replies exactly once with a copy of the new state, which `Set` copies into
the handle's Requests, Errors and Duration. -/
theorem set_spec (f : Fields) (v : Int) (hf : f = REQUESTS ∨ f = ERRORS) :
    (∀ (t : Int) (s : Red), ∃ s1 : Red,
      workerStep t s ⟨set, f, v⟩ = .ok (s1, [s1]) ∧
      (f = REQUESTS → s1.Requests = v ∧ s1.Errors = s.Errors) ∧
      (f = ERRORS → s1.Errors = v ∧ s1.Requests = s.Requests) ∧
      s1.Duration = s.Duration ∧ s1.StartTime = s.StartTime) ∧
    (∀ (w : World) (a : Nat) (old : Red), SingleCaller w → w.heap[a]? = some old →
      ∃ w1 : World,
        Red.Set (some a) f v w = .ok (none, w1) ∧
        workerStep (w.clock (settledTick w)) (settledMain w) ⟨set, f, v⟩
          = .ok (w1.main, [w1.main]) ∧
        w1.heap[a]?
          = some ⟨w1.main.Requests, w1.main.Errors, w1.main.Duration, old.StartTime⟩) := by
  have hworker : ∀ (t : Int) (s : Red), ∃ s1 : Red,
      workerStep t s ⟨set, f, v⟩ = .ok (s1, [s1]) ∧
      (f = REQUESTS → s1.Requests = v ∧ s1.Errors = s.Errors) ∧
      (f = ERRORS → s1.Errors = v ∧ s1.Requests = s.Requests) ∧
      s1.Duration = s.Duration ∧ s1.StartTime = s.StartTime := by
    intro t s
    rcases hf with h | h <;> subst h
    · exact ⟨{ s with Requests := v },
        by simp [workerStep, add, set, start], by simp [REQUESTS, ERRORS]⟩
    · exact ⟨{ s with Errors := v },
        by simp [workerStep, add, set, start, REQUESTS, ERRORS], by simp [REQUESTS, ERRORS]⟩
  refine ⟨hworker, ?_⟩
  intro w a old hw ha
  obtain ⟨s1, hstep, -⟩ := hworker (w.clock (settledTick w)) (settledMain w)
  have hrt := roundTrip_single w a old set f v s1 s1 hw ha hstep
  refine ⟨replied w a old s1 s1 ⟨set, f, v⟩, ?_, hstep, replied_heap w a old s1 s1 _ ha⟩
  simp only [Red.Set, hf, if_true, hrt]

/-- C2, at a sample state: the worker turns Errors = 2 into Errors = -9 on
`set(ERRORS, -9)`, and `Set(ERRORS, -9)` on the first handle returns nil. -/
theorem set_spec_witness :
    (ERRORS = REQUESTS ∨ ERRORS = ERRORS) ∧ SingleCaller sampleWorld ∧
    sampleWorld.heap[0]? = some ⟨0, 0, 0, 1000⟩ ∧
    (∃ s1 : Red, workerStep 5 ⟨1, 2, 3, 4⟩ ⟨set, ERRORS, -9⟩ = .ok (s1, [s1]) ∧
      s1.Errors = -9 ∧ s1.Requests = 1) ∧
    (∃ w1 : World, Red.Set (some 0) ERRORS (-9) sampleWorld = .ok (none, w1) ∧
      w1.heap[0]? = some ⟨w1.main.Requests, w1.main.Errors, w1.main.Duration, 1000⟩) := by
  have h := set_spec ERRORS (-9) (Or.inr rfl)
  refine ⟨Or.inr rfl, by decide, by decide, ?_, ?_⟩
  · obtain ⟨s1, h1, -, h2, -⟩ := h.1 5 ⟨1, 2, 3, 4⟩
    exact ⟨s1, h1, h2 rfl⟩
  · obtain ⟨w1, h1, -, h3⟩ := h.2 sampleWorld 0 ⟨0, 0, 0, 1000⟩ (by decide) (by decide)
    exact ⟨w1, h1, h3⟩

/-! ## `Start` followed by `GetAll` -/

theorem Start_fst (w : World) : (Start w).1 = some w.heap.length := rfl

theorem Start_singleCaller (w : World) (hw : SingleCaller w) : SingleCaller (Start w).2 := by
  refine ⟨hw.1, ?_⟩
  intro m hm
  have hm1 : m ∈ w.toWorker ++ [(⟨start, NONE, 0⟩ : msg)] := hm
  rcases List.mem_append.mp hm1 with h | h
  · exact hw.2 m h
  · rw [List.mem_singleton] at h
    rw [h]

theorem Start_heap (w : World) :
    (Start w).2.heap[w.heap.length]? = some ⟨0, 0, 0, w.clock w.tick⟩ := by
  simp [Start, send, timeNow, alloc]

theorem settledMain_Start (w : World) :
    settledMain (Start w).2 = ⟨0, 0, 0, w.clock (settledTick w + 1)⟩ := by
  simp only [settledMain, settledTick, Start, send, timeNow, alloc, settle_eq]
  simp [Nat.add_assoc, Nat.add_comm 1]

/-- C3. Whatever the store holds, `Start()` followed by `GetAll()` on the
returned handle, with nothing in between, returns nil and leaves the handle
with Requests = 0, Errors = 0 and Duration = 0; the `getall` message itself
does not change the store, which is the zeroed one `start` produced. -/
theorem start_getall_spec (w : World) (hw : SingleCaller w) :
    (∀ (t : Int) (s : Red), workerStep t s ⟨getall, NONE, 0⟩ = .ok (s, [s])) ∧
    (Start w).1 = some w.heap.length ∧
    (∃ w2 : World,
      Red.GetAll (Start w).1 (Start w).2 = .ok (none, w2) ∧
      w2.heap[w.heap.length]? = some ⟨0, 0, 0, w.clock w.tick⟩ ∧
      w2.main = settledMain (Start w).2 ∧
      w2.main = ⟨0, 0, 0, w.clock (settledTick w + 1)⟩) := by
  have hget : ∀ (t : Int) (s : Red), workerStep t s ⟨getall, NONE, 0⟩ = .ok (s, [s]) := by
    intro t s
    simp [workerStep, getall, start, add, set]
  refine ⟨hget, rfl, ?_⟩
  have hw1 := Start_singleCaller w hw
  have hh := Start_heap w
  have hrt := roundTrip_single (Start w).2 w.heap.length _ getall NONE 0 _ _ hw1 hh (hget _ _)
  refine ⟨replied (Start w).2 w.heap.length ⟨0, 0, 0, w.clock w.tick⟩
    (settledMain (Start w).2) (settledMain (Start w).2) ⟨getall, NONE, 0⟩, ?_, ?_, rfl, ?_⟩
  · simp only [Red.GetAll, Start_fst, hrt]
  · rw [replied_heap _ _ _ _ _ _ hh, settledMain_Start]
  · simp [replied, settledMain_Start]

/-- C3, at a sample state whose store and first handle hold 5 requests and 2
errors: `Start()` makes a second handle, and after `GetAll()` that handle and
the store hold 0, 0, 0. -/
theorem start_getall_spec_witness :
    SingleCaller sampleCounted ∧
    sampleCounted.main = ⟨5, 2, 0, 1010⟩ ∧ sampleCounted.heap = [⟨5, 2, 0, 1000⟩] ∧
    ∃ w2 : World,
      Red.GetAll (Start sampleCounted).1 (Start sampleCounted).2 = .ok (none, w2) ∧
      w2.heap[1]? = some ⟨0, 0, 0, 1040⟩ ∧ w2.main = ⟨0, 0, 0, 1050⟩ := by
  refine ⟨by decide, by rfl, by rfl, ?_⟩
  obtain ⟨w2, h1, h2, -, h3⟩ := (start_getall_spec sampleCounted (by decide)).2.2
  exact ⟨w2, h1, h2, h3⟩

/-! ## Usage errors -/

theorem workerStep_add_ok (t : Int) (s : Red) (f : Fields) (v : Int)
    (hf : f = REQUESTS ∨ f = ERRORS) :
    ∃ s1 : Red, workerStep t s ⟨add, f, v⟩ = .ok (s1, [s1]) := by
  rcases hf with h | h <;> subst h
  · exact ⟨{ s with Requests := wrapInt64 (s.Requests + v) }, by simp [workerStep, add, start]⟩
  · exact ⟨{ s with Errors := wrapInt64 (s.Errors + v) },
      by simp [workerStep, add, start, REQUESTS, ERRORS]⟩

theorem workerStep_set_ok (t : Int) (s : Red) (f : Fields) (v : Int)
    (hf : f = REQUESTS ∨ f = ERRORS) :
    ∃ s1 : Red, workerStep t s ⟨set, f, v⟩ = .ok (s1, [s1]) := by
  rcases hf with h | h <;> subst h
  · exact ⟨{ s with Requests := v }, by simp [workerStep, add, set, start]⟩
  · exact ⟨{ s with Errors := v }, by simp [workerStep, add, set, start, REQUESTS, ERRORS]⟩

/-- C4. `Add(f, v)` and `Set(f, v)` return a non-nil error exactly when the
handle is nil or `f` is neither REQUESTS nor ERRORS; a call that returns an
error leaves the whole state as it was (no message sent, handle untouched); on
a nil handle the text is "r is nil, please call Start() first", also for
`GetAll`, whatever the field; on a good handle and field a single caller gets
nil back. -/
theorem add_set_error_spec (f : Fields) (v : Int) (w : World) :
    Red.Add none f v w = .ok (some "r is nil, please call Start() first", w) ∧
    Red.Set none f v w = .ok (some "r is nil, please call Start() first", w) ∧
    Red.GetAll none w = .ok (some "r is nil, please call Start() first", w) ∧
    (∀ a : Nat, ¬(f = REQUESTS ∨ f = ERRORS) →
      Red.Add (some a) f v w = .ok (some (usageText "Add" f v), w) ∧
      Red.Set (some a) f v w = .ok (some (usageText "Set" f v), w)) ∧
    (∀ r : Ptr, (∃ e w1, Red.Add r f v w = .ok (some e, w1))
      ↔ (r = none ∨ ¬(f = REQUESTS ∨ f = ERRORS))) ∧
    (∀ r : Ptr, (∃ e w1, Red.Set r f v w = .ok (some e, w1))
      ↔ (r = none ∨ ¬(f = REQUESTS ∨ f = ERRORS))) ∧
    (∀ (r : Ptr) (e : GoString) (w1 : World),
      Red.Add r f v w = .ok (some e, w1) → w1 = w) ∧
    (∀ (r : Ptr) (e : GoString) (w1 : World),
      Red.Set r f v w = .ok (some e, w1) → w1 = w) ∧
    (∀ (a : Nat) (old : Red), SingleCaller w → w.heap[a]? = some old →
      (f = REQUESTS ∨ f = ERRORS) →
      (∃ w1, Red.Add (some a) f v w = .ok (none, w1)) ∧
      (∃ w1, Red.Set (some a) f v w = .ok (none, w1))) := by
  have hAddGood : ∀ (a : Nat) (e : GoString) (w1 : World), (f = REQUESTS ∨ f = ERRORS) →
      Red.Add (some a) f v w ≠ .ok (some e, w1) := by
    intro a e w1 hf
    simp only [Red.Add, hf, if_true]
    split <;> simp
  have hSetGood : ∀ (a : Nat) (e : GoString) (w1 : World), (f = REQUESTS ∨ f = ERRORS) →
      Red.Set (some a) f v w ≠ .ok (some e, w1) := by
    intro a e w1 hf
    simp only [Red.Set, hf, if_true]
    split <;> simp
  have hAddBad : ∀ a : Nat, ¬(f = REQUESTS ∨ f = ERRORS) →
      Red.Add (some a) f v w = .ok (some (usageText "Add" f v), w) := by
    intro a hf
    simp only [Red.Add, hf, if_false]
  have hSetBad : ∀ a : Nat, ¬(f = REQUESTS ∨ f = ERRORS) →
      Red.Set (some a) f v w = .ok (some (usageText "Set" f v), w) := by
    intro a hf
    simp only [Red.Set, hf, if_false]
  refine ⟨rfl, rfl, rfl, fun a hf => ⟨hAddBad a hf, hSetBad a hf⟩, ?_, ?_, ?_, ?_, ?_⟩
  · intro r
    constructor
    · rintro ⟨e, w1, h⟩
      cases r with
      | none => exact Or.inl rfl
      | some a =>
        right
        intro hf
        exact hAddGood a e w1 hf h
    · rintro (h | h)
      · subst h
        exact ⟨_, w, rfl⟩
      · cases r with
        | none => exact ⟨_, w, rfl⟩
        | some a => exact ⟨_, w, hAddBad a h⟩
  · intro r
    constructor
    · rintro ⟨e, w1, h⟩
      cases r with
      | none => exact Or.inl rfl
      | some a =>
        right
        intro hf
        exact hSetGood a e w1 hf h
    · rintro (h | h)
      · subst h
        exact ⟨_, w, rfl⟩
      · cases r with
        | none => exact ⟨_, w, rfl⟩
        | some a => exact ⟨_, w, hSetBad a h⟩
  · intro r e w1 h
    cases r with
    | none =>
      have h1 : Red.Add none f v w = .ok (some nilText, w) := rfl
      rw [h1] at h
      simp only [Except.ok.injEq, Prod.mk.injEq] at h
      exact h.2.symm
    | some a =>
      by_cases hf : f = REQUESTS ∨ f = ERRORS
      · exact absurd h (hAddGood a e w1 hf)
      · rw [hAddBad a hf] at h
        simp only [Except.ok.injEq, Prod.mk.injEq] at h
        exact h.2.symm
  · intro r e w1 h
    cases r with
    | none =>
      have h1 : Red.Set none f v w = .ok (some nilText, w) := rfl
      rw [h1] at h
      simp only [Except.ok.injEq, Prod.mk.injEq] at h
      exact h.2.symm
    | some a =>
      by_cases hf : f = REQUESTS ∨ f = ERRORS
      · exact absurd h (hSetGood a e w1 hf)
      · rw [hSetBad a hf] at h
        simp only [Except.ok.injEq, Prod.mk.injEq] at h
        exact h.2.symm
  · intro a old hw ha hf
    obtain ⟨s1, h1⟩ := workerStep_add_ok (w.clock (settledTick w)) (settledMain w) f v hf
    obtain ⟨s2, h2⟩ := workerStep_set_ok (w.clock (settledTick w)) (settledMain w) f v hf
    refine ⟨⟨replied w a old s1 s1 ⟨add, f, v⟩, ?_⟩, ⟨replied w a old s2 s2 ⟨set, f, v⟩, ?_⟩⟩
    · simp only [Red.Add, hf, if_true, roundTrip_single w a old add f v s1 s1 hw ha h1]
    · simp only [Red.Set, hf, if_true, roundTrip_single w a old set f v s2 s2 hw ha h2]

/-- C4, at a sample state: on the first handle `Add(DURATION, 5)` and
`Set(NONE, 5)` are refused with a usage error and `Add(ERRORS, 5)` returns
nil. -/
theorem add_set_error_spec_witness :
    ¬(DURATION = REQUESTS ∨ DURATION = ERRORS) ∧
    Red.Add (some 0) DURATION 5 sampleWorld
      = .ok (some "usage error, unsupported operand \"DURATION\" for Add(\"DURATION\", 5)",
          sampleWorld) ∧
    Red.Set (some 0) NONE 5 sampleWorld
      = .ok (some "usage error, unsupported operand \"unknown-field\" for Set(\"unknown-field\", 5)",
          sampleWorld) ∧
    SingleCaller sampleWorld ∧ sampleWorld.heap[0]? = some ⟨0, 0, 0, 1000⟩ ∧
    (ERRORS = REQUESTS ∨ ERRORS = ERRORS) ∧
    (∃ w1, Red.Add (some 0) ERRORS 5 sampleWorld = .ok (none, w1)) := by
  have h1 := (add_set_error_spec DURATION 5 sampleWorld).2.2.2.1 0 (by decide)
  have h2 := (add_set_error_spec NONE 5 sampleWorld).2.2.2.1 0 (by decide)
  have h3 := (add_set_error_spec ERRORS 5 sampleWorld).2.2.2.2.2.2.2.2 0 ⟨0, 0, 0, 1000⟩
    (by decide) (by decide) (Or.inr rfl)
  have t1 : usageText "Add" DURATION 5
      = "usage error, unsupported operand \"DURATION\" for Add(\"DURATION\", 5)" := by decide
  have t2 : usageText "Set" NONE 5
      = "usage error, unsupported operand \"unknown-field\" for Set(\"unknown-field\", 5)" := by
    decide
  rw [t1] at h1
  rw [t2] at h2
  exact ⟨by decide, h1.1, h2.2, by decide, by decide, Or.inr rfl, h3.1⟩

/-! ## `Now` -/

theorem workerStep_now (t : Int) (s : Red) :
    workerStep t s ⟨now, NONE, 0⟩
      = .ok (s, [⟨s.Requests, s.Errors, timeSub t s.StartTime, s.StartTime⟩]) := by
  simp [workerStep, now, start, add, set, getall, timeSince]

theorem timeSub_mono (t1 t2 u : Int) (h : t1 ≤ t2) : timeSub t1 u ≤ timeSub t2 u := by
  unfold timeSub minDuration maxDuration
  split_ifs <;> omega

theorem timeSub_exact (t u : Int) (h1 : minDuration ≤ t - u) (h2 : t - u ≤ maxDuration) :
    timeSub t u = t - u := by
  unfold timeSub
  unfold minDuration at h1
  unfold maxDuration at h2
  unfold minDuration maxDuration
  split_ifs <;> omega

theorem Now_single (w : World) (a : Nat) (old : Red) (hw : SingleCaller w)
    (ha : w.heap[a]? = some old) :
    Red.Now (some a) w
      = .ok (some a, replied w a old (settledMain w)
          ⟨(settledMain w).Requests, (settledMain w).Errors,
            timeSub (w.clock (settledTick w)) (settledMain w).StartTime,
            (settledMain w).StartTime⟩ ⟨now, NONE, 0⟩) := by
  simp only [Red.Now, roundTrip_single w a old now NONE 0 _ _ hw ha (workerStep_now _ _)]

theorem replied_singleCaller (w : World) (a : Nat) (old s1 r : Red) (m : msg) :
    SingleCaller (replied w a old s1 r m) :=
  ⟨rfl, fun _ h => absurd h (List.not_mem_nil _)⟩

theorem settledMain_replied (w : World) (a : Nat) (old s1 r : Red) (m : msg) :
    settledMain (replied w a old s1 r m) = s1 := rfl

theorem settledTick_replied (w : World) (a : Nat) (old s1 r : Red) (m : msg) :
    settledTick (replied w a old s1 r m) = settledTick w + 1 := rfl

/-- C5, as stated, fails: on the zero-valued store (no `Start()` yet) and a
clock reading of 63900000000000000000 ns the `now` reply carries Duration
9223372036854775807, not the clock reading minus StartTime. -/
theorem now_spec_counterexample :
    workerStep 63900000000000000000 ⟨0, 0, 0, 0⟩ ⟨now, NONE, 0⟩
      = .ok (⟨0, 0, 0, 0⟩, [⟨0, 0, 9223372036854775807, 0⟩]) ∧
    (9223372036854775807 : Int) ≠ 63900000000000000000 - (⟨0, 0, 0, 0⟩ : Red).StartTime ∧
    ((Red.Now none (initWorld lateClock)).toOption.map fun p => (p.1, p.2.heap))
      = some (some 0, [⟨0, 0, 9223372036854775807, 0⟩]) := by
  refine ⟨?_, by decide, ?_⟩
  · rfl
  · rfl

/-- C5, amended.  The worker handling `now` leaves the stored state alone and
replies with a snapshot that has the store's Requests, Errors and StartTime and
whose Duration is the clock reading minus StartTime, saturated to the range of
`time.Duration` (so it is exactly that difference whenever it fits).  Replies
to `now` at a later clock reading never carry a smaller Duration.  On an
initialized handle of a single caller `Now()` returns that same handle with the
computed Duration copied into it, and a second `Now()` with a clock that did
not go back gives a Duration at least as large. -/
theorem now_spec :
    (∀ (t : Int) (s : Red), workerStep t s ⟨now, NONE, 0⟩
      = .ok (s, [⟨s.Requests, s.Errors, timeSub t s.StartTime, s.StartTime⟩])) ∧
    (∀ t u : Int, minDuration ≤ t - u → t - u ≤ maxDuration → timeSub t u = t - u) ∧
    (∀ t u : Int, maxDuration < t - u → timeSub t u = maxDuration) ∧
    (∀ t u : Int, t - u < minDuration → timeSub t u = minDuration) ∧
    (∀ (t1 t2 : Int) (s : Red), t1 ≤ t2 →
      timeSub t1 s.StartTime ≤ timeSub t2 s.StartTime) ∧
    (∀ (w : World) (a : Nat) (old : Red), SingleCaller w → w.heap[a]? = some old →
      ∃ w1 : World,
        Red.Now (some a) w = .ok (some a, w1) ∧
        w1.main = settledMain w ∧
        w1.heap[a]? = some ⟨(settledMain w).Requests, (settledMain w).Errors,
          timeSub (w.clock (settledTick w)) (settledMain w).StartTime, old.StartTime⟩) ∧
    (∀ (w : World) (a : Nat) (old : Red), SingleCaller w → w.heap[a]? = some old →
      w.clock (settledTick w) ≤ w.clock (settledTick w + 1) →
      ∃ (w1 w2 : World) (h1 h2 : Red),
        Red.Now (some a) w = .ok (some a, w1) ∧ Red.Now (some a) w1 = .ok (some a, w2) ∧
        w1.heap[a]? = some h1 ∧ w2.heap[a]? = some h2 ∧ h1.Duration ≤ h2.Duration ∧
        w2.main = w1.main) := by
  refine ⟨workerStep_now, timeSub_exact, ?_, ?_, fun t1 t2 s h => timeSub_mono t1 t2 _ h,
    ?_, ?_⟩
  · intro t u h
    simp [timeSub, h]
  · intro t u h
    have h2 : ¬ maxDuration < t - u := by
      unfold minDuration at h
      unfold maxDuration
      omega
    simp [timeSub, h, h2]
  · intro w a old hw ha
    exact ⟨_, Now_single w a old hw ha, rfl, replied_heap w a old _ _ _ ha⟩
  · intro w a old hw ha hclock
    have hN1 := Now_single w a old hw ha
    have hh1 := replied_heap w a old (settledMain w)
      ⟨(settledMain w).Requests, (settledMain w).Errors,
        timeSub (w.clock (settledTick w)) (settledMain w).StartTime,
        (settledMain w).StartTime⟩ ⟨now, NONE, 0⟩ ha
    have hN2 := Now_single _ a _ (replied_singleCaller w a old _ _ _) hh1
    have hh2 := replied_heap _ a _ (settledMain (replied w a old (settledMain w)
      ⟨(settledMain w).Requests, (settledMain w).Errors,
        timeSub (w.clock (settledTick w)) (settledMain w).StartTime,
        (settledMain w).StartTime⟩ ⟨now, NONE, 0⟩))
      ⟨(settledMain w).Requests, (settledMain w).Errors,
        timeSub (w.clock (settledTick w + 1)) (settledMain w).StartTime,
        (settledMain w).StartTime⟩ ⟨now, NONE, 0⟩ hh1
    exact ⟨_, _, _, _, hN1, hN2, hh1, hh2, timeSub_mono _ _ _ hclock, rfl⟩

/-- C5 amended, at a sample state: two `Now()` calls on the first handle. -/
theorem now_spec_witness :
    SingleCaller sampleWorld ∧ sampleWorld.heap[0]? = some ⟨0, 0, 0, 1000⟩ ∧
    sampleClock (settledTick sampleWorld) ≤ sampleClock (settledTick sampleWorld + 1) ∧
    (minDuration ≤ 1030 - 1020 ∧ 1030 - 1020 ≤ maxDuration ∧ timeSub 1030 1020 = 1030 - 1020) ∧
    (∃ (w1 w2 : World) (h1 h2 : Red),
      Red.Now (some 0) sampleWorld = .ok (some 0, w1) ∧
      Red.Now (some 0) w1 = .ok (some 0, w2) ∧
      w1.heap[0]? = some h1 ∧ w2.heap[0]? = some h2 ∧ h1.Duration ≤ h2.Duration ∧
      w2.main = w1.main) :=
  ⟨by decide, by decide, by decide,
    ⟨by decide, by decide, now_spec.2.1 1030 1020 (by decide) (by decide)⟩,
    now_spec.2.2.2.2.2.2 sampleWorld 0 ⟨0, 0, 0, 1000⟩ (by decide) (by decide) (by decide)⟩

/-- In single-caller use `Now()` on a nil handle allocates a cell, makes the
same round trip as on an initialized handle and returns the new cell. -/
theorem Now_nil_single (w : World) (hw : SingleCaller w) :
    Red.Now none w
      = .ok (some w.heap.length,
          replied { w with heap := w.heap ++ [⟨0, 0, 0, 0⟩] } w.heap.length ⟨0, 0, 0, 0⟩
            (settledMain w)
            ⟨(settledMain w).Requests, (settledMain w).Errors,
              timeSub (w.clock (settledTick w)) (settledMain w).StartTime,
              (settledMain w).StartTime⟩ ⟨now, NONE, 0⟩) := by
  have hw0 : SingleCaller { w with heap := w.heap ++ [⟨0, 0, 0, 0⟩] } := hw
  have ha : ({ w with heap := w.heap ++ [⟨0, 0, 0, 0⟩] } : World).heap[w.heap.length]?
      = some ⟨0, 0, 0, 0⟩ := by simp
  have hrt := roundTrip_single _ w.heap.length _ now NONE 0 _ _ hw0 ha (workerStep_now _ _)
  simp only [Red.Now, alloc]
  rw [hrt]
  rfl

/-- C6, as stated, fails: with the store at Requests = 5, `Now()` on a nil
handle returns a Red with Requests = 5 (not 0) and Duration = 20 (not 0), and
it does send a `now` message. -/
theorem now_nil_spec_counterexample :
    sampleBusy.main = ⟨5, 0, 0, 1010⟩ ∧
    ((Red.Now none sampleBusy).toOption.map fun p => (p.1, p.2.heap[1]?, p.2.sent))
      = some (some 1, some ⟨5, 0, 20, 0⟩, sampleBusy.sent ++ [⟨now, NONE, 0⟩]) ∧
    (5 : Int) ≠ 0 ∧ (20 : Int) ≠ 0 ∧ sampleBusy.sent ++ [⟨now, NONE, 0⟩] ≠ sampleBusy.sent := by
  refine ⟨by rfl, by rfl, by decide, by decide, by decide⟩

/-- C6, amended.  `Now()` on a nil handle does not fail: in single-caller use
it creates a fresh Red, sends one `now` message as on an initialized handle,
and returns the fresh Red holding the store's Requests and Errors and the
Duration computed by the worker (its StartTime stays zero); the store is not
changed by the `now` message. -/
theorem now_nil_spec (w : World) (hw : SingleCaller w) :
    ∃ w1 : World,
      Red.Now none w = .ok (some w.heap.length, w1) ∧
      w1.heap = w.heap ++ [⟨(settledMain w).Requests, (settledMain w).Errors,
        timeSub (w.clock (settledTick w)) (settledMain w).StartTime, 0⟩] ∧
      w1.sent = w.sent ++ [⟨now, NONE, 0⟩] ∧
      w1.main = settledMain w := by
  refine ⟨_, Now_nil_single w hw, ?_, rfl, rfl⟩
  simp [replied]

/-- C6 amended, at a sample state: the first call ever is `Now()` on nil. -/
theorem now_nil_spec_witness :
    SingleCaller (initWorld sampleClock) ∧
    ∃ w1 : World,
      Red.Now none (initWorld sampleClock) = .ok (some 0, w1) ∧
      w1.heap = [⟨0, 0, 1000, 0⟩] ∧
      w1.sent = [⟨now, NONE, 0⟩] ∧
      w1.main = ⟨0, 0, 0, 0⟩ :=
  ⟨by decide, now_nil_spec (initWorld sampleClock) (by decide)⟩

/-! ## `String` and `MarshalJSON` -/

theorem Seconds_zero : Seconds 0 = 0 := by
  simp [Seconds, float64, Second]

theorem fmtF_zero : fmtF 0 = "0.000000" := by
  simp [fmtF, roundHalfEven]
  decide

theorem formatRed_zero (t : Int) : formatRed ⟨0, 0, 0, t⟩ = "0, 0, 0.000000s" := by
  simp only [formatRed, Seconds_zero, fmtF_zero, fmtD]
  decide

/-- C7. `String()` on a nil handle returns the fixed text "r is nil, please
call Start() first"; on any handle it returns with the whole state as it was:
no message sent, handle and store untouched. -/
theorem string_spec (w : World) :
    Red.String none w = .ok ("r is nil, please call Start() first", w) ∧
    (∀ (a : Nat) (v : Red), w.heap[a]? = some v →
      Red.String (some a) w = .ok (formatRed v, w)) ∧
    (∀ (r : Ptr) (s : GoString) (w1 : World), Red.String r w = .ok (s, w1) → w1 = w) := by
  refine ⟨rfl, ?_, ?_⟩
  · intro a v ha
    simp [Red.String, load, ha]
  · intro r s w1 h
    cases r with
    | none =>
      have h1 : Red.String none w = .ok (nilText, w) := rfl
      rw [h1] at h
      simp only [Except.ok.injEq, Prod.mk.injEq] at h
      exact h.2.symm
    | some a =>
      simp only [Red.String, load] at h
      cases hv : w.heap[a]? with
      | none => simp [hv] at h
      | some v =>
        simp only [hv, Except.ok.injEq, Prod.mk.injEq] at h
        exact h.2.symm

/-- C7, at a sample state: `String()` of the handle after `Add(REQUESTS, 5)`. -/
theorem string_spec_witness :
    sampleBusy.heap[0]? = some ⟨5, 0, 0, 1000⟩ ∧
    Red.String (some 0) sampleBusy = .ok (formatRed ⟨5, 0, 0, 1000⟩, sampleBusy) ∧
    formatRed ⟨5, 0, 0, 1000⟩ = "5, 0, 0.000000s" := by
  refine ⟨by rfl, (string_spec sampleBusy).2.1 0 ⟨5, 0, 0, 1000⟩ (by rfl), ?_⟩
  simp only [formatRed, Seconds_zero, fmtF_zero, fmtD]
  decide

/-- C8, on the code: `MarshalJSON()` on a nil handle reads `r.Requests` through
the nil pointer and stops with a nil dereference, while `String()` on the same
handle returns the fixed text. -/
theorem marshalJSON_nil (w : World) :
    Red.MarshalJSON none w = .error .nilDereference ∧
    Red.String none w = .ok ("r is nil, please call Start() first", w) :=
  ⟨rfl, rfl⟩

/-! ## `Start` -/

/-- C9. `Start()` sends exactly one `start` message, takes no reply, and
returns a new handle whose cell is 0, 0, 0 with StartTime the current clock
reading, whatever the store holds; its `String()` is "0, 0, 0.000000s", the
`String()` of a zero-valued Red. -/
theorem start_spec (w : World) :
    (Start w).1 = some w.heap.length ∧
    (Start w).2.sent = w.sent ++ [⟨start, NONE, 0⟩] ∧
    (Start w).2.toWorker = w.toWorker ++ [⟨start, NONE, 0⟩] ∧
    (Start w).2.heap = w.heap ++ [⟨0, 0, 0, w.clock w.tick⟩] ∧
    (Start w).2.fromWorker = w.fromWorker ∧
    Red.String (Start w).1 (Start w).2 = .ok ("0, 0, 0.000000s", (Start w).2) ∧
    Red.String (some (alloc ⟨0, 0, 0, 0⟩ w).1) (alloc ⟨0, 0, 0, 0⟩ w).2
      = .ok ("0, 0, 0.000000s", (alloc ⟨0, 0, 0, 0⟩ w).2) := by
  refine ⟨rfl, rfl, rfl, rfl, rfl, ?_, ?_⟩
  · simp only [Start_fst, Red.String, load, Start_heap, formatRed_zero]
  · simp [Red.String, load, alloc, formatRed_zero]

/-! ## `Subtract` -/

theorem store_heap_same (w : World) (a : Nat) (v x : Red) (ha : w.heap[a]? = some x) :
    (store a v w).heap[a]? = some v := by
  have hlt : a < w.heap.length := heap_lt_of_getElem? w a x ha
  simp [store, List.getElem?_set, hlt]

theorem store_heap_ne (w : World) (a b : Nat) (v : Red) (hab : a ≠ b) :
    (store a v w).heap[b]? = w.heap[b]? := by
  simp [store, List.getElem?_set, hab]

theorem store_store (w : World) (a : Nat) (v1 v2 : Red) :
    store a v2 (store a v1 w) = store a v2 w := by
  simp [store, List.set_set]

theorem subtractField_eq (upd : Red → Red → Red) (w : World) (a b : Nat) (x y : Red)
    (ha : w.heap[a]? = some x) (hb : w.heap[b]? = some y) :
    subtractField upd (some a) (some b) w = .ok (store a (upd x y) w) := by
  simp [subtractField, ha, hb]

/-- Calling `Subtract` on two allocated cells, aliased or not: the three statements
leave the differences in the receiver's cell and return the receiver. -/
theorem Subtract_eq (w : World) (a b : Nat) (x y : Red)
    (ha : w.heap[a]? = some x) (hb : w.heap[b]? = some y) :
    Red.Subtract (some a) (some b) w
      = .ok (some a, store a
          ⟨wrapInt64 (x.Requests - y.Requests), wrapInt64 (x.Errors - y.Errors),
            wrapInt64 (x.Duration - y.Duration), x.StartTime⟩ w) := by
  have h1 := subtractField_eq
    (fun x y => { x with Requests := wrapInt64 (x.Requests - y.Requests) }) w a b x y ha hb
  by_cases hab : a = b
  · subst hab
    have hxy : x = y := by
      rw [ha] at hb
      exact Option.some.inj hb
    subst hxy
    have g1 := store_heap_same w a
      ⟨wrapInt64 (x.Requests - x.Requests), x.Errors, x.Duration, x.StartTime⟩ x ha
    have h2 := subtractField_eq
      (fun x y => { x with Errors := wrapInt64 (x.Errors - y.Errors) }) _ a a _ _ g1 g1
    rw [store_store] at h2
    have g2 := store_heap_same w a
      ⟨wrapInt64 (x.Requests - x.Requests), wrapInt64 (x.Errors - x.Errors), x.Duration,
        x.StartTime⟩ x ha
    have h3 := subtractField_eq
      (fun x y => { x with Duration := wrapInt64 (x.Duration - y.Duration) }) _ a a _ _ g2 g2
    rw [store_store] at h3
    simp only [Red.Subtract, h1, h2, h3]
  · have g1 := store_heap_same w a
      ⟨wrapInt64 (x.Requests - y.Requests), x.Errors, x.Duration, x.StartTime⟩ x ha
    have k1 : (store a ⟨wrapInt64 (x.Requests - y.Requests), x.Errors, x.Duration,
        x.StartTime⟩ w).heap[b]? = some y := by
      rw [store_heap_ne _ _ _ _ hab, hb]
    have h2 := subtractField_eq
      (fun x y => { x with Errors := wrapInt64 (x.Errors - y.Errors) }) _ a b _ _ g1 k1
    rw [store_store] at h2
    have g2 := store_heap_same w a
      ⟨wrapInt64 (x.Requests - y.Requests), wrapInt64 (x.Errors - y.Errors), x.Duration,
        x.StartTime⟩ x ha
    have k2 : (store a ⟨wrapInt64 (x.Requests - y.Requests), wrapInt64 (x.Errors - y.Errors),
        x.Duration, x.StartTime⟩ w).heap[b]? = some y := by
      rw [store_heap_ne _ _ _ _ hab, hb]
    have h3 := subtractField_eq
      (fun x y => { x with Duration := wrapInt64 (x.Duration - y.Duration) }) _ a b _ _ g2 k2
    rw [store_store] at h3
    simp only [Red.Subtract, h1, h2, h3]

/-- C10. For two snapshots `a` and `b` (distinct, or even the same cell),
`a.Subtract(b)` returns a Red (the receiver) whose Requests, Errors and
Duration are those of `a` before the call minus those of `b` in int64
arithmetic, with the StartTime of `a`; nothing is sent to the worker and the
store is not touched. -/
theorem subtract_spec (w : World) (a b : Nat) (x y : Red)
    (ha : w.heap[a]? = some x) (hb : w.heap[b]? = some y) :
    ∃ w1 : World,
      Red.Subtract (some a) (some b) w = .ok (some a, w1) ∧
      w1.heap[a]? = some ⟨wrapInt64 (x.Requests - y.Requests),
        wrapInt64 (x.Errors - y.Errors), wrapInt64 (x.Duration - y.Duration), x.StartTime⟩ ∧
      w1.sent = w.sent ∧ w1.toWorker = w.toWorker ∧ w1.fromWorker = w.fromWorker ∧
      w1.main = w.main ∧ w1.tick = w.tick :=
  ⟨_, Subtract_eq w a b x y ha hb, store_heap_same w a _ x ha, rfl, rfl, rfl, rfl, rfl⟩

/-- C10, at a sample state with two distinct snapshots: 16, 3, 50 minus
10, 1, 20. -/
theorem subtract_spec_witness :
    samplePair.heap[0]? = some ⟨16, 3, 50, 7⟩ ∧
    samplePair.heap[1]? = some ⟨10, 1, 20, 5⟩ ∧
    ∃ w1 : World,
      Red.Subtract (some 0) (some 1) samplePair = .ok (some 0, w1) ∧
      w1.heap[0]? = some ⟨6, 2, 30, 7⟩ ∧
      w1.sent = samplePair.sent ∧ w1.toWorker = samplePair.toWorker ∧
      w1.fromWorker = samplePair.fromWorker ∧ w1.main = samplePair.main ∧
      w1.tick = samplePair.tick :=
  ⟨by rfl, by rfl,
    subtract_spec samplePair 0 1 ⟨16, 3, 50, 7⟩ ⟨10, 1, 20, 5⟩ (by rfl) (by rfl)⟩

theorem wrapInt64_zero : wrapInt64 0 = 0 := by decide

/-- C11. Subtracting a snapshot from itself gives a logical zero: Requests,
Errors and Duration of the result are 0, both when the argument is the very
same cell as the receiver and when it is a distinct cell with equal
Requests, Errors and Duration. -/
theorem subtract_self_spec (w : World) :
    (∀ (a : Nat) (x : Red), w.heap[a]? = some x →
      ∃ w1 : World,
        Red.Subtract (some a) (some a) w = .ok (some a, w1) ∧
        w1.heap[a]? = some ⟨0, 0, 0, x.StartTime⟩) ∧
    (∀ (a b : Nat) (x y : Red), a ≠ b → w.heap[a]? = some x → w.heap[b]? = some y →
      y.Requests = x.Requests → y.Errors = x.Errors → y.Duration = x.Duration →
      ∃ w1 : World,
        Red.Subtract (some a) (some b) w = .ok (some a, w1) ∧
        w1.heap[a]? = some ⟨0, 0, 0, x.StartTime⟩) := by
  constructor
  · intro a x ha
    refine ⟨_, Subtract_eq w a a x x ha ha, ?_⟩
    rw [store_heap_same w a _ x ha]
    simp [wrapInt64_zero]
  · intro a b x y _ ha hb h1 h2 h3
    refine ⟨_, Subtract_eq w a b x y ha hb, ?_⟩
    rw [store_heap_same w a _ x ha, h1, h2, h3]
    simp [wrapInt64_zero]

/-- C11, at sample states: a snapshot minus itself, and minus its copy. -/
theorem subtract_self_spec_witness :
    samplePair.heap[0]? = some ⟨16, 3, 50, 7⟩ ∧
    (∃ w1 : World,
      Red.Subtract (some 0) (some 0) samplePair = .ok (some 0, w1) ∧
      w1.heap[0]? = some ⟨0, 0, 0, 7⟩) ∧
    (0 : Nat) ≠ 1 ∧ sampleTwin.heap[0]? = some ⟨16, 3, 50, 7⟩ ∧
    sampleTwin.heap[1]? = some ⟨16, 3, 50, 7⟩ ∧
    (∃ w1 : World,
      Red.Subtract (some 0) (some 1) sampleTwin = .ok (some 0, w1) ∧
      w1.heap[0]? = some ⟨0, 0, 0, 7⟩) :=
  ⟨by rfl, (subtract_self_spec samplePair).1 0 ⟨16, 3, 50, 7⟩ (by rfl),
    by decide, by rfl, by rfl,
    (subtract_self_spec sampleTwin).2 0 1 ⟨16, 3, 50, 7⟩ ⟨16, 3, 50, 7⟩ (by decide)
      (by rfl) (by rfl) rfl rfl rfl⟩

/-- C12, on the code: `Subtract` is not pure.  With `a` = 16, 3, 50 and
`b` = 10, 1, 20 the call `a.Subtract(b)` returns the pointer `a` itself and
leaves 6, 2, 30 in the cell of `a`; a later write through the result (the
`difference.Duration = tick` of redstat) lands in `a` as well.  Only `b` keeps
its values. -/
theorem subtract_overwrites_receiver :
    samplePair.heap[0]? = some ⟨16, 3, 50, 7⟩ ∧
    samplePair.heap[1]? = some ⟨10, 1, 20, 5⟩ ∧
    ((Red.Subtract (some 0) (some 1) samplePair).toOption.map
        fun p => (p.1, p.2.heap[0]?, p.2.heap[1]?))
      = some (some 0, some ⟨6, 2, 30, 7⟩, some ⟨10, 1, 20, 5⟩) ∧
    ((Red.Subtract (some 0) (some 1) samplePair).toOption.bind
        fun p => p.1.map fun r => (store r ⟨6, 2, 1000000000, 7⟩ p.2).heap[0]?)
      = some (some ⟨6, 2, 1000000000, 7⟩) ∧
    (⟨6, 2, 30, 7⟩ : Red) ≠ ⟨16, 3, 50, 7⟩ := by
  refine ⟨by rfl, by rfl, by rfl, by rfl, by decide⟩

/-! ## Sums of `add` messages -/

theorem wrapInt64_add_left (a b : Int) : wrapInt64 (wrapInt64 a + b) = wrapInt64 (a + b) := by
  unfold wrapInt64
  omega

theorem wrapInt64_of_range (a : Int) (h1 : -(2 ^ 63) ≤ a) (h2 : a < 2 ^ 63) :
    wrapInt64 a = a := by
  unfold wrapInt64
  omega

theorem fieldSum_nil (f : Fields) : fieldSum f [] = 0 := rfl

theorem fieldSum_cons (f : Fields) (m : msg) (ms : List msg) :
    fieldSum f (m :: ms) = (if m.operand = f then m.value else 0) + fieldSum f ms := by
  unfold fieldSum
  by_cases h : m.operand = f <;> simp [List.filter_cons, h]

theorem fieldSum_perm (f : Fields) (ms ms1 : List msg) (h : ms1.Perm ms) :
    fieldSum f ms1 = fieldSum f ms := by
  unfold fieldSum
  exact ((h.filter _).map _).sum_eq

theorem worker_append (ms tl : List msg) :
    ∀ w : World, worker (ms ++ tl) w
      = match worker ms w with
        | .error e => .error e
        | .ok w1 => worker tl w1 := by
  induction ms with
  | nil => intro w; rfl
  | cons m ms ih =>
    intro w
    simp only [List.cons_append, worker]
    cases h : workerStep (w.clock w.tick) w.main m with
    | error e => rfl
    | ok p => exact ih _

/-- The worker run over `add` messages only: the counters grow by the sums,
one reply per message is queued, nothing else moves. -/
theorem worker_adds (ms : List msg) :
    ∀ (w : World) (r0 e0 : Int), w.main.Requests = wrapInt64 r0 →
      w.main.Errors = wrapInt64 e0 → (∀ m ∈ ms, IsAdd m) →
      ∃ rs : List Red, rs.length = ms.length ∧
        worker ms w = .ok { w with
          main := ⟨wrapInt64 (r0 + fieldSum REQUESTS ms),
                   wrapInt64 (e0 + fieldSum ERRORS ms),
                   w.main.Duration, w.main.StartTime⟩,
          fromWorker := w.fromWorker ++ rs,
          tick := w.tick + ms.length } := by
  induction ms with
  | nil =>
    intro w r0 e0 hr he _
    refine ⟨[], rfl, ?_⟩
    simp only [worker, fieldSum_nil, Int.add_zero, ← hr, ← he, List.append_nil,
      List.length_nil, Nat.add_zero]
  | cons m ms ih =>
    intro w r0 e0 hr he hall
    have hm : IsAdd m := hall m (List.mem_cons_self _ _)
    have hms : ∀ x ∈ ms, IsAdd x := fun x hx => hall x (List.mem_cons_of_mem _ hx)
    obtain ⟨hop, hfield⟩ := hm
    rcases hfield with hf | hf
    · have hstep : workerStep (w.clock w.tick) w.main m
          = .ok (⟨wrapInt64 (r0 + m.value), wrapInt64 e0, w.main.Duration, w.main.StartTime⟩,
              [⟨wrapInt64 (r0 + m.value), wrapInt64 e0, w.main.Duration,
                w.main.StartTime⟩]) := by
        simp [workerStep, hop, hf, add, start, hr, he, wrapInt64_add_left]
      obtain ⟨rs, hlen, hrun⟩ := ih
        { w with main := ⟨wrapInt64 (r0 + m.value), wrapInt64 e0, w.main.Duration,
                    w.main.StartTime⟩,
                 fromWorker := w.fromWorker ++ [⟨wrapInt64 (r0 + m.value), wrapInt64 e0,
                    w.main.Duration, w.main.StartTime⟩],
                 tick := w.tick + 1 } (r0 + m.value) e0 rfl rfl hms
      refine ⟨⟨wrapInt64 (r0 + m.value), wrapInt64 e0, w.main.Duration,
        w.main.StartTime⟩ :: rs, by simp [hlen], ?_⟩
      simp only [worker, hstep, hrun]
      simp [fieldSum_cons, hf, REQUESTS, ERRORS, Int.add_assoc, Nat.add_assoc,
        Nat.add_comm 1]
    · have hstep : workerStep (w.clock w.tick) w.main m
          = .ok (⟨wrapInt64 r0, wrapInt64 (e0 + m.value), w.main.Duration, w.main.StartTime⟩,
              [⟨wrapInt64 r0, wrapInt64 (e0 + m.value), w.main.Duration,
                w.main.StartTime⟩]) := by
        simp [workerStep, hop, hf, add, start, REQUESTS, ERRORS, hr, he, wrapInt64_add_left]
      obtain ⟨rs, hlen, hrun⟩ := ih
        { w with main := ⟨wrapInt64 r0, wrapInt64 (e0 + m.value), w.main.Duration,
                    w.main.StartTime⟩,
                 fromWorker := w.fromWorker ++ [⟨wrapInt64 r0, wrapInt64 (e0 + m.value),
                    w.main.Duration, w.main.StartTime⟩],
                 tick := w.tick + 1 } r0 (e0 + m.value) rfl rfl hms
      refine ⟨⟨wrapInt64 r0, wrapInt64 (e0 + m.value), w.main.Duration,
        w.main.StartTime⟩ :: rs, by simp [hlen], ?_⟩
      simp only [worker, hstep, hrun]
      simp [fieldSum_cons, hf, REQUESTS, ERRORS, Int.add_assoc, Nat.add_assoc,
        Nat.add_comm 1]

theorem worker_start_adds_getall (adds perm : List msg) (hadds : ∀ m ∈ adds, IsAdd m)
    (hperm : perm.Perm adds) (w : World) :
    ∃ (w1 : World) (rs : List Red), rs.length = adds.length ∧
      worker (⟨start, NONE, 0⟩ :: perm ++ [⟨getall, NONE, 0⟩]) w = .ok w1 ∧
      w1.main = ⟨wrapInt64 (fieldSum REQUESTS adds), wrapInt64 (fieldSum ERRORS adds), 0,
        w.clock w.tick⟩ ∧
      w1.fromWorker = w.fromWorker ++ rs ++ [w1.main] := by
  have hp : ∀ m ∈ perm, IsAdd m := fun m hm => hadds m (hperm.mem_iff.mp hm)
  obtain ⟨rs, hlen, hrun⟩ := worker_adds perm
    { w with main := ⟨0, 0, 0, w.clock w.tick⟩, tick := w.tick + 1 } 0 0 (by simp [wrapInt64_zero]) (by simp [wrapInt64_zero]) hp
  have hget : ∀ (t : Int) (s : Red), workerStep t s ⟨getall, NONE, 0⟩ = .ok (s, [s]) := by
    intro t s
    simp [workerStep, getall, start, add, set]
  refine ⟨{ w with
      main := ⟨wrapInt64 (fieldSum REQUESTS adds), wrapInt64 (fieldSum ERRORS adds), 0,
        w.clock w.tick⟩,
      fromWorker := w.fromWorker ++ rs
        ++ [⟨wrapInt64 (fieldSum REQUESTS adds), wrapInt64 (fieldSum ERRORS adds), 0,
          w.clock w.tick⟩],
      tick := w.tick + 1 + perm.length + 1 }, rs, by rw [hlen, hperm.length_eq], ?_, rfl, rfl⟩
  rw [List.cons_append]
  simp only [worker, workerStep_start _ _ ⟨start, NONE, 0⟩ rfl, List.append_nil]
  rw [worker_append, hrun]
  simp only [worker, hget]
  simp [fieldSum_perm _ _ _ hperm]

theorem fieldSum_replicate (f : Fields) (n : Nat) (m : msg) :
    fieldSum f (List.replicate n m) = n * (if m.operand = f then m.value else 0) := by
  induction n with
  | zero => simp [fieldSum_nil]
  | succ n ih =>
    rw [List.replicate_succ, fieldSum_cons, ih]
    push_cast
    ring

/-- C14. The worker handling `start`, then any list of `add` messages on
REQUESTS or ERRORS in any order, then `getall`, answers the `getall` with
Requests = the sum of the REQUESTS values and Errors = the sum of the ERRORS
values (int64 arithmetic), Duration 0; 100 messages `add(REQUESTS, 1)` give
Requests = 100. -/
theorem adds_sum_spec :
    (∀ (adds perm : List msg), (∀ m ∈ adds, IsAdd m) → perm.Perm adds → ∀ w : World,
      ∃ (w1 : World) (rs : List Red), rs.length = adds.length ∧
        worker (⟨start, NONE, 0⟩ :: perm ++ [⟨getall, NONE, 0⟩]) w = .ok w1 ∧
        w1.main = ⟨wrapInt64 (fieldSum REQUESTS adds), wrapInt64 (fieldSum ERRORS adds), 0,
          w.clock w.tick⟩ ∧
        w1.fromWorker = w.fromWorker ++ rs ++ [w1.main]) ∧
    (∀ w : World,
      ∃ (w1 : World) (rs : List Red), rs.length = 100 ∧
        worker (⟨start, NONE, 0⟩ :: List.replicate 100 ⟨add, REQUESTS, 1⟩
          ++ [⟨getall, NONE, 0⟩]) w = .ok w1 ∧
        w1.main = ⟨100, 0, 0, w.clock w.tick⟩ ∧
        w1.fromWorker = w.fromWorker ++ rs ++ [⟨100, 0, 0, w.clock w.tick⟩]) := by
  refine ⟨fun adds perm hadds hperm w => worker_start_adds_getall adds perm hadds hperm w, ?_⟩
  intro w
  have hall : ∀ m ∈ List.replicate 100 (⟨add, REQUESTS, 1⟩ : msg), IsAdd m := by
    intro m hm
    rw [List.eq_of_mem_replicate hm]
    exact ⟨rfl, Or.inl rfl⟩
  obtain ⟨w1, rs, hlen, hrun, hmain, hfrom⟩ :=
    worker_start_adds_getall _ _ hall (List.Perm.refl _) w
  have h1 : wrapInt64 (fieldSum REQUESTS (List.replicate 100 (⟨add, REQUESTS, 1⟩ : msg)))
      = 100 := by
    rw [fieldSum_replicate _ 100 ⟨add, REQUESTS, 1⟩]
    decide
  have h2 : wrapInt64 (fieldSum ERRORS (List.replicate 100 (⟨add, REQUESTS, 1⟩ : msg)))
      = 0 := by
    rw [fieldSum_replicate _ 100 ⟨add, REQUESTS, 1⟩]
    decide
  rw [h1, h2] at hmain
  refine ⟨w1, rs, by simpa using hlen, hrun, hmain, ?_⟩
  rw [hfrom, hmain]

/-- C14, at a sample run: adds of 4 and 3 to REQUESTS and 1 to ERRORS, handled
in another order, answer `getall` with 7 and 1. -/
theorem adds_sum_spec_witness :
    (∀ m ∈ sampleAdds, IsAdd m) ∧ sampleAddsShuffled.Perm sampleAdds ∧
    ∃ (w1 : World) (rs : List Red), rs.length = 3 ∧
      worker (⟨start, NONE, 0⟩ :: sampleAddsShuffled ++ [⟨getall, NONE, 0⟩])
        (initWorld sampleClock) = .ok w1 ∧
      w1.main = ⟨7, 1, 0, 1000⟩ ∧
      w1.fromWorker = [] ++ rs ++ [w1.main] := by
  have hall : ∀ m ∈ sampleAdds, IsAdd m := by decide
  have hperm : sampleAddsShuffled.Perm sampleAdds := by decide
  exact ⟨hall, hperm, adds_sum_spec.1 sampleAdds sampleAddsShuffled hall hperm
    (initWorld sampleClock)⟩

/-! ## The stored duration -/

theorem workerStep_valid (t : Int) (s : Red) (m : msg) (hm : ValidMsg m) :
    ∃ (s1 : Red) (rs : List Red), workerStep t s m = .ok (s1, rs) := by
  rcases hm with h | h | h | ⟨h | h, hf | hf⟩
  · exact ⟨_, _, workerStep_start t s m h⟩
  · simp [workerStep, h, getall, start, add, set]
  · simp [workerStep, h, now, getall, start, add, set]
  · simp [workerStep, h, hf, add, start]
  · simp [workerStep, h, hf, add, start, REQUESTS, ERRORS]
  · simp [workerStep, h, hf, add, set, start]
  · simp [workerStep, h, hf, add, set, start, REQUESTS, ERRORS]

/-- One step keeps a stored Duration of 0 and, unless the message is `now`,
replies with Duration 0. -/
theorem workerStep_duration (t : Int) (s s1 : Red) (m : msg) (rs : List Red)
    (h0 : s.Duration = 0) (hstep : workerStep t s m = .ok (s1, rs)) :
    s1.Duration = 0 ∧ (m.operation ≠ now → ∀ r ∈ rs, r.Duration = 0) := by
  unfold workerStep at hstep
  split_ifs at hstep <;>
    simp only [Except.ok.injEq, Prod.mk.injEq, reduceCtorEq] at hstep <;>
    obtain ⟨h1, h2⟩ := hstep <;> subst h1 <;> subst h2 <;> simp_all

theorem worker_duration (ms : List msg) :
    ∀ w : World, w.main.Duration = 0 → (∀ m ∈ ms, ValidMsg m) →
      ∃ w1 : World, worker ms w = .ok w1 ∧ w1.main.Duration = 0 := by
  induction ms with
  | nil => intro w h0 _; exact ⟨w, rfl, h0⟩
  | cons m ms ih =>
    intro w h0 hall
    obtain ⟨s1, rs, hstep⟩ := workerStep_valid (w.clock w.tick) w.main m
      (hall m (List.mem_cons_self _ _))
    have hd := (workerStep_duration _ _ _ _ _ h0 hstep).1
    obtain ⟨w1, hrun, h1⟩ := ih
      { w with main := s1, fromWorker := w.fromWorker ++ rs, tick := w.tick + 1 } hd
      (fun x hx => hall x (List.mem_cons_of_mem _ hx))
    exact ⟨w1, by simp only [worker, hstep, hrun], h1⟩

/-- C15. The stored duration is never advanced: after the worker has handled
any sequence of `start`, `add`, `set`, `getall` and `now` messages from the
initial zero-valued store, the stored Duration is 0, and from such a state
every reply to a message other than `now` (so every reply to `add`, `set` and
`getall`) carries Duration 0. -/
theorem stored_duration_spec (clock : Nat → Int) (ms : List msg)
    (hvalid : ∀ m ∈ ms, ValidMsg m) :
    ∃ w1 : World, worker ms (initWorld clock) = .ok w1 ∧ w1.main.Duration = 0 ∧
      ∀ (t : Int) (m : msg) (s1 : Red) (rs : List Red),
        workerStep t w1.main m = .ok (s1, rs) →
        s1.Duration = 0 ∧ (m.operation ≠ now → ∀ r ∈ rs, r.Duration = 0) := by
  obtain ⟨w1, hrun, h0⟩ := worker_duration ms (initWorld clock) rfl hvalid
  exact ⟨w1, hrun, h0, fun t m s1 rs hstep => workerStep_duration t _ s1 m rs h0 hstep⟩

/-- C15, at a sample queue holding every kind of message. -/
theorem stored_duration_spec_witness :
    (∀ m ∈ sampleMsgs, ValidMsg m) ∧
    ∃ w1 : World, worker sampleMsgs (initWorld sampleClock) = .ok w1 ∧
      w1.main.Duration = 0 ∧
      ∀ (t : Int) (m : msg) (s1 : Red) (rs : List Red),
        workerStep t w1.main m = .ok (s1, rs) →
        s1.Duration = 0 ∧ (m.operation ≠ now → ∀ r ∈ rs, r.Duration = 0) :=
  ⟨by decide, stored_duration_spec sampleClock sampleMsgs (by decide)⟩

/-! ## The sign of the stored counters -/

theorem Add_single (w : World) (a : Nat) (old : Red) (f : Fields) (v : Int)
    (hw : SingleCaller w) (ha : w.heap[a]? = some old) (hf : f = REQUESTS ∨ f = ERRORS) :
    ∃ s1 : Red,
      workerStep (w.clock (settledTick w)) (settledMain w) ⟨add, f, v⟩ = .ok (s1, [s1]) ∧
      Red.Add (some a) f v w = .ok (none, replied w a old s1 s1 ⟨add, f, v⟩) := by
  obtain ⟨s1, h1⟩ := workerStep_add_ok (w.clock (settledTick w)) (settledMain w) f v hf
  refine ⟨s1, h1, ?_⟩
  simp only [Red.Add, hf, if_true, roundTrip_single w a old add f v s1 s1 hw ha h1]

theorem Set_single (w : World) (a : Nat) (old : Red) (f : Fields) (v : Int)
    (hw : SingleCaller w) (ha : w.heap[a]? = some old) (hf : f = REQUESTS ∨ f = ERRORS) :
    ∃ s1 : Red,
      workerStep (w.clock (settledTick w)) (settledMain w) ⟨set, f, v⟩ = .ok (s1, [s1]) ∧
      Red.Set (some a) f v w = .ok (none, replied w a old s1 s1 ⟨set, f, v⟩) := by
  obtain ⟨s1, h1⟩ := workerStep_set_ok (w.clock (settledTick w)) (settledMain w) f v hf
  refine ⟨s1, h1, ?_⟩
  simp only [Red.Set, hf, if_true, roundTrip_single w a old set f v s1 s1 hw ha h1]

/-- What a call that is let through does to the store of a single caller. -/
theorem call_single (w : World) (a : Nat) (old : Red) (c : Call) (hw : SingleCaller w)
    (ha : w.heap[a]? = some old) (hf : c.field = REQUESTS ∨ c.field = ERRORS) :
    ∃ w1 : World,
      (if c.isSet then Red.Set (some a) c.field c.value w
        else Red.Add (some a) c.field c.value w) = .ok (none, w1) ∧
      SingleCaller w1 ∧ (∃ old1, w1.heap[a]? = some old1) ∧
      settledMain w1 =
        (if c.field = REQUESTS then
          { settledMain w with
            Requests := if c.isSet then c.value
              else wrapInt64 ((settledMain w).Requests + c.value) }
        else
          { settledMain w with
            Errors := if c.isSet then c.value
              else wrapInt64 ((settledMain w).Errors + c.value) }) := by
  have hne : ERRORS ≠ REQUESTS := by decide
  cases hset : c.isSet with
  | false =>
    obtain ⟨s1, hstep, hcall⟩ := Add_single w a old c.field c.value hw ha hf
    refine ⟨_, by simpa using hcall, replied_singleCaller _ _ _ _ _ _,
      ⟨_, replied_heap w a old s1 s1 _ ha⟩, ?_⟩
    rw [settledMain_replied]
    rcases hf with h | h
    · simp [workerStep, add, start, h] at hstep
      subst hstep
      simp [h]
    · simp [workerStep, add, start, h, REQUESTS, ERRORS] at hstep
      subst hstep
      simp [h, hne]
  | true =>
    obtain ⟨s1, hstep, hcall⟩ := Set_single w a old c.field c.value hw ha hf
    refine ⟨_, by simpa using hcall, replied_singleCaller _ _ _ _ _ _,
      ⟨_, replied_heap w a old s1 s1 _ ha⟩, ?_⟩
    rw [settledMain_replied]
    rcases hf with h | h
    · simp [workerStep, add, set, start, h] at hstep
      subst hstep
      simp [h]
    · simp [workerStep, add, set, start, h, REQUESTS, ERRORS] at hstep
      subst hstep
      simp [h, hne]

/-- An int64 sum or value that is not between 0 and the largest int64 is
negative once stored. -/
theorem wrapInt64_neg (x : Int) (h1 : -(2 ^ 63) ≤ x) (h2 : x < 2 ^ 64)
    (h : ¬ (0 ≤ x ∧ x < 2 ^ 63)) : wrapInt64 x < 0 := by
  unfold wrapInt64
  omega

theorem staysNonNeg_requests (r e : Int) (c : Call) (cs : List Call)
    (h : c.field = REQUESTS) :
    staysNonNeg r e (c :: cs)
      = (decide (0 ≤ (if c.isSet then c.value else r + c.value) ∧
            (if c.isSet then c.value else r + c.value) < 2 ^ 63) &&
          staysNonNeg (if c.isSet then c.value else r + c.value) e cs) := by
  simp only [staysNonNeg, h, if_true]

theorem staysNonNeg_errors (r e : Int) (c : Call) (cs : List Call)
    (h : c.field = ERRORS) :
    staysNonNeg r e (c :: cs)
      = (decide (0 ≤ (if c.isSet then c.value else e + c.value) ∧
            (if c.isSet then c.value else e + c.value) < 2 ^ 63) &&
          staysNonNeg r (if c.isSet then c.value else e + c.value) cs) := by
  have hne : ERRORS ≠ REQUESTS := by decide
  simp only [staysNonNeg, h, hne, if_true, if_false]

/-- The value a counter holds after `Add` or `Set`: the exact result when that
is in range, and a negative value when it is not. -/
theorem stored_value (isSet : Bool) (x v : Int) (hv : -(2 ^ 63) ≤ v ∧ v < 2 ^ 63)
    (hx0 : 0 ≤ x) (hx1 : x < 2 ^ 63) :
    ((0 ≤ (if isSet then v else x + v) ∧ (if isSet then v else x + v) < 2 ^ 63) →
      (if isSet then v else wrapInt64 (x + v)) = (if isSet then v else x + v)) ∧
    (¬ (0 ≤ (if isSet then v else x + v) ∧ (if isSet then v else x + v) < 2 ^ 63) →
      (if isSet then v else wrapInt64 (x + v)) < 0) := by
  cases isSet with
  | true =>
    refine ⟨fun _ => by simp, fun h => ?_⟩
    simp only [if_true] at h ⊢
    omega
  | false =>
    simp only [Bool.false_eq_true, if_false]
    exact ⟨fun h => wrapInt64_of_range _ (by omega) h.2,
      fun h => wrapInt64_neg _ (by omega) (by omega) h⟩

/-- One call that is let through, on counters that are in range: either it
keeps them in range, and the store holds the exact result, or it leaves a
negative counter. -/
theorem call_counters (w : World) (a : Nat) (old : Red) (c : Call) (hw : SingleCaller w)
    (ha : w.heap[a]? = some old) (hf : c.field = REQUESTS ∨ c.field = ERRORS)
    (hc : -(2 ^ 63) ≤ c.value ∧ c.value < 2 ^ 63)
    (hr0 : 0 ≤ (settledMain w).Requests) (hr1 : (settledMain w).Requests < 2 ^ 63)
    (he0 : 0 ≤ (settledMain w).Errors) (he1 : (settledMain w).Errors < 2 ^ 63) :
    ∃ w1 : World,
      (∀ l : List Call, runCalls (some a) (c :: l) w = runCalls (some a) l w1) ∧
      SingleCaller w1 ∧ (∃ old1, w1.heap[a]? = some old1) ∧
      ((0 ≤ (settledMain w1).Requests ∧ (settledMain w1).Requests < 2 ^ 63 ∧
          0 ≤ (settledMain w1).Errors ∧ (settledMain w1).Errors < 2 ^ 63 ∧
          ∀ cs, staysNonNeg (settledMain w).Requests (settledMain w).Errors (c :: cs)
            = staysNonNeg (settledMain w1).Requests (settledMain w1).Errors cs) ∨
        (((settledMain w1).Requests < 0 ∨ (settledMain w1).Errors < 0) ∧
          ∀ cs, staysNonNeg (settledMain w).Requests (settledMain w).Errors (c :: cs)
            = false)) := by
  have hne : ERRORS ≠ REQUESTS := by decide
  obtain ⟨w1, hcall, hsc, hheap, hmain⟩ := call_single w a old c hw ha hf
  refine ⟨w1, fun l => by simp only [runCalls, hcall], hsc, hheap, ?_⟩
  rw [hmain]
  rcases hf with h | h
  · simp only [h, if_true]
    obtain ⟨hin1, hin2⟩ := stored_value c.isSet (settledMain w).Requests c.value hc hr0 hr1
    by_cases hin : 0 ≤ (if c.isSet then c.value else (settledMain w).Requests + c.value) ∧
        (if c.isSet then c.value else (settledMain w).Requests + c.value) < 2 ^ 63
    · left
      rw [hin1 hin]
      exact ⟨hin.1, hin.2, he0, he1, fun cs => by
        rw [staysNonNeg_requests _ _ _ _ h, decide_eq_true hin, Bool.true_and]⟩
    · right
      exact ⟨Or.inl (hin2 hin), fun cs => by
        rw [staysNonNeg_requests _ _ _ _ h, decide_eq_false hin, Bool.false_and]⟩
  · simp only [h, hne, if_false]
    obtain ⟨hin1, hin2⟩ := stored_value c.isSet (settledMain w).Errors c.value hc he0 he1
    by_cases hin : 0 ≤ (if c.isSet then c.value else (settledMain w).Errors + c.value) ∧
        (if c.isSet then c.value else (settledMain w).Errors + c.value) < 2 ^ 63
    · left
      rw [hin1 hin]
      exact ⟨hr0, hr1, hin.1, hin.2, fun cs => by
        rw [staysNonNeg_errors _ _ _ _ h, decide_eq_true hin, Bool.true_and]⟩
    · right
      exact ⟨Or.inr (hin2 hin), fun cs => by
        rw [staysNonNeg_errors _ _ _ _ h, decide_eq_false hin, Bool.false_and]⟩

/-- The calls of a single caller on a handle all return. -/
theorem runCalls_total (a : Nat) (cs : List Call) :
    ∀ w : World, SingleCaller w → (∃ old, w.heap[a]? = some old) →
      ∃ w1 : World, runCalls (some a) cs w = .ok w1 := by
  induction cs with
  | nil => intro w _ _; exact ⟨w, rfl⟩
  | cons c cs ih =>
    intro w hw ha
    obtain ⟨old, hold⟩ := ha
    by_cases hf : c.field = REQUESTS ∨ c.field = ERRORS
    · obtain ⟨w1, hcall, hsc, hheap, -⟩ := call_single w a old c hw hold hf
      obtain ⟨w2, h2⟩ := ih w1 hsc hheap
      exact ⟨w2, by simp only [runCalls, hcall, h2]⟩
    · obtain ⟨w2, h2⟩ := ih w hw ⟨old, hold⟩
      refine ⟨w2, ?_⟩
      cases hset : c.isSet with
      | false => simp only [runCalls, hset, Red.Add, hf, if_false, Bool.false_eq_true, h2]
      | true => simp only [runCalls, hset, Red.Set, hf, if_false, if_true, h2]

/-- The counters of a single caller's store are never negative exactly when
the calls keep them in range in exact arithmetic. -/
theorem runCalls_counters (a : Nat) (cs : List Call) :
    ∀ w : World, SingleCaller w → (∃ old, w.heap[a]? = some old) →
      (∀ c ∈ cs, -(2 ^ 63) ≤ c.value ∧ c.value < 2 ^ 63) →
      0 ≤ (settledMain w).Requests → (settledMain w).Requests < 2 ^ 63 →
      0 ≤ (settledMain w).Errors → (settledMain w).Errors < 2 ^ 63 →
      (∀ k, ∃ wk : World, runCalls (some a) (cs.take k) w = .ok wk) ∧
      (staysNonNeg (settledMain w).Requests (settledMain w).Errors cs = true ↔
        ∀ k wk, runCalls (some a) (cs.take k) w = .ok wk →
          0 ≤ (settledMain wk).Requests ∧ 0 ≤ (settledMain wk).Errors) := by
  induction cs with
  | nil =>
    intro w _ _ _ hr0 _ he0 _
    refine ⟨fun k => ⟨w, by simp [runCalls]⟩, ?_⟩
    simp only [staysNonNeg, List.take_nil, runCalls, Except.ok.injEq, true_iff]
    intro _ wk h
    subst h
    exact ⟨hr0, he0⟩
  | cons c cs ih =>
    intro w hw ha hint hr0 hr1 he0 he1
    have hc := hint c (List.mem_cons_self _ _)
    have hcs : ∀ x ∈ cs, -(2 ^ 63) ≤ x.value ∧ x.value < 2 ^ 63 :=
      fun x hx => hint x (List.mem_cons_of_mem _ hx)
    -- the state after the first call, and what it does to the test
    have key : ∃ w1 : World,
        (∀ l : List Call, runCalls (some a) (c :: l) w = runCalls (some a) l w1) ∧
        SingleCaller w1 ∧ (∃ old1, w1.heap[a]? = some old1) ∧
        ((0 ≤ (settledMain w1).Requests ∧ (settledMain w1).Requests < 2 ^ 63 ∧
            0 ≤ (settledMain w1).Errors ∧ (settledMain w1).Errors < 2 ^ 63 ∧
            ∀ cs, staysNonNeg (settledMain w).Requests (settledMain w).Errors (c :: cs)
              = staysNonNeg (settledMain w1).Requests (settledMain w1).Errors cs) ∨
          (((settledMain w1).Requests < 0 ∨ (settledMain w1).Errors < 0) ∧
            ∀ cs, staysNonNeg (settledMain w).Requests (settledMain w).Errors (c :: cs)
              = false)) := by
      obtain ⟨old, hold⟩ := ha
      by_cases hf : c.field = REQUESTS ∨ c.field = ERRORS
      · exact call_counters w a old c hw hold hf hc hr0 hr1 he0 he1
      · refine ⟨w, fun l => ?_, hw, ⟨old, hold⟩, Or.inl ⟨hr0, hr1, he0, he1, fun cs => ?_⟩⟩
        · cases hset : c.isSet with
          | false => simp only [runCalls, hset, Red.Add, hf, if_false, Bool.false_eq_true]
          | true => simp only [runCalls, hset, Red.Set, hf, if_false, if_true]
        · have h1 : c.field ≠ REQUESTS := fun h => hf (Or.inl h)
          have h2 : c.field ≠ ERRORS := fun h => hf (Or.inr h)
          simp [staysNonNeg, h1, h2]
    obtain ⟨w1, hstep, hsc, hheap, hcase⟩ := key
    have hone : runCalls (some a) ((c :: cs).take 1) w = .ok w1 := by
      rw [List.take_succ_cons, List.take_zero, hstep]
      rfl
    rcases hcase with ⟨h1, h2, h3, h4, hstays⟩ | ⟨hneg, hstays⟩
    · obtain ⟨htot, hiff⟩ := ih w1 hsc hheap hcs h1 h2 h3 h4
      refine ⟨?_, ?_⟩
      · intro k
        cases k with
        | zero => exact ⟨w, by simp [runCalls]⟩
        | succ k =>
          obtain ⟨wk, hk⟩ := htot k
          exact ⟨wk, by rw [List.take_succ_cons, hstep, hk]⟩
      · rw [hstays cs, hiff]
        constructor
        · intro h k wk hk
          cases k with
          | zero =>
            simp only [List.take_zero, runCalls, Except.ok.injEq] at hk
            subst hk
            exact ⟨hr0, he0⟩
          | succ k =>
            rw [List.take_succ_cons, hstep] at hk
            exact h k wk hk
        · intro h k wk hk
          exact h (k + 1) wk (by rw [List.take_succ_cons, hstep, hk])
    · refine ⟨?_, ?_⟩
      · intro k
        exact runCalls_total a _ w hw ha
      · rw [hstays cs]
        constructor
        · intro h; cases h
        · intro h
          have := h 1 w1 hone
          omega

/-- C16, as stated, fails in two ways.  After `Start()`, `Add(REQUESTS, -5)`
returns nil and leaves -5 in the stored Requests: no call tests the sign of its
value.  And with values that are not negative, `Add(REQUESTS, 2^63 - 1)`
followed by `Add(REQUESTS, 1)` returns nil twice and leaves the smallest int64
in the stored Requests: the sum wraps. -/
theorem stored_counters_spec_counterexample :
    ((Red.Add (Start (initWorld sampleClock)).1 REQUESTS (-5)
        (Start (initWorld sampleClock)).2).toOption.map
        fun p => (p.1, p.2.main.Requests))
      = some (none, -5) ∧
    ((runCalls (Start (initWorld sampleClock)).1
        [⟨false, REQUESTS, 2 ^ 63 - 1⟩, ⟨false, REQUESTS, 1⟩]
        (Start (initWorld sampleClock)).2).toOption.map
        fun w1 => w1.main.Requests)
      = some (-(2 ^ 63)) ∧
    ¬ (0 : Int) ≤ -5 ∧ ¬ (0 : Int) ≤ -(2 ^ 63) := by
  refine ⟨by rfl, by rfl, by decide, by decide⟩

/-- C16, amended.  From a fresh `Start()`, any sequence of `Add` and `Set`
calls of a single caller with int64 values returns, and the stored Requests
and Errors are not negative after every one of the calls exactly when, in
exact arithmetic, every `Set` that is let through stores a value that is not
negative and every `Add` that is let through leaves a sum between 0 and the
largest int64.  Calls that are refused, and what the other counter holds, do
not matter. -/
theorem stored_counters_spec (w : World) (hw : SingleCaller w) (cs : List Call)
    (hint : ∀ c ∈ cs, -(2 ^ 63) ≤ c.value ∧ c.value < 2 ^ 63) :
    (∀ k, ∃ wk : World, runCalls (Start w).1 (cs.take k) (Start w).2 = .ok wk) ∧
    (staysNonNeg 0 0 cs = true ↔
      ∀ k wk, runCalls (Start w).1 (cs.take k) (Start w).2 = .ok wk →
        0 ≤ (settledMain wk).Requests ∧ 0 ≤ (settledMain wk).Errors) := by
  have hs := settledMain_Start w
  have h := runCalls_counters w.heap.length cs (Start w).2
    (Start_singleCaller w hw) ⟨_, Start_heap w⟩ hint
    (by rw [hs]) (by rw [hs]; norm_num) (by rw [hs]) (by rw [hs]; norm_num)
  rw [hs] at h
  exact h

/-- C16 amended, at a sample run after the first `Start()`: two
`Set(REQUESTS, 2^62)`, a refused `Add(DURATION, 2^63 - 1)`, `Add(REQUESTS, 1)`
and `Add(ERRORS, 2^62)` leave counters that are never negative. -/
theorem stored_counters_spec_witness :
    SingleCaller (initWorld sampleClock) ∧
    (∀ c ∈ sampleLarge, -(2 ^ 63) ≤ c.value ∧ c.value < 2 ^ 63) ∧
    staysNonNeg 0 0 sampleLarge = true ∧
    ((runCalls (Start (initWorld sampleClock)).1 sampleLarge
        (Start (initWorld sampleClock)).2).toOption.map
        fun w1 => (w1.main.Requests, w1.main.Errors))
      = some (2 ^ 62 + 1, 2 ^ 62) ∧
    ∀ k wk, runCalls (Start (initWorld sampleClock)).1 (sampleLarge.take k)
        (Start (initWorld sampleClock)).2 = .ok wk →
      0 ≤ (settledMain wk).Requests ∧ 0 ≤ (settledMain wk).Errors :=
  ⟨by decide, by decide, by decide, by rfl,
    (stored_counters_spec (initWorld sampleClock) (by decide) sampleLarge (by decide)).2.mp
      (by decide)⟩

/-! ## Reading the wire text -/

theorem roundHalfEven_intCast (z : Int) : roundHalfEven (z : ℚ) = z := by
  simp [roundHalfEven]

/-- A dyadic rational with fewer than 54 significant bits and a denominator of
at most `2^1074` is a `float64`: rounding leaves it as it is. -/
theorem float64_exact (n : Int) (j : Nat) (hn : |n| < 2 ^ 53) (hj : j ≤ 1074) :
    float64 ((n : ℚ) / 2 ^ j) = (n : ℚ) / 2 ^ j := by
  by_cases h0 : n = 0
  · subst h0
    simp [float64]
  · have hq : (n : ℚ) / 2 ^ j ≠ 0 := by
      apply div_ne_zero
      · exact_mod_cast h0
      · positivity
    have habs : |(n : ℚ) / 2 ^ j| < (2 : ℚ) ^ ((53 : Int) - j) := by
      have h2 : (2 : ℚ) ^ ((53 : Int) - j) = 2 ^ (53 : ℕ) / 2 ^ j := by
        rw [zpow_sub₀ (by norm_num)]
        norm_cast
      have h3 : |(n : ℚ)| < 2 ^ (53 : ℕ) := by
        have : |(n : ℚ)| = ((|n| : Int) : ℚ) := by push_cast; rfl
        rw [this]
        exact_mod_cast hn
      rw [h2, abs_div, abs_of_pos (by positivity : (0 : ℚ) < 2 ^ j)]
      exact div_lt_div_of_pos_right h3 (by positivity)
    have hlog : Int.log 2 |(n : ℚ) / 2 ^ j| < 53 - j := by
      have := (Int.lt_zpow_iff_log_lt (b := 2) (by norm_num) (abs_pos.mpr hq)).mp
        (by simpa using habs)
      exact this
    have he : max (Int.log 2 |(n : ℚ) / 2 ^ j| - 52) (-1074) ≤ -(j : Int) := by
      apply max_le <;> omega
    obtain ⟨d, hd⟩ : ∃ d : Nat, (d : Int)
        = -(j : Int) - max (Int.log 2 |(n : ℚ) / 2 ^ j| - 52) (-1074) :=
      ⟨(-(j : Int) - max (Int.log 2 |(n : ℚ) / 2 ^ j| - 52) (-1074)).toNat,
        Int.toNat_of_nonneg (by omega)⟩
    have hE : max (Int.log 2 |(n : ℚ) / 2 ^ j| - 52) (-1074) = -(j : Int) - d := by omega
    simp only [float64, hq, if_false, hE]
    have h1 : (n : ℚ) / 2 ^ j / (2 : ℚ) ^ (-(j : Int) - d) = ((n * 2 ^ d : Int) : ℚ) := by
      rw [zpow_sub₀ (by norm_num), zpow_neg, zpow_natCast, zpow_natCast]
      push_cast
      field_simp
      ring
    rw [h1, roundHalfEven_intCast]
    rw [zpow_sub₀ (by norm_num), zpow_neg, zpow_natCast, zpow_natCast]
    push_cast
    field_simp
    ring

/-- A number that `readFloat` accepts and that is a small dyadic rational is
parsed to itself. -/
theorem ParseFloat_exact (s : List Char) (neg hex : Bool) (mant frac : Nat) (exp n : Int)
    (j : Nat) (hlit : parseFloatLit s = some (.number neg hex mant frac exp))
    (hval : litValue neg hex mant frac exp = (n : ℚ) / 2 ^ j)
    (hn : |n| < 2 ^ 53) (hj : j ≤ 1074) :
    ParseFloat s = .ok (.finite ((n : ℚ) / 2 ^ j)) := by
  have hsmall : ¬ (2 : ℚ) ^ 1024 ≤ |(n : ℚ) / 2 ^ j| := by
    have h3 : |(n : ℚ)| < 2 ^ (53 : ℕ) := by
      have : |(n : ℚ)| = ((|n| : Int) : ℚ) := by push_cast; rfl
      rw [this]
      exact_mod_cast hn
    have h4 : |(n : ℚ) / 2 ^ j| ≤ |(n : ℚ)| := by
      rw [abs_div, abs_of_pos (by positivity : (0 : ℚ) < 2 ^ j)]
      exact div_le_self (abs_nonneg _) (one_le_pow₀ (by norm_num))
    have h5 : (2 : ℚ) ^ (53 : ℕ) ≤ 2 ^ 1024 := by norm_num
    intro h
    linarith
  simp only [ParseFloat, hlit, hval, float64_exact n j hn hj, hsmall, if_false]

theorem truncate_intCast (z : Int) : truncate (z : ℚ) = z := by
  unfold truncate
  split_ifs <;> simp

theorem Sscanf_fields (line : List Char) (r e : Int) (tok : List Char) (d : Float64Val)
    (h1 : scanFields line = .ok (r, e, tok)) (h2 : convertFloat tok = .ok d) :
    Sscanf line = ⟨3, none, r, e, d⟩ := by
  simp only [Sscanf, h1, h2]

/-- What `redFromReader` does with a line that scans to three fields, the
third a `float64` whose whole part fits. -/
theorem redFromReader_ok (line : GoString) (env : Env) (r e : Int) (q : ℚ)
    (hs : Sscanf line.toList = ⟨3, none, r, e, .finite q⟩)
    (hfit : -(2 ^ 63 : Int) ≤ truncate q ∧ truncate q < 2 ^ 63) :
    redFromReader (.ok line) env
      = ((some env.world.heap.length, none),
          { env with world := (alloc ⟨r, e, wrapInt64 (truncate q * Second), 0⟩ env.world).2 }) := by
  have hfit2 : -9223372036854775808 ≤ truncate q ∧ truncate q < 9223372036854775808 := by
    simpa using hfit
  simp only [redFromReader, hs]
  simp [toInt64, hfit2, alloc]

theorem convertFloat_plain (tok : List Char) (h : tok.contains 'p' = false) :
    convertFloat tok = ParseFloat tok := by
  have hp : 'p' ∉ tok := by simpa using h
  simp only [convertFloat]
  rw [if_neg]
  intro hc
  exact hp (by simpa using hc.1)

theorem Sscanf_whole_42 : Sscanf "0, 0, 42.0".toList = ⟨3, none, 0, 0, .finite 42⟩ := by
  have h1 : scanFields "0, 0, 42.0".toList = .ok (0, 0, "42.0".toList) := by rfl
  have h2 : convertFloat "42.0".toList = .ok (.finite 42) := by
    rw [convertFloat_plain _ (by rfl)]
    have h := ParseFloat_exact "42.0".toList false false 420 1 0 42 0 (by rfl)
      (by norm_num [litValue]) (by decide) (by decide)
    simpa using h
  exact Sscanf_fields _ _ _ _ _ h1 h2

theorem Sscanf_fraction : Sscanf "0, 0, 42.5".toList = ⟨3, none, 0, 0, .finite (85 / 2)⟩ := by
  have h1 : scanFields "0, 0, 42.5".toList = .ok (0, 0, "42.5".toList) := by rfl
  have h2 : convertFloat "42.5".toList = .ok (.finite (85 / 2)) := by
    rw [convertFloat_plain _ (by rfl)]
    have h := ParseFloat_exact "42.5".toList false false 425 1 0 85 1 (by rfl)
      (by norm_num [litValue]) (by decide) (by decide)
    simpa using h
  exact Sscanf_fields _ _ _ _ _ h1 h2

theorem truncate_85_2 : truncate (85 / 2) = 42 := by
  unfold truncate
  rw [if_pos (by norm_num)]
  rw [Int.floor_eq_iff]
  constructor <;> norm_num

/-- C17, on the code: the wire line "0, 0, 42.5" is read without error as
Requests = 0, Errors = 0 and Duration = 42s (42000000000 ns), not 42.5s: the
conversion `time.Duration(duration)` drops the fraction before the
multiplication by `time.Second`.  The whole number of seconds of "0, 0, 42.0"
is read as 42s. -/
theorem wire_fraction_dropped (env : Env) :
    redFromReader (.ok "0, 0, 42.5") env
      = ((some env.world.heap.length, none),
          { env with world := (alloc ⟨0, 0, 42000000000, 0⟩ env.world).2 }) ∧
    redFromReader (.ok "0, 0, 42.0") env
      = ((some env.world.heap.length, none),
          { env with world := (alloc ⟨0, 0, 42000000000, 0⟩ env.world).2 }) ∧
    (42000000000 : Int) ≠ 42500000000 := by
  refine ⟨?_, ?_, by decide⟩
  · rw [redFromReader_ok "0, 0, 42.5" env 0 0 (85 / 2) Sscanf_fraction
      (by rw [truncate_85_2]; decide), truncate_85_2]
    rfl
  · have h42 : truncate (42 : ℚ) = 42 := by exact_mod_cast truncate_intCast 42
    rw [redFromReader_ok "0, 0, 42.0" env 0 0 42 Sscanf_whole_42
      (by rw [h42]; decide), h42]
    rfl

theorem Sscanf_four_fields :
    Sscanf "1, 2, 3.0, 4".toList = ⟨3, none, 1, 2, .finite 3⟩ := by
  have h1 : scanFields "1, 2, 3.0, 4".toList = .ok (1, 2, "3.0".toList) := by rfl
  have h2 : convertFloat "3.0".toList = .ok (.finite 3) := by
    rw [convertFloat_plain _ (by rfl)]
    have h := ParseFloat_exact "3.0".toList false false 30 1 0 3 0 (by rfl)
      (by norm_num [litValue]) (by decide) (by decide)
    simpa using h
  exact Sscanf_fields _ _ _ _ _ h1 h2

theorem Sscanf_trailing_text :
    Sscanf "1, 2, 3abc".toList = ⟨3, none, 1, 2, .finite 3⟩ := by
  have h1 : scanFields "1, 2, 3abc".toList = .ok (1, 2, "3".toList) := by rfl
  have h2 : convertFloat "3".toList = .ok (.finite 3) := by
    rw [convertFloat_plain _ (by rfl)]
    have h := ParseFloat_exact "3".toList false false 3 0 0 3 0 (by rfl)
      (by norm_num [litValue]) (by decide) (by decide)
    simpa using h
  exact Sscanf_fields _ _ _ _ _ h1 h2

/-- C18, as stated, fails: the line "1, 2, 3.0, 4" has more than three fields
and the third token of the line "1, 2, 3abc" is not a number, yet on both
`redFromReader` returns a nil error and a Red holding 1, 2 and 3s. -/
theorem wire_error_spec_counterexample :
    (redFromReader (.ok "1, 2, 3.0, 4") (initEnv sampleServer)).1 = (some 0, none) ∧
    (redFromReader (.ok "1, 2, 3.0, 4") (initEnv sampleServer)).2.world.heap
      = [⟨1, 2, 3000000000, 0⟩] ∧
    (redFromReader (.ok "1, 2, 3abc") (initEnv sampleServer)).1 = (some 0, none) ∧
    (redFromReader (.ok "1, 2, 3abc") (initEnv sampleServer)).2.world.heap
      = [⟨1, 2, 3000000000, 0⟩] := by
  have h3 : truncate (3 : ℚ) = 3 := by exact_mod_cast truncate_intCast 3
  rw [redFromReader_ok "1, 2, 3.0, 4" (initEnv sampleServer) 1 2 3 Sscanf_four_fields
    (by rw [h3]; decide), h3,
    redFromReader_ok "1, 2, 3abc" (initEnv sampleServer) 1 2 3 Sscanf_trailing_text
    (by rw [h3]; decide)]
  exact ⟨rfl, rfl, rfl, rfl⟩

theorem Sscanf_count (line : List Char) :
    ((Sscanf line).err = none → (Sscanf line).n = 3) ∧
    ((Sscanf line).n < 3 → (Sscanf line).err ≠ none) := by
  cases h1 : scanFields line with
  | error p =>
    obtain ⟨n, e, r, er⟩ := p
    simp [Sscanf, h1]
  | ok p =>
    obtain ⟨r, er, tok⟩ := p
    cases h2 : convertFloat tok with
    | error e => simp [Sscanf, h1, h2]
    | ok d => simp [Sscanf, h1, h2]

/-! ## The wire format and the scan

The scan under `"%d, %d, %g"` goes through exactly on the lines that follow the
wire format up to the end of the third number. -/

theorem isBlank_fun : (fun x => decide (isSpace x = true ∧ x ≠ newline)) = isBlank := by
  funext x
  simp [isBlank]

theorem isBlank_space (c : Char) (h : isBlank c = true) : isSpace c = true ∧ c ≠ newline := by
  simpa [isBlank] using h

theorem isSpace_newline : isSpace newline = true := by decide

/-- What `skipSpace` hands back is the input without its blanks in front, and
it starts with a rune that is not white space. -/
theorem skipSpace_ok (s t : List Char) (h : skipSpace s = .ok t) :
    ∃ sp, s = sp ++ t ∧ (∀ c ∈ sp, isBlank c = true) ∧
      ∀ c rest, t = c :: rest → isSpace c = false := by
  induction s with
  | nil =>
    simp only [skipSpace, Except.ok.injEq] at h
    subst h
    exact ⟨[], rfl, by simp, by simp⟩
  | cons c cs ih =>
    simp only [skipSpace] at h
    split_ifs at h with h1 h2
    · obtain ⟨sp, h3, h4, h5⟩ := ih h
      refine ⟨c :: sp, by rw [h3]; rfl, ?_, h5⟩
      intro d hd
      rcases List.mem_cons.1 hd with hd | hd
      · subst hd
        simp [isBlank, h2, h1]
      · exact h4 d hd
    · simp only [Except.ok.injEq] at h
      subst h
      refine ⟨[], rfl, by simp, ?_⟩
      intro d rest hd
      cases hd
      simpa using h2

theorem skipSpace_blanks (sp t : List Char) (hsp : ∀ c ∈ sp, isBlank c = true)
    (ht : ∀ c rest, t = c :: rest → isSpace c = false) : skipSpace (sp ++ t) = .ok t := by
  induction sp with
  | nil =>
    cases t with
    | nil => rfl
    | cons c rest =>
      have h := ht c rest rfl
      have hn : c ≠ newline := by
        intro hc
        rw [hc, isSpace_newline] at h
        exact absurd h (by decide)
      simp [skipSpace, hn, h]
  | cons c cs ih =>
    have h := isBlank_space c (hsp c (List.mem_cons_self _ _))
    have h2 := ih fun d hd => hsp d (List.mem_cons_of_mem _ hd)
    simp only [List.cons_append, skipSpace, if_neg h.2, h.1, if_true]
    exact h2

theorem acceptAll_append (ok : List Char) (inp tok : List Char) :
    ∃ ds, (acceptAll ok tok inp).1 = tok ++ ds ∧ inp = ds ++ (acceptAll ok tok inp).2 ∧
      (∀ c ∈ ds, c ∈ ok) ∧ ∀ c rest, (acceptAll ok tok inp).2 = c :: rest → c ∉ ok := by
  induction inp generalizing tok with
  | nil => exact ⟨[], by simp [acceptAll], by simp [acceptAll], by simp, by simp [acceptAll]⟩
  | cons c cs ih =>
    by_cases hc : c ∈ ok
    · obtain ⟨ds, h1, h2, h3, h4⟩ := ih (tok ++ [c])
      simp only [acceptAll, if_pos hc]
      refine ⟨c :: ds, by rw [h1]; simp, by rw [List.cons_append, ← h2], ?_, h4⟩
      intro d hd
      rcases List.mem_cons.1 hd with hd | hd
      · exact hd ▸ hc
      · exact h3 d hd
    · simp only [acceptAll, if_neg hc]
      refine ⟨[], by simp, by simp, by simp, ?_⟩
      intro d rest hd
      cases hd
      exact hc

theorem acceptAll_run (ok ds rest tok : List Char) (hds : ∀ c ∈ ds, c ∈ ok)
    (hrest : ∀ c r, rest = c :: r → c ∉ ok) :
    acceptAll ok tok (ds ++ rest) = (tok ++ ds, rest) := by
  induction ds generalizing tok with
  | nil =>
    cases rest with
    | nil => simp [acceptAll]
    | cons c r => simp [acceptAll, hrest c r rfl]
  | cons d ds ih =>
    simp only [List.cons_append, acceptAll, if_pos (hds d (List.mem_cons_self _ _))]
    have h := ih (tok ++ [d]) (fun c hc => hds c (List.mem_cons_of_mem _ hc))
    rw [show ds.append rest = ds ++ rest from rfl, h]
    simp

theorem decimalValue_ge (ds : List Char) (n : Nat) : n ≤ decimalValue ds n := by
  induction ds generalizing n with
  | nil => exact Nat.le_refl _
  | cons c cs ih =>
    simp only [decimalValue]
    exact Nat.le_trans (by omega) (ih (n * 10 + digitVal c))

/-- The loop of `ParseUint` on a run of digits: their value, or a range error
when that does not fit 64 bits. -/
theorem parseUint_digits (ds : List Char) (n : Nat) (hds : ∀ c ∈ ds, c ∈ decimalDigits)
    (hn : n < 2 ^ 64) :
    parseUint ds n
      = if decimalValue ds n < 2 ^ 64 then .ok (decimalValue ds n) else .error .outOfRange := by
  induction ds generalizing n with
  | nil => simp only [parseUint, decimalValue, if_pos hn]
  | cons c cs ih =>
    have hc := hds c (List.mem_cons_self _ _)
    simp only [parseUint, decimalValue, if_pos hc]
    by_cases h : 2 ^ 64 ≤ n * 10 + digitVal c
    · have h2 := decimalValue_ge cs (n * 10 + digitVal c)
      rw [if_pos h, if_neg (by omega)]
    · rw [if_neg h]
      exact ih (n * 10 + digitVal c) (fun d hd => hds d (List.mem_cons_of_mem _ hd)) (by omega)

theorem parseUint_ok (ds : List Char) (n m : Nat) (h : parseUint ds n = .ok m) :
    ∀ c ∈ ds, c ∈ decimalDigits := by
  induction ds generalizing n with
  | nil => simp
  | cons c cs ih =>
    simp only [parseUint] at h
    split_ifs at h with h1 h2
    intro d hd
    rcases List.mem_cons.1 hd with hd | hd
    · exact hd ▸ h1
    · exact ih _ h d hd

/-- The function `ParseInt` accepts exactly the texts `<int>` whose value fits
64 bits, and gives that value. -/
theorem ParseInt_ok (s : List Char) (v : Int) :
    ParseInt s = .ok v ↔
      isInteger s = true ∧ integerValue s = v ∧ -(2 ^ 63) ≤ v ∧ v < 2 ^ 63 := by
  cases s with
  | nil => simp [ParseInt, isInteger]
  | cons c cs =>
    by_cases hm : c = '-'
    · subst hm
      cases cs with
      | nil => simp [ParseInt, isInteger]
      | cons d ds =>
        simp only [ParseInt, isInteger, integerValue]
        simp only [or_true, if_true, decide_True, List.isEmpty_cons, Bool.not_false, Bool.true_and,
          reduceCtorEq, if_false]
        constructor
        · intro h
          split at h
          · exact absurd h (by simp)
          · rename_i un hun
            have hall := parseUint_ok _ _ _ hun
            rw [parseUint_digits _ _ hall (by norm_num)] at hun
            split_ifs at hun with h1
            simp only [Except.ok.injEq] at hun
            split_ifs at h with h2
            simp only [Except.ok.injEq] at h
            refine ⟨by simpa using hall, by rw [hun]; exact h, ?_, ?_⟩
            · rw [← h]
              have : ((un : Nat) : Int) ≤ 2 ^ 63 := by exact_mod_cast (Nat.not_lt.1 h2)
              omega
            · rw [← h]
              have : (0 : Int) ≤ (un : Int) := Int.natCast_nonneg _
              omega
        · rintro ⟨h1, h2, h3, h4⟩
          have hall : ∀ c ∈ d :: ds, c ∈ decimalDigits := by simpa using h1
          have hle : decimalValue (d :: ds) 0 ≤ 2 ^ 63 := by
            have : -(2 ^ 63 : Int) ≤ -((decimalValue (d :: ds) 0 : Nat) : Int) := by rw [h2]; exact h3
            have h5 : ((decimalValue (d :: ds) 0 : Nat) : Int) ≤ 2 ^ 63 := by omega
            exact_mod_cast h5
          rw [parseUint_digits _ _ hall (by norm_num), if_pos (by omega)]
          simp only []
          rw [if_neg (by omega), h2]
    · by_cases hp : c = '+'
      · subst hp
        cases cs with
        | nil => simp [ParseInt, isInteger]
        | cons d ds =>
          simp only [ParseInt, isInteger, integerValue]
          simp only [true_or, if_true, decide_False, List.isEmpty_cons, Bool.not_false,
            Bool.true_and, reduceCtorEq, if_false, Bool.false_eq_true, (by decide : ¬ '+' = '-')]
          constructor
          · intro h
            split at h
            · exact absurd h (by simp)
            · rename_i un hun
              have hall := parseUint_ok _ _ _ hun
              rw [parseUint_digits _ _ hall (by norm_num)] at hun
              split_ifs at hun with h1
              simp only [Except.ok.injEq] at hun
              split_ifs at h with h2
              simp only [Except.ok.injEq] at h
              refine ⟨by simpa using hall, by rw [hun]; exact h, ?_, ?_⟩
              · rw [← h]
                have : (0 : Int) ≤ (un : Int) := Int.natCast_nonneg _
                omega
              · rw [← h]
                have : ((un : Nat) : Int) < 2 ^ 63 := by exact_mod_cast (Nat.not_le.1 h2)
                omega
          · rintro ⟨h1, h2, h3, h4⟩
            have hall : ∀ c ∈ d :: ds, c ∈ decimalDigits := by simpa using h1
            have hlt : decimalValue (d :: ds) 0 < 2 ^ 63 := by
              have h5 : ((decimalValue (d :: ds) 0 : Nat) : Int) < 2 ^ 63 := by rw [h2]; exact h4
              exact_mod_cast h5
            rw [parseUint_digits _ _ hall (by norm_num), if_pos (by omega)]
            simp only []
            rw [if_neg (by omega), h2]
      · simp only [ParseInt, isInteger, integerValue]
        simp only [hm, hp, or_self, if_false, decide_False, reduceCtorEq, Bool.false_eq_true]
        constructor
        · intro h
          split at h
          · exact absurd h (by simp)
          · rename_i un hun
            have hall := parseUint_ok _ _ _ hun
            rw [parseUint_digits _ _ hall (by norm_num)] at hun
            split_ifs at hun with h1
            simp only [Except.ok.injEq] at hun
            split_ifs at h with h2
            simp only [Except.ok.injEq] at h
            refine ⟨by simpa using hall, by rw [hun]; exact h, ?_, ?_⟩
            · rw [← h]
              have : (0 : Int) ≤ (un : Int) := Int.natCast_nonneg _
              omega
            · rw [← h]
              have : ((un : Nat) : Int) < 2 ^ 63 := by exact_mod_cast (Nat.not_le.1 h2)
              omega
        · rintro ⟨h1, h2, h3, h4⟩
          have hall : ∀ d ∈ c :: cs, d ∈ decimalDigits := by simpa using h1
          have hlt : decimalValue (c :: cs) 0 < 2 ^ 63 := by
            have h5 : ((decimalValue (c :: cs) 0 : Nat) : Int) < 2 ^ 63 := by rw [h2]; exact h4
            exact_mod_cast h5
          rw [parseUint_digits _ _ hall (by norm_num), if_pos (by omega)]
          simp only []
          rw [if_neg (by omega), h2]

theorem accept_sign (c : Char) (cs : List Char) :
    accept "+-".toList [] (c :: cs)
      = if c = '+' ∨ c = '-' then (true, [c], cs) else (false, [], c :: cs) := by
  simp only [accept, String.toList, List.mem_cons, List.nil_append]
  by_cases h : c = '+' ∨ c = '-'
  · rw [if_pos h, if_pos (by tauto)]
  · rw [if_neg h, if_neg]
    intro h2
    rcases h2 with h2 | h2 | h2
    · exact h (Or.inl h2)
    · exact h (Or.inr h2)
    · exact absurd h2 (List.not_mem_nil _)

theorem isSpace_digit (c : Char) (h : c ∈ decimalDigits) : isSpace c = false := by
  simp only [decimalDigits, String.toList, List.mem_cons] at h
  rcases h with h | h | h | h | h | h | h | h | h | h | h
  all_goals first | (subst h; decide) | exact absurd h (List.not_mem_nil _)

theorem comma_not_digit : ',' ∉ decimalDigits := by decide

/-- What the method `scanInt` reads: blanks, then a text `<int>` that is not
followed by a digit, whose value fits 64 bits. -/
theorem scanInt_ok (s rest : List Char) (v : Int) (h : scanInt s = .ok (v, rest)) :
    ∃ sp i, s = sp ++ (i ++ rest) ∧ (∀ c ∈ sp, isBlank c = true) ∧ isInteger i = true ∧
      integerValue i = v ∧ -(2 ^ 63) ≤ v ∧ v < 2 ^ 63 ∧
      ∀ c r, rest = c :: r → c ∉ decimalDigits := by
  unfold scanInt at h
  cases hs : skipSpace s with
  | error e => simp [hs] at h
  | ok t =>
    obtain ⟨sp, hsp, hbl, -⟩ := skipSpace_ok s t hs
    cases t with
    | nil => simp [hs] at h
    | cons c cs =>
      simp only [hs, accept_sign] at h
      by_cases hc : c = '+' ∨ c = '-'
      · simp only [if_pos hc] at h
        cases cs with
        | nil => simp at h
        | cons d ds =>
          simp only [] at h
          split_ifs at h with hd
          obtain ⟨run, h1, h2, h3, h4⟩ := acceptAll_append decimalDigits (d :: ds) [c]
          cases hp : ParseInt (acceptAll decimalDigits [c] (d :: ds)).1 with
          | error e => simp [hp] at h
          | ok v1 =>
            simp only [hp, Except.ok.injEq, Prod.mk.injEq] at h
            obtain ⟨hv, hrest⟩ := h
            subst hv
            rw [hrest] at h2 h4
            obtain ⟨hi, hval, hlo, hhi⟩ := (ParseInt_ok _ _).1 hp
            refine ⟨sp, (acceptAll decimalDigits [c] (d :: ds)).1, ?_, hbl, hi, hval, hlo, hhi, h4⟩
            rw [hsp, h1, h2]
            simp
      · simp only [if_neg hc] at h
        split_ifs at h with hd
        obtain ⟨run, h1, h2, h3, h4⟩ := acceptAll_append decimalDigits (c :: cs) []
        cases hp : ParseInt (acceptAll decimalDigits [] (c :: cs)).1 with
        | error e => simp [hp] at h
        | ok v1 =>
          simp only [hp, Except.ok.injEq, Prod.mk.injEq] at h
          obtain ⟨hv, hrest⟩ := h
          subst hv
          rw [hrest] at h2 h4
          obtain ⟨hi, hval, hlo, hhi⟩ := (ParseInt_ok _ _).1 hp
          refine ⟨sp, (acceptAll decimalDigits [] (c :: cs)).1, ?_, hbl, hi, hval, hlo, hhi, h4⟩
          rw [hsp, h1, h2]
          simp

/-- The other way round: blanks and a text `<int>` whose value fits, not
followed by a digit, are read by `scanInt`. -/
theorem scanInt_run (sp i rest : List Char) (hsp : ∀ c ∈ sp, isBlank c = true)
    (hi : isInteger i = true)
    (hv : -(2 ^ 63) ≤ integerValue i ∧ integerValue i < 2 ^ 63)
    (hrest : ∀ c r, rest = c :: r → c ∉ decimalDigits) :
    scanInt (sp ++ (i ++ rest)) = .ok (integerValue i, rest) := by
  have hp : ParseInt i = .ok (integerValue i) := (ParseInt_ok i _).2 ⟨hi, rfl, hv.1, hv.2⟩
  cases i with
  | nil => simp [isInteger] at hi
  | cons c cs =>
    by_cases hc : c = '+' ∨ c = '-'
    · have hsc : isSpace c = false := by
        rcases hc with hc | hc <;> (subst hc; decide)
      have hs : skipSpace (sp ++ (c :: cs ++ rest)) = .ok (c :: cs ++ rest) :=
        skipSpace_blanks sp _ hsp (by
          intro d r hd
          cases hd
          exact hsc)
      simp only [isInteger, if_pos hc, Bool.and_eq_true, Bool.not_eq_true',
        List.all_eq_true, decide_eq_true_eq] at hi
      cases cs with
      | nil => simp at hi
      | cons d ds =>
        have hd : d ∈ decimalDigits := hi.2 d (List.mem_cons_self _ _)
        unfold scanInt
        rw [hs]
        simp only [List.cons_append, accept_sign, if_pos hc, if_pos hd]
        have hrun := acceptAll_run decimalDigits (d :: ds) rest [c] hi.2 hrest
        simp only [List.cons_append] at hrun
        rw [hrun]
        simp only [List.nil_append]
        rw [hp]
    · have hall : ∀ d ∈ c :: cs, d ∈ decimalDigits := by
        simpa [isInteger, hc] using hi
      have hd : c ∈ decimalDigits := hall c (List.mem_cons_self _ _)
      have hs : skipSpace (sp ++ (c :: cs ++ rest)) = .ok (c :: cs ++ rest) :=
        skipSpace_blanks sp _ hsp (by
          intro d r hd2
          cases hd2
          exact isSpace_digit c hd)
      unfold scanInt
      rw [hs]
      simp only [List.cons_append, accept_sign, if_neg hc, if_pos hd]
      have hrun := acceptAll_run decimalDigits (c :: cs) rest [] hall hrest
      simp only [List.cons_append, List.nil_append] at hrun
      rw [hrun]
      simp only []
      rw [hp]

/-- What the method `advance` reads on the text `", "` of the format: a comma
and the blanks after it; there is a blank unless the input ends at the
comma. -/
theorem advanceCommaSpace_ok (s t : List Char) (h : advanceCommaSpace s = .ok t) :
    ∃ sp, s = ',' :: (sp ++ t) ∧ (∀ c ∈ sp, isBlank c = true) ∧ (sp = [] → t = []) ∧
      ∀ c r, t = c :: r → isBlank c = false := by
  cases s with
  | nil => simp [advanceCommaSpace] at h
  | cons c cs =>
    simp only [advanceCommaSpace] at h
    split_ifs at h with hc
    have hc2 : c = ',' := by simpa using hc
    subst hc2
    cases cs with
    | nil =>
      simp only [Except.ok.injEq] at h
      subst h
      exact ⟨[], rfl, by simp, fun _ => rfl, by simp⟩
    | cons d ds =>
      simp only [] at h
      split_ifs at h with h1 h2
      simp only [Except.ok.injEq, isBlank_fun] at h
      have hd : isBlank d = true := by
        simp only [isBlank, Bool.and_eq_true, decide_eq_true_eq]
        exact ⟨by simpa using h1, h2⟩
      refine ⟨d :: ds.takeWhile isBlank, ?_, ?_, by simp, ?_⟩
      · rw [← h, List.cons_append, List.takeWhile_append_dropWhile]
      · intro x hx
        rcases List.mem_cons.1 hx with hx | hx
        · exact hx ▸ hd
        · exact (List.mem_takeWhile_imp hx)
      · intro x r hx
        rw [← h] at hx
        have h3 := List.head_dropWhile_not isBlank ds (by rw [hx]; simp)
        simpa [hx] using h3

theorem advanceCommaSpace_run (sp t : List Char) (hne : sp ≠ [])
    (hsp : ∀ c ∈ sp, isBlank c = true) (ht : ∀ c r, t = c :: r → isBlank c = false) :
    advanceCommaSpace (',' :: (sp ++ t)) = .ok t := by
  cases sp with
  | nil => exact absurd rfl hne
  | cons d ds =>
    have hd := isBlank_space d (hsp d (List.mem_cons_self _ _))
    simp only [advanceCommaSpace, ne_eq, not_true_eq_false, if_false, List.cons_append, hd.1,
      Bool.not_true, Bool.false_eq_true, if_neg hd.2, isBlank_fun]
    congr 1
    rw [List.dropWhile_append_of_pos (fun x hx => hsp x (List.mem_cons_of_mem _ hx))]
    cases t with
    | nil => rfl
    | cons c r =>
      simp [List.dropWhile, ht c r rfl]

theorem isInteger_head (i : List Char) (h : isInteger i = true) :
    ∃ c cs, i = c :: cs ∧ isSpace c = false ∧ c ≠ ',' := by
  cases i with
  | nil => simp [isInteger] at h
  | cons c cs =>
    refine ⟨c, cs, rfl, ?_⟩
    by_cases hc : c = '+' ∨ c = '-'
    · rcases hc with hc | hc <;> (subst hc; exact ⟨by decide, by decide⟩)
    · have hall : ∀ d ∈ c :: cs, d ∈ decimalDigits := by simpa [isInteger, hc] using h
      have hd := hall c (List.mem_cons_self _ _)
      refine ⟨isSpace_digit c hd, ?_⟩
      intro h2
      rw [h2] at hd
      exact comma_not_digit hd

theorem isBlank_of_not_space (c : Char) (h : isSpace c = false) : isBlank c = false := by
  simp [isBlank, h]

theorem scanFloatToken_ok (s tok rest : List Char) (h : scanFloatToken s = .ok (tok, rest)) :
    ∃ sp c cs, s = sp ++ c :: cs ∧ (∀ x ∈ sp, isBlank x = true) ∧ isSpace c = false ∧
      floatToken (c :: cs) = (tok, rest) := by
  unfold scanFloatToken at h
  cases hs : skipSpace s with
  | error e => simp [hs] at h
  | ok t =>
    obtain ⟨sp, hsp, hbl, hhead⟩ := skipSpace_ok s t hs
    cases t with
    | nil => simp [hs] at h
    | cons c cs =>
      simp only [hs, Except.ok.injEq] at h
      exact ⟨sp, c, cs, hsp, hbl, hhead c cs rfl, h⟩

/-- The scan of the two integers and of the token of the third field goes
through exactly on the lines that follow the wire format up to the start of
the third field; the token is then what `floatToken` takes from the start of
the third field. -/
theorem scanFields_ok (line : List Char) (r e : Int) (tok : List Char) :
    scanFields line = .ok (r, e, tok) ↔
      ∃ third, WireLine line r e third ∧ tok = (floatToken third).1 := by
  constructor
  · intro h
    unfold scanFields at h
    cases h1 : scanInt line with
    | error x => simp [h1] at h
    | ok p1 =>
      obtain ⟨r1, rest1⟩ := p1
      simp only [h1] at h
      cases h2 : advanceCommaSpace rest1 with
      | error x => simp [h2] at h
      | ok rest2 =>
        simp only [h2] at h
        cases h3 : scanInt rest2 with
        | error x => simp [h3] at h
        | ok p3 =>
          obtain ⟨e1, rest3⟩ := p3
          simp only [h3] at h
          cases h4 : advanceCommaSpace rest3 with
          | error x => simp [h4] at h
          | ok rest4 =>
            simp only [h4] at h
            cases h5 : scanFloatToken rest4 with
            | error x => simp [h5] at h
            | ok p5 =>
              obtain ⟨tok1, rest5⟩ := p5
              simp only [h5, Except.ok.injEq, Prod.mk.injEq] at h
              obtain ⟨hr, he, htok⟩ := h
              subst hr he htok
              obtain ⟨sp0, i1, e1a, b0, hi1, hv1, hlo1, hhi1, -⟩ := scanInt_ok _ _ _ h1
              obtain ⟨sp1, e2a, b1, hnil1, -⟩ := advanceCommaSpace_ok _ _ h2
              obtain ⟨sp1b, i2, e3a, b1b, hi2, hv2, hlo2, hhi2, -⟩ := scanInt_ok _ _ _ h3
              obtain ⟨sp2, e4a, b2, hnil2, -⟩ := advanceCommaSpace_ok _ _ h4
              obtain ⟨sp2b, c, cs, e5a, b2b, hc, hft⟩ := scanFloatToken_ok _ _ _ h5
              obtain ⟨c2, cs2, hi2c, -, -⟩ := isInteger_head i2 hi2
              refine ⟨c :: cs, ⟨sp0, i1, sp1 ++ sp1b, i2, sp2 ++ sp2b, ?_, b0, hi1, hv1, ?_, ?_,
                hi2, hv2, ?_, ?_, hlo1, hhi1, hlo2, hhi2, c, cs, rfl, hc⟩, by rw [hft]⟩
              · rw [e1a, e2a, e3a, e4a, e5a]
                simp
              · intro hnil
                have h6 := hnil1 (List.append_eq_nil.1 hnil).1
                rw [h6, hi2c] at e3a
                simp at e3a
              · intro x hx
                rcases List.mem_append.1 hx with hx | hx
                · exact b1 x hx
                · exact b1b x hx
              · intro hnil
                have h6 := hnil2 (List.append_eq_nil.1 hnil).1
                rw [h6] at e5a
                simp at e5a
              · intro x hx
                rcases List.mem_append.1 hx with hx | hx
                · exact b2 x hx
                · exact b2b x hx
  · rintro ⟨third, ⟨sp0, i1, sp1, i2, sp2, hline, b0, hi1, hv1, hne1, b1, hi2, hv2, hne2, b2,
      hlo1, hhi1, hlo2, hhi2, c, cs, hthird, hc⟩, htok⟩
    obtain ⟨c2, cs2, hi2c, hsp2, -⟩ := isInteger_head i2 hi2
    have s1 : scanInt line = .ok (r, ',' :: (sp1 ++ (i2 ++ ',' :: (sp2 ++ third)))) := by
      rw [hline, ← hv1]
      exact scanInt_run sp0 i1 _ b0 hi1 (by rw [hv1]; exact ⟨hlo1, hhi1⟩) (by
        intro x y hx
        cases hx
        exact comma_not_digit)
    have s2 : advanceCommaSpace (',' :: (sp1 ++ (i2 ++ ',' :: (sp2 ++ third))))
        = .ok (i2 ++ ',' :: (sp2 ++ third)) :=
      advanceCommaSpace_run sp1 _ hne1 b1 (by
        intro x y hx
        rw [hi2c] at hx
        cases hx
        exact isBlank_of_not_space _ hsp2)
    have s3 : scanInt (i2 ++ ',' :: (sp2 ++ third)) = .ok (e, ',' :: (sp2 ++ third)) := by
      rw [← hv2]
      exact scanInt_run [] i2 _ (by simp) hi2 (by rw [hv2]; exact ⟨hlo2, hhi2⟩) (by
        intro x y hx
        cases hx
        exact comma_not_digit)
    have s4 : advanceCommaSpace (',' :: (sp2 ++ third)) = .ok third :=
      advanceCommaSpace_run sp2 _ hne2 b2 (by
        intro x y hx
        rw [hthird] at hx
        cases hx
        exact isBlank_of_not_space _ hc)
    have s5 : scanFloatToken third = .ok (floatToken third) := by
      have hs : skipSpace third = .ok third :=
        skipSpace_blanks [] third (by simp) (by
          intro x y hx
          rw [hthird] at hx
          cases hx
          exact hc)
      unfold scanFloatToken
      rw [hs, hthird]
    unfold scanFields
    rw [s1]
    simp only []
    rw [s2]
    simp only []
    rw [s3]
    simp only []
    rw [s4]
    simp only []
    rw [s5, htok]

/-- The call of `Sscanf` ends without an error exactly on the lines that
follow the wire format up to the start of the third field and whose third
field starts with a token that `convertFloat` takes. -/
theorem Sscanf_ok (line : List Char) :
    (Sscanf line).err = none ↔
      ∃ r e third d, WireLine line r e third ∧ convertFloat (floatToken third).1 = .ok d := by
  constructor
  · intro h
    cases h1 : scanFields line with
    | error p =>
      obtain ⟨n, x, a, b⟩ := p
      simp [Sscanf, h1] at h
    | ok p =>
      obtain ⟨r, e, tok⟩ := p
      obtain ⟨third, hw, htok⟩ := (scanFields_ok line r e tok).1 h1
      cases h2 : convertFloat tok with
      | error x => simp [Sscanf, h1, h2] at h
      | ok d => exact ⟨r, e, third, d, hw, by rw [← htok]; exact h2⟩
  · rintro ⟨r, e, third, d, hw, hd⟩
    have h1 := (scanFields_ok line r e _).2 ⟨third, hw, rfl⟩
    rw [Sscanf_fields line r e _ d h1 hd]

theorem Sscanf_wire (line : List Char) (r e : Int) (third : List Char) (d : Float64Val)
    (hw : WireLine line r e third) (hd : convertFloat (floatToken third).1 = .ok d) :
    Sscanf line = ⟨3, none, r, e, d⟩ :=
  Sscanf_fields line r e _ d ((scanFields_ok line r e _).2 ⟨third, hw, rfl⟩) hd

theorem takeWhile_until (p : Char → Bool) (a b : List Char) (ha : ∀ x ∈ a, p x = true)
    (hb : ∀ c r, b = c :: r → p c = false) : (a ++ b).takeWhile p = a := by
  induction a with
  | nil =>
    cases b with
    | nil => rfl
    | cons c r => simp [List.takeWhile, hb c r rfl]
  | cons x xs ih =>
    have h := ih fun y hy => ha y (List.mem_cons_of_mem _ hy)
    simp only [List.cons_append, List.takeWhile, ha x (List.mem_cons_self _ _)]
    exact congrArg (x :: ·) h

theorem dropWhile_until (p : Char → Bool) (a b : List Char) (ha : ∀ x ∈ a, p x = true)
    (hb : ∀ c r, b = c :: r → p c = false) : (a ++ b).dropWhile p = b := by
  induction a with
  | nil =>
    cases b with
    | nil => rfl
    | cons c r => simp [List.dropWhile, hb c r rfl]
  | cons x xs ih =>
    simp only [List.cons_append, List.dropWhile, ha x (List.mem_cons_self _ _)]
    exact ih fun y hy => ha y (List.mem_cons_of_mem _ hy)

theorem isBlank_no_comma (c : Char) (h : isBlank c = true) : c ≠ ',' := by
  intro hc
  rw [hc] at h
  exact absurd h (by decide)

theorem isInteger_no_comma (i : List Char) (h : isInteger i = true) : ∀ c ∈ i, c ≠ ',' := by
  cases i with
  | nil => simp
  | cons c cs =>
    by_cases hc : c = '+' ∨ c = '-'
    · simp only [isInteger, if_pos hc, Bool.and_eq_true, List.all_eq_true,
        decide_eq_true_eq] at h
      intro d hd
      rcases List.mem_cons.1 hd with hd | hd
      · rcases hc with hc | hc <;> (rw [hd, hc]; decide)
      · intro h2
        have := h.2 d hd
        rw [h2] at this
        exact comma_not_digit this
    · have hall : ∀ d ∈ c :: cs, d ∈ decimalDigits := by simpa [isInteger, hc] using h
      intro d hd h2
      have := hall d hd
      rw [h2] at this
      exact comma_not_digit this

/-- On a line that follows the wire format up to the start of the third field,
the fields as the specification cuts them at the commas are the two integers
and the text of the third field. -/
theorem wire_tokens (line : List Char) (r e : Int) (third : List Char)
    (h : WireLine line r e third) :
    2 ≤ line.count ',' ∧ isInteger (firstToken line) = true ∧
      isInteger (secondToken line) = true ∧ thirdText line = third := by
  obtain ⟨sp0, i1, sp1, i2, sp2, hline, b0, hi1, hv1, hne1, b1, hi2, hv2, hne2, b2,
    hlo1, hhi1, hlo2, hhi2, c, cs, hthird, hc⟩ := h
  obtain ⟨c1, cs1, hi1c, hsp1, -⟩ := isInteger_head i1 hi1
  obtain ⟨c2, cs2, hi2c, hsp2, -⟩ := isInteger_head i2 hi2
  have hfirst : ∀ (sp i rest : List Char) (x : Char) (xs : List Char),
      (∀ y ∈ sp, isBlank y = true) → i = x :: xs → isSpace x = false → (∀ y ∈ i, y ≠ ',') →
      firstToken (sp ++ (i ++ ',' :: rest)) = i := by
    intro sp i rest x xs hsp hi hx hcomma
    unfold firstToken
    rw [dropWhile_until isBlank sp _ hsp (by
      intro y ys hy
      rw [hi] at hy
      cases hy
      exact isBlank_of_not_space _ hx)]
    exact takeWhile_until _ i _ (fun y hy => by simpa using hcomma y hy) (by
      intro y ys hy
      cases hy
      simp)
  have hafter : ∀ (sp i rest : List Char),
      (∀ y ∈ sp, isBlank y = true) → (∀ y ∈ i, y ≠ ',') →
      afterComma (sp ++ (i ++ ',' :: rest)) = rest := by
    intro sp i rest hsp hcomma
    unfold afterComma
    rw [← List.append_assoc, dropWhile_until _ (sp ++ i) _ (by
      intro y hy
      rcases List.mem_append.1 hy with hy | hy
      · simpa using isBlank_no_comma y (hsp y hy)
      · simpa using hcomma y hy) (by
      intro y ys hy
      cases hy
      simp)]
    rfl
  have ha1 := hafter sp0 i1 (sp1 ++ (i2 ++ ',' :: (sp2 ++ third))) b0 (isInteger_no_comma i1 hi1)
  have ha2 := hafter sp1 i2 (sp2 ++ third) b1 (isInteger_no_comma i2 hi2)
  refine ⟨?_, ?_, ?_, ?_⟩
  · rw [hline]
    simp only [List.count_append, List.count_cons_self]
    omega
  · rw [hline, hfirst sp0 i1 _ c1 cs1 b0 hi1c hsp1 (isInteger_no_comma i1 hi1)]
    exact hi1
  · unfold secondToken
    rw [hline, ha1, hfirst sp1 i2 _ c2 cs2 b1 hi2c hsp2 (isInteger_no_comma i2 hi2)]
    exact hi2
  · unfold thirdText
    rw [hline, ha1, ha2]
    exact dropWhile_until isBlank sp2 third b2 (by
      intro y ys hy
      rw [hthird] at hy
      cases hy
      exact isBlank_of_not_space _ hc)

theorem accept_keep (ok tok inp : List Char) :
    (accept ok tok inp).2.1 ++ (accept ok tok inp).2.2 = tok ++ inp := by
  cases inp with
  | nil => simp [accept]
  | cons c cs =>
    by_cases h : c ∈ ok
    · simp [accept, h]
    · simp [accept, h]

theorem acceptAll_keep (ok inp tok : List Char) :
    (acceptAll ok tok inp).1 ++ (acceptAll ok tok inp).2 = tok ++ inp := by
  obtain ⟨ds, h1, h2, -, -⟩ := acceptAll_append ok inp tok
  rw [h1, List.append_assoc, ← h2]

theorem accept_when_keep (ok : List Char) (x : Bool × List Char × List Char) :
    (if x.1 = true then accept ok x.2.1 x.2.2 else (false, x.2)).2.1
        ++ (if x.1 = true then accept ok x.2.1 x.2.2 else (false, x.2)).2.2
      = x.2.1 ++ x.2.2 := by
  split_ifs
  · exact accept_keep _ _ _
  · rfl

/-- The token that `floatToken` takes is the start of its input. -/
theorem floatToken_keep (inp : List Char) :
    (floatToken inp).1 ++ (floatToken inp).2 = inp := by
  unfold floatToken
  lift_lets
  extract_lets n1 n2 n3 s1 i1 i2 i3 z x digits exp m dot fr e es
  have h1 : n1.2.1 ++ n1.2.2 = inp := accept_keep _ _ _
  have h2 : n2.2.1 ++ n2.2.2 = inp := (accept_when_keep _ n1).trans h1
  have h3 : n3.2.1 ++ n3.2.2 = inp := (accept_when_keep _ n2).trans h2
  have h4 : s1.2.1 ++ s1.2.2 = inp := (accept_keep _ _ _).trans h3
  have h5 : i1.2.1 ++ i1.2.2 = inp := (accept_keep _ _ _).trans h4
  have h6 : i2.2.1 ++ i2.2.2 = inp := (accept_when_keep _ i1).trans h5
  have h7 : i3.2.1 ++ i3.2.2 = inp := (accept_when_keep _ i2).trans h6
  have h8 : z.2.1 ++ z.2.2 = inp := (accept_keep _ _ _).trans h7
  have h9 : x.2.1 ++ x.2.2 = inp := (accept_when_keep _ z).trans h8
  have h10 : m.1 ++ m.2 = inp := (acceptAll_keep _ _ _).trans h9
  have h11 : dot.2.1 ++ dot.2.2 = inp := (accept_keep _ _ _).trans h10
  have h12 : fr.1 ++ fr.2 = inp := by
    show (if dot.1 = true then acceptAll digits dot.2.1 dot.2.2 else dot.2).1
      ++ (if dot.1 = true then acceptAll digits dot.2.1 dot.2.2 else dot.2).2 = inp
    split_ifs
    · exact (acceptAll_keep _ _ _).trans h11
    · exact h11
  have h13 : e.2.1 ++ e.2.2 = inp := (accept_keep _ _ _).trans h12
  have h14 : (acceptAll (decimalDigits ++ "_".toList) es.2.1 es.2.2).1
      ++ (acceptAll (decimalDigits ++ "_".toList) es.2.1 es.2.2).2 = inp :=
    (acceptAll_keep _ _ _).trans ((accept_keep _ _ _).trans h13)
  split_ifs
  · exact h3
  · exact h7
  · exact h14
  · exact h13

theorem lowerASCII_sign (a : Char) (h : lowerASCII a = '+' ∨ lowerASCII a = '-') :
    a = '+' ∨ a = '-' := by
  unfold lowerASCII at h
  split_ifs at h with hu
  · exfalso
    obtain ⟨h1, h2⟩ := hu
    generalize a.toNat = n at h h1 h2
    interval_cases n <;> revert h <;> decide
  · exact h

theorem lowerASCII_of_sign (a : Char) (h : a = '+' ∨ a = '-') : lowerASCII a = a := by
  rcases h with h | h <;> (subst h; decide)

theorem startsDigits_append (t rest : List Char) (h : startsDigits t = true) :
    startsDigits (t ++ rest) = true := by
  match t, h with
  | a :: b :: t2, h => exact h
  | [a], h =>
    have ha : a ∈ decimalDigits := by simpa [startsDigits] using h
    cases rest with
    | nil => simpa [startsDigits] using ha
    | cons b r => simp [startsDigits, ha]

theorem isPrefixOf_append (l a b : List Char) (h : l.isPrefixOf a = true) :
    l.isPrefixOf (a ++ b) = true := by
  rw [List.isPrefixOf_iff_prefix] at h ⊢
  exact h.trans (List.prefix_append a b)

theorem unsigned_append (c : Char) (cs rest : List Char) :
    unsigned (c :: cs ++ rest) = unsigned (c :: cs) ++ rest := by
  simp only [unsigned, List.cons_append]
  split_ifs <;> rfl

/-- A text that begins as a number does keeps doing so when text is added
after it. -/
theorem startsNumber_append (s rest : List Char) (h : startsNumber s = true) :
    startsNumber (s ++ rest) = true := by
  cases s with
  | nil => exact absurd h (by decide)
  | cons c cs =>
    simp only [startsNumber, Bool.or_eq_true] at h ⊢
    rw [unsigned_append, List.map_append, List.map_append]
    rcases h with (h | h) | h
    · exact Or.inl (Or.inl (startsDigits_append _ _ h))
    · exact Or.inl (Or.inr (isPrefixOf_append _ _ _ h))
    · exact Or.inr (isPrefixOf_append _ _ _ h)

theorem unsigned_map (c : Char) (cs : List Char) :
    (unsigned (c :: cs)).map lowerASCII = unsigned ((c :: cs).map lowerASCII) := by
  simp only [unsigned, List.map_cons]
  by_cases h : c = '+' ∨ c = '-'
  · rw [if_pos h, if_pos (by rw [lowerASCII_of_sign c h]; exact h)]
  · rw [if_neg h, if_neg (fun h2 => h (lowerASCII_sign c h2))]
    rfl

theorem special_starts (s : List Char) (v : Float64Val) (h : special s = some v) :
    startsNumber s = true := by
  cases s with
  | nil =>
    have h0 : special [] = none := by decide
    rw [h0] at h
    exact absurd h (by simp)
  | cons c cs =>
    simp only [startsNumber, Bool.or_eq_true]
    rw [unsigned_map]
    unfold special at h
    simp only [] at h
    generalize (c :: cs).map lowerASCII = l at h ⊢
    split_ifs at h with h1 h2 h3
    · rcases h1 with h1 | h1 | h1 | h1 <;> (subst h1; exact Or.inl (Or.inr (by decide)))
    · rcases h2 with h2 | h2 <;> (subst h2; exact Or.inl (Or.inr (by decide)))
    · subst h3
      exact Or.inr (by decide)

theorem readMantissa_starts (t : List Char) (m f m1 f1 : Nat) (rest : List Char)
    (h : readMantissa false t m f false false = ((m1, f1, true), rest)) :
    startsDigits t = true ∨ (∃ r, t = '_' :: r) ∨ ∃ r, t = '.' :: '_' :: r := by
  cases t with
  | nil => simp [readMantissa] at h
  | cons c cs =>
    by_cases hu : c = '_'
    · exact Or.inr (Or.inl ⟨cs, by rw [hu]⟩)
    · by_cases hd : c ∈ decimalDigits
      · left
        cases cs with
        | nil => simp [startsDigits, hd]
        | cons b r => simp [startsDigits, hd]
      · by_cases hp : c = '.'
        · subst hp
          cases cs with
          | nil => simp [readMantissa] at h
          | cons b r =>
            by_cases hbu : b = '_'
            · exact Or.inr (Or.inr ⟨r, by rw [hbu]⟩)
            · by_cases hbd : b ∈ decimalDigits
              · left
                simp [startsDigits, hbd]
              · by_cases hbp : b = '.'
                · subst hbp
                  simp [readMantissa] at h
                · simp [readMantissa, hbu, hbd, hbp] at h
        · simp [readMantissa, hu, hd, hp] at h

theorem mantissa_starts (t : List Char) (hex : Bool) (m1 f1 : Nat) (rest : List Char)
    (hhex : hex = true → startsDigits t = true)
    (h : readMantissa hex (if hex = true then t.drop 2 else t) 0 0 false false
      = ((m1, f1, true), rest)) :
    startsDigits t = true ∨ (∃ r, t = '_' :: r) ∨ ∃ r, t = '.' :: '_' :: r := by
  cases hex with
  | true => exact Or.inl (hhex rfl)
  | false => exact readMantissa_starts t 0 0 m1 f1 rest h

theorem ne_none_of_ite {α : Type} {b : Prop} [Decidable b] {x : Option α} {y : α}
    (h : (if b then none else x) = some y) : ¬ b ∧ x = some y := by
  split_ifs at h with hb
  exact ⟨hb, h⟩

theorem readFloat_underscore (c : Char) (cs : List Char) (lit : FloatLit)
    (h : readFloat (c :: cs) = some lit) :
    ¬ ((c :: cs).contains '_' = true ∧ underscoreOK (c :: cs) = false) := by
  intro hbad
  have hb1 := hbad.1
  have hb2 := hbad.2
  simp only [readFloat, hb1, hb2, Bool.not_false, and_self, if_true] at h
  repeat (any_goals (first | (exact Option.noConfusion h) | split at h))

theorem underscore_first (s r : List Char) (h : unsigned s = '_' :: r) :
    s.contains '_' = true ∧ underscoreOK s = false := by
  cases s with
  | nil => simp [unsigned] at h
  | cons c cs =>
    have hu : underscoreOK (c :: cs) = false := by
      have ht : (if c = '-' ∨ c = '+' then cs else c :: cs) = '_' :: r := by
        rw [← h]
        simp only [unsigned]
        by_cases hc : c = '+' ∨ c = '-'
        · rw [if_pos hc, if_pos (Or.symm hc)]
        · rw [if_neg hc, if_neg (fun h2 => hc (Or.symm h2))]
      simp only [underscoreOK, ht]
      cases r with
      | nil => simp [underscoreLoop, decimalDigits]
      | cons x rest => simp [underscoreLoop, decimalDigits]
    refine ⟨?_, hu⟩
    simp only [unsigned] at h
    split_ifs at h
    · simp [h]
    · simp [h]

theorem underscore_second (s r : List Char) (h : unsigned s = '.' :: '_' :: r) :
    s.contains '_' = true ∧ underscoreOK s = false := by
  cases s with
  | nil => simp [unsigned] at h
  | cons c cs =>
    have hu : underscoreOK (c :: cs) = false := by
      have ht : (if c = '-' ∨ c = '+' then cs else c :: cs) = '.' :: '_' :: r := by
        rw [← h]
        simp only [unsigned]
        by_cases hc : c = '+' ∨ c = '-'
        · rw [if_pos hc, if_pos (Or.symm hc)]
        · rw [if_neg hc, if_neg (fun h2 => hc (Or.symm h2))]
      simp only [underscoreOK, ht]
      simp [underscoreLoop, decimalDigits]
    refine ⟨?_, hu⟩
    simp only [unsigned] at h
    split_ifs at h
    · simp [h]
    · simp [h]

theorem hex_starts (t : List Char)
    (h : (match t with
      | z :: x :: _ :: _ => decide (z = '0' ∧ lowerASCII x = 'x')
      | _ => false) = true) : startsDigits t = true := by
  match t, h with
  | z :: x :: y :: r, h =>
    have hz : z = '0' := by
      have := of_decide_eq_true h
      exact this.1
    subst hz
    simp [startsDigits, decimalDigits]

/-- A text that `readFloat` takes begins, after an optional sign, with a digit
or with a point and a digit. -/
theorem readFloat_starts (s : List Char) (lit : FloatLit) (h : readFloat s = some lit) :
    startsDigits (unsigned s) = true := by
  cases s with
  | nil => simp [readFloat] at h
  | cons c cs =>
    have hund := readFloat_underscore c cs lit h
    have key : startsDigits (unsigned (c :: cs)) = true ∨
        (∃ r, unsigned (c :: cs) = '_' :: r) ∨ ∃ r, unsigned (c :: cs) = '.' :: '_' :: r := by
      simp only [readFloat] at h
      obtain ⟨hs, -⟩ := ne_none_of_ite h
      simp only [Bool.not_eq_true', Bool.not_eq_false] at hs
      refine mantissa_starts (unsigned (c :: cs)) _ _ _ _ ?_ (Prod.ext (Prod.ext rfl (Prod.ext rfl hs)) rfl)
      exact hex_starts _
    rcases key with key | ⟨r, key⟩ | ⟨r, key⟩
    · exact key
    · exact absurd (underscore_first _ r key) hund
    · exact absurd (underscore_second _ r key) hund

theorem ParseFloat_starts (s : List Char) (v : Float64Val) (h : ParseFloat s = .ok v) :
    startsNumber s = true := by
  unfold ParseFloat at h
  cases hp : parseFloatLit s with
  | none => simp [hp] at h
  | some lit =>
    unfold parseFloatLit at hp
    cases hsp : special s with
    | some w => exact special_starts s w hsp
    | none =>
      simp only [hsp] at hp
      simp only [startsNumber, Bool.or_eq_true]
      exact Or.inl (Or.inl (readFloat_starts s lit hp))

/-- A token that `convertFloat` takes begins as a number does. -/
theorem convertFloat_starts (tok : List Char) (d : Float64Val) (h : convertFloat tok = .ok d) :
    startsNumber tok = true := by
  unfold convertFloat at h
  split_ifs at h with hp
  · cases hf : ParseFloat (tok.takeWhile fun c => c ≠ 'p') with
    | error e =>
      rw [hf] at h
      simp at h
    | ok f =>
      have h1 := startsNumber_append _ (tok.dropWhile fun c => c ≠ 'p') (ParseFloat_starts _ f hf)
      rw [List.takeWhile_append_dropWhile] at h1
      exact h1
  · exact ParseFloat_starts tok d h

/-- A third field whose token `convertFloat` takes begins as a number does. -/
theorem third_starts (third : List Char) (d : Float64Val)
    (h : convertFloat (floatToken third).1 = .ok d) : startsNumber third = true := by
  have h1 := startsNumber_append _ (floatToken third).2 (convertFloat_starts _ d h)
  rw [floatToken_keep] at h1
  exact h1

/-- The function `redFromReader` returns an error exactly when the scan does,
and then with a fresh zero-valued Red. -/
theorem redFromReader_error (line : GoString) (env : Env) :
    (Sscanf line.toList).err ≠ none ↔
      ∃ e : RedstatError, redFromReader (.ok line) env
        = ((some env.world.heap.length, some e),
            { env with world := (alloc ⟨0, 0, 0, 0⟩ env.world).2 }) := by
  constructor
  · intro herr
    cases hE : (Sscanf line.toList).err with
    | none => exact absurd hE herr
    | some e => exact ⟨.sscanfFailed line e, by simp only [redFromReader, hE, alloc]⟩
  · rintro ⟨e, h⟩ herr
    have hn := (Sscanf_count line.toList).1 herr
    simp only [redFromReader, herr, hn] at h
    simp at h

theorem redFromReader_wire (line : GoString) (env : Env) (r e : Int) (third : List Char)
    (d : Float64Val) (hw : WireLine line.toList r e third)
    (hd : convertFloat (floatToken third).1 = .ok d) :
    redFromReader (.ok line) env
      = ((some env.world.heap.length, none),
          { env with world :=
            (alloc ⟨r, e, wrapInt64 (toInt64 env.f2i d * Second), 0⟩ env.world).2 }) := by
  have hs := Sscanf_wire line.toList r e third d hw hd
  simp only [redFromReader, hs, alloc]
  simp

/-- C18, amended.  `redFromReader` returns a non-nil error together with a
fresh zero-valued Red, never a partially filled one, for every line that
deviates from the wire format `<int>, <int>, <float>` before the end of its
third number: a line with fewer than two commas, so with fewer than three
fields; a line whose first field, or whose second field, is not an integer
(the text before the first comma, and between the first two commas, without
the blanks in front, has to be an optional sign and one or more decimal
digits); and a line whose text after the second comma does not begin, after
blanks, as a number does (an optional sign and then a digit, a point and a
digit, or `inf`; or `nan`).  Every error of `redFromReader`, also one of the
read, comes with a fresh zero-valued Red.  The error is nil exactly on the
lines made of blanks, an integer of 64 bits, a comma, one or more blanks, an
integer of 64 bits, a comma, one or more blanks, and a text whose longest
start that looks like a number (the token of `%g`) is a number for
`convertFloat`; the Red returned then holds the two integers and that number
of seconds.  What follows that token on the line is not looked at. -/
theorem wire_error_spec (env : Env) :
    (∀ (reader : Except GoString GoString) (p : Ptr) (e : RedstatError) (env1 : Env),
      redFromReader reader env = ((p, some e), env1) →
      p = some env.world.heap.length ∧
      env1.world.heap = env.world.heap ++ [⟨0, 0, 0, 0⟩]) ∧
    (∀ line : GoString, line.toList.count ',' < 2 →
      ∃ e : RedstatError, redFromReader (.ok line) env
        = ((some env.world.heap.length, some e),
            { env with world := (alloc ⟨0, 0, 0, 0⟩ env.world).2 })) ∧
    (∀ line : GoString, isInteger (firstToken line.toList) = false →
      ∃ e : RedstatError, redFromReader (.ok line) env
        = ((some env.world.heap.length, some e),
            { env with world := (alloc ⟨0, 0, 0, 0⟩ env.world).2 })) ∧
    (∀ line : GoString, isInteger (secondToken line.toList) = false →
      ∃ e : RedstatError, redFromReader (.ok line) env
        = ((some env.world.heap.length, some e),
            { env with world := (alloc ⟨0, 0, 0, 0⟩ env.world).2 })) ∧
    (∀ line : GoString, startsNumber (thirdText line.toList) = false →
      ∃ e : RedstatError, redFromReader (.ok line) env
        = ((some env.world.heap.length, some e),
            { env with world := (alloc ⟨0, 0, 0, 0⟩ env.world).2 })) ∧
    (∀ line : GoString,
      (redFromReader (.ok line) env).1.2 = none ↔
        ∃ (r e : Int) (third : List Char) (d : Float64Val),
          WireLine line.toList r e third ∧ convertFloat (floatToken third).1 = .ok d) ∧
    (∀ (line : GoString) (r e : Int) (third : List Char) (d : Float64Val),
      WireLine line.toList r e third → convertFloat (floatToken third).1 = .ok d →
      redFromReader (.ok line) env
        = ((some env.world.heap.length, none),
            { env with world :=
              (alloc ⟨r, e, wrapInt64 (toInt64 env.f2i d * Second), 0⟩ env.world).2 })) := by
  have hdev : ∀ line : GoString,
      (¬ ∃ (r e : Int) (third : List Char) (d : Float64Val),
          WireLine line.toList r e third ∧ convertFloat (floatToken third).1 = .ok d) →
      ∃ e : RedstatError, redFromReader (.ok line) env
        = ((some env.world.heap.length, some e),
            { env with world := (alloc ⟨0, 0, 0, 0⟩ env.world).2 }) := by
    intro line hno
    apply (redFromReader_error line env).1
    intro herr
    exact hno ((Sscanf_ok line.toList).1 herr)
  refine ⟨?_, ?_, ?_, ?_, ?_, ?_, fun line r e third d hw hd =>
    redFromReader_wire line env r e third d hw hd⟩
  · intro reader p e env1 h
    cases reader with
    | error err =>
      simp only [redFromReader, alloc, Prod.mk.injEq] at h
      obtain ⟨⟨h1, -⟩, h2⟩ := h
      subst h2
      exact ⟨h1.symm, rfl⟩
    | ok line =>
      cases hE : (Sscanf line.toList).err with
      | some se =>
        simp only [redFromReader, hE, alloc, Prod.mk.injEq] at h
        obtain ⟨⟨h1, -⟩, h2⟩ := h
        subst h2
        exact ⟨h1.symm, rfl⟩
      | none =>
        have hn := (Sscanf_count line.toList).1 hE
        simp only [redFromReader, hE, hn] at h
        simp at h
  · intro line hcount
    apply hdev
    rintro ⟨r, e, third, d, hw, -⟩
    have := (wire_tokens _ r e third hw).1
    omega
  · intro line hfirst
    apply hdev
    rintro ⟨r, e, third, d, hw, -⟩
    rw [(wire_tokens _ r e third hw).2.1] at hfirst
    exact absurd hfirst (by simp)
  · intro line hsecond
    apply hdev
    rintro ⟨r, e, third, d, hw, -⟩
    rw [(wire_tokens _ r e third hw).2.2.1] at hsecond
    exact absurd hsecond (by simp)
  · intro line hthird
    apply hdev
    rintro ⟨r, e, third, d, hw, hd⟩
    rw [(wire_tokens _ r e third hw).2.2.2, third_starts third d hd] at hthird
    exact absurd hthird (by simp)
  · intro line
    constructor
    · intro hnone
      by_contra hno
      obtain ⟨e, he⟩ := hdev line hno
      rw [he] at hnone
      exact absurd hnone (by simp)
    · rintro ⟨r, e, third, d, hw, hd⟩
      rw [redFromReader_wire line env r e third d hw hd]

theorem convertFloat_three : convertFloat (floatToken "3.0, 4".toList).1 = .ok (.finite 3) := by
  have ht : (floatToken "3.0, 4".toList).1 = "3.0".toList := by rfl
  rw [ht, convertFloat_plain _ (by rfl)]
  have h := ParseFloat_exact "3.0".toList false false 30 1 0 3 0 (by rfl)
    (by norm_num [litValue]) (by decide) (by decide)
  simpa using h

theorem wireLine_four_fields : WireLine "1, 2, 3.0, 4".toList 1 2 "3.0, 4".toList :=
  ⟨[], "1".toList, " ".toList, "2".toList, " ".toList, by rfl, by simp, by rfl, by rfl,
    by decide, by decide, by rfl, by rfl, by decide, by decide, by norm_num, by norm_num,
    by norm_num, by norm_num, '3', ".0, 4".toList, by rfl, by rfl⟩

/-- C18 amended, at samples.  The line "1, 2" has one comma, the first field
of " bad" and the second field of "1, x, 3.0" are not integers, and the third
field of "1, 2, bad" does not begin as a number does: each gives an error
and a zero-valued Red.  The line "1, 2, 3.0, 4" follows the wire format up to
the end of its third number and is read without error. -/
theorem wire_error_spec_witness :
    ("1, 2".toList.count ',' < 2 ∧
      ∃ e : RedstatError,
        (redFromReader (.ok "1, 2") (initEnv sampleServer)).1 = (some 0, some e) ∧
        (redFromReader (.ok "1, 2") (initEnv sampleServer)).2.world.heap = [⟨0, 0, 0, 0⟩]) ∧
    (isInteger (firstToken " bad".toList) = false ∧
      ∃ e : RedstatError,
        (redFromReader (.ok " bad") (initEnv sampleServer)).1 = (some 0, some e) ∧
        (redFromReader (.ok " bad") (initEnv sampleServer)).2.world.heap = [⟨0, 0, 0, 0⟩]) ∧
    (isInteger (secondToken "1, x, 3.0".toList) = false ∧
      ∃ e : RedstatError,
        (redFromReader (.ok "1, x, 3.0") (initEnv sampleServer)).1 = (some 0, some e) ∧
        (redFromReader (.ok "1, x, 3.0") (initEnv sampleServer)).2.world.heap
          = [⟨0, 0, 0, 0⟩]) ∧
    (startsNumber (thirdText "1, 2, bad".toList) = false ∧
      ∃ e : RedstatError,
        (redFromReader (.ok "1, 2, bad") (initEnv sampleServer)).1 = (some 0, some e) ∧
        (redFromReader (.ok "1, 2, bad") (initEnv sampleServer)).2.world.heap
          = [⟨0, 0, 0, 0⟩]) ∧
    (WireLine "1, 2, 3.0, 4".toList 1 2 "3.0, 4".toList ∧
      convertFloat (floatToken "3.0, 4".toList).1 = .ok (.finite 3) ∧
      (redFromReader (.ok "1, 2, 3.0, 4") (initEnv sampleServer)).1.2 = none) := by
  refine ⟨⟨by decide, ?_⟩, ⟨by rfl, ?_⟩, ⟨by rfl, ?_⟩, ⟨by rfl, ?_⟩,
    wireLine_four_fields, convertFloat_three, ?_⟩
  · obtain ⟨e, he⟩ := (wire_error_spec (initEnv sampleServer)).2.1 "1, 2" (by decide)
    exact ⟨e, by rw [he]; exact ⟨rfl, rfl⟩⟩
  · obtain ⟨e, he⟩ := (wire_error_spec (initEnv sampleServer)).2.2.1 " bad" (by rfl)
    exact ⟨e, by rw [he]; exact ⟨rfl, rfl⟩⟩
  · obtain ⟨e, he⟩ := (wire_error_spec (initEnv sampleServer)).2.2.2.1 "1, x, 3.0" (by rfl)
    exact ⟨e, by rw [he]; exact ⟨rfl, rfl⟩⟩
  · obtain ⟨e, he⟩ := (wire_error_spec (initEnv sampleServer)).2.2.2.2.1 "1, 2, bad" (by rfl)
    exact ⟨e, by rw [he]; exact ⟨rfl, rfl⟩⟩
  · exact ((wire_error_spec (initEnv sampleServer)).2.2.2.2.2.1 "1, 2, 3.0, 4").2
      ⟨1, 2, "3.0, 4".toList, .finite 3, wireLine_four_fields, convertFloat_three⟩

/-! ## The rounds of `redstat` -/

theorem getRed_ok (url : GoString) (env : Env) (code : Int) (line : GoString) (r e : Int)
    (q : ℚ) (hresp : env.responses url env.fetched = .response code (.ok line))
    (hcode : ¬ code > 299)
    (hs : Sscanf line.toList = ⟨3, none, r, e, .finite q⟩)
    (hfit : -(2 ^ 63 : Int) ≤ truncate q ∧ truncate q < 2 ^ 63) :
    getRed url env
      = ((some (env.world.heap.length + 1), none),
          fetchedEnv env ⟨r, e, wrapInt64 (truncate q * Second), 0⟩) := by
  have h := redFromReader_ok line
    { env with world := (Start env.world).2, fetched := env.fetched + 1 } r e q hs hfit
  simp only [getRed, hresp, hcode, if_false, h]
  simp [Start, send, timeNow, alloc, fetchedEnv]

theorem fetchedEnv_heap (env : Env) (s : Red) :
    (fetchedEnv env s).world.heap
      = env.world.heap ++ [⟨0, 0, 0, env.world.clock env.world.tick⟩, s] := by
  simp [fetchedEnv, Start, send, timeNow, alloc]

/-- One round of the loop of `redstat` when the fetch goes well. -/
theorem loop_round (url : GoString) (json crash : Bool) (count tick : Int) (k : Nat)
    (i : Int) (a : Nat) (diff : Ptr) (env : Env) (x s : Red)
    (hi : i < wrapInt64 (count + 1)) (hx : env.world.heap[a]? = some x)
    (hget : getRed url env
      = ((some (env.world.heap.length + 1), none), fetchedEnv env s)) :
    redstatLoop url json crash count tick (k + 1) i (some a) diff env
      = if i = wrapInt64 (count - 1) then
          .ok (some (env.world.heap.length + 1), roundEnv env s (delta s x tick) json)
        else
          redstatLoop url json crash count tick k (i + 1) (some (env.world.heap.length + 1))
            (some (env.world.heap.length + 1)) (roundEnv env s (delta s x tick) json) := by
  have ha : a < env.world.heap.length := heap_lt_of_getElem? env.world a x hx
  have hb : (fetchedEnv env s).world.heap[env.world.heap.length + 1]? = some s := by
    rw [fetchedEnv_heap, List.getElem?_append_right (by omega)]
    simp
  have hax : (fetchedEnv env s).world.heap[a]? = some x := by
    rw [fetchedEnv_heap, List.getElem?_append_left ha]
    exact hx
  have hsub := Subtract_eq (fetchedEnv env s).world (env.world.heap.length + 1) a s x hb hax
  have hset : setDuration (some (env.world.heap.length + 1)) tick
      (store (env.world.heap.length + 1)
        ⟨wrapInt64 (s.Requests - x.Requests), wrapInt64 (s.Errors - x.Errors),
          wrapInt64 (s.Duration - x.Duration), s.StartTime⟩ (fetchedEnv env s).world)
      = .ok (store (env.world.heap.length + 1) (delta s x tick) (fetchedEnv env s).world) := by
    simp only [setDuration, store_heap_same _ _ _ s hb, store_store]
    rfl
  have hload : (store (env.world.heap.length + 1) (delta s x tick)
      (fetchedEnv env s).world).heap[env.world.heap.length + 1]? = some (delta s x tick) :=
    store_heap_same _ _ _ s hb
  simp only [redstatLoop, hi, if_true, hget, hsub, hset]
  cases json with
  | false =>
    simp only [report, Red.String, load, hload, Bool.false_eq_true, if_false, roundEnv,
      Option.toList]
    rfl
  | true =>
    simp only [report, Red.MarshalJSON, load, hload, if_true, roundEnv, Option.toList]
    rfl

theorem Sscanf_sample_10 : Sscanf "10, 0, 0".toList = ⟨3, none, 10, 0, .finite 0⟩ := by
  have h1 : scanFields "10, 0, 0".toList = .ok (10, 0, "0".toList) := by rfl
  have h2 : convertFloat "0".toList = .ok (.finite 0) := by
    rw [convertFloat_plain _ (by rfl)]
    have h := ParseFloat_exact "0".toList false false 0 0 0 0 0 (by rfl)
      (by norm_num [litValue]) (by decide) (by decide)
    simpa using h
  exact Sscanf_fields _ _ _ _ _ h1 h2

theorem Sscanf_sample_16 : Sscanf "16, 0, 0".toList = ⟨3, none, 16, 0, .finite 0⟩ := by
  have h1 : scanFields "16, 0, 0".toList = .ok (16, 0, "0".toList) := by rfl
  have h2 : convertFloat "0".toList = .ok (.finite 0) := by
    rw [convertFloat_plain _ (by rfl)]
    have h := ParseFloat_exact "0".toList false false 0 0 0 0 0 (by rfl)
      (by norm_num [litValue]) (by decide) (by decide)
    simpa using h
  exact Sscanf_fields _ _ _ _ _ h1 h2

theorem Sscanf_sample_30 : Sscanf "30, 0, 0".toList = ⟨3, none, 30, 0, .finite 0⟩ := by
  have h1 : scanFields "30, 0, 0".toList = .ok (30, 0, "0".toList) := by rfl
  have h2 : convertFloat "0".toList = .ok (.finite 0) := by
    rw [convertFloat_plain _ (by rfl)]
    have h := ParseFloat_exact "0".toList false false 0 0 0 0 0 (by rfl)
      (by norm_num [litValue]) (by decide) (by decide)
    simpa using h
  exact Sscanf_fields _ _ _ _ _ h1 h2

theorem truncate_zero : truncate 0 = 0 := by
  exact_mod_cast truncate_intCast 0

/-- Any `getRed` from the sample server reads the sample of its turn. -/
theorem getRed_sample (env : Env) (line : GoString) (r : Int)
    (hresp : env.responses "u" env.fetched = .response 200 (.ok line))
    (hs : Sscanf line.toList = ⟨3, none, r, 0, .finite 0⟩) :
    getRed "u" env
      = ((some (env.world.heap.length + 1), none), fetchedEnv env ⟨r, 0, 0, 0⟩) := by
  have h := getRed_ok "u" env 200 line r 0 0 hresp (by decide) hs
    (by rw [truncate_zero]; decide)
  rw [truncate_zero] at h
  exact h

theorem report_ok (a : Nat) (v : Red) (json : Bool) (env : Env)
    (h : env.world.heap[a]? = some v) :
    report (some a) json env
      = .ok { env with
          stdout := env.stdout
            ++ [if json then "red = " ++ jsonRed v else "red = " ++ formatRed v ++ "\n"],
          reports := env.reports ++ [v] } := by
  cases json with
  | false =>
    simp only [report, Red.String, load, h, Bool.false_eq_true, if_false, Option.toList]
  | true =>
    simp only [report, Red.MarshalJSON, load, h, if_true, Option.toList]

theorem sample_first_fetch :
    getRed "u" (initEnv sampleServer) = ((some 1, none), sampleEnv1) :=
  getRed_sample (initEnv sampleServer) "10, 0, 0" 10 (by rfl) Sscanf_sample_10

theorem sample_first_round (count : Int) (k : Nat) (diff : Ptr)
    (hi : (1 : Int) < wrapInt64 (count + 1)) :
    redstatLoop "u" false false count 1000000000 (k + 1) 1 (some 1) diff sampleEnv1
      = if (1 : Int) = wrapInt64 (count - 1) then .ok (some 3, sampleEnv2)
        else redstatLoop "u" false false count 1000000000 k (1 + 1) (some 3) (some 3)
          sampleEnv2 :=
  loop_round "u" false false count 1000000000 k 1 1 diff sampleEnv1 ⟨10, 0, 0, 0⟩
    ⟨16, 0, 0, 0⟩ hi (by rfl)
    (getRed_sample sampleEnv1 "16, 0, 0" 16 (by rfl) Sscanf_sample_16)

theorem sample_second_round (count : Int) (k : Nat) (diff : Ptr)
    (hi : (1 + 1 : Int) < wrapInt64 (count + 1)) :
    redstatLoop "u" false false count 1000000000 (k + 1) (1 + 1) (some 3) diff sampleEnv2
      = if (1 + 1 : Int) = wrapInt64 (count - 1) then .ok (some 5, sampleEnv3)
        else redstatLoop "u" false false count 1000000000 k (1 + 1 + 1) (some 5) (some 5)
          sampleEnv3 :=
  loop_round "u" false false count 1000000000 k (1 + 1) 3 diff sampleEnv2
    ⟨6, 0, 1000000000, 0⟩ ⟨30, 0, 0, 0⟩ hi (by rfl)
    (getRed_sample sampleEnv2 "30, 0, 0" 30 (by rfl) Sscanf_sample_30)

theorem redstat_sample (count : Int) (h1 : count ≠ -1) (h2 : count ≠ 0) :
    redstat "u" 1 count false false (initEnv sampleServer)
      = redstatLoop "u" false false count 1000000000 (wrapInt64 (count + 1)).toNat 1
          (some 1) none sampleEnv1 := by
  have htick : wrapInt64 (1 * Second) = 1000000000 := by decide
  simp only [redstat, h1, h2, or_self, if_false, sample_first_fetch, htick]
  simp

/-- C19, on the code: with the samples "10, 0, 0", "16, 0, 0" and "30, 0, 0", an
interval of 1 second and a count of 3, `redstat` makes two reports.  The
first is the difference of the first two samples, 6 requests in 1s.  The
second has 24 requests, the third sample minus the first report, where the
difference of the last two samples is 14: `second.Subtract(first)` left the
difference in the cell of the sample, and `first = second` kept it. -/
theorem redstat_second_delta :
    ((redstat "u" 1 3 false false (initEnv sampleServer)).toOption.map
        fun p => (p.1, p.2.reports))
      = some (some 5, [⟨6, 0, 1000000000, 0⟩, ⟨24, 0, 1000000000, 0⟩]) ∧
    (24 : Int) ≠ 30 - 16 := by
  have h : redstat "u" 1 3 false false (initEnv sampleServer) = .ok (some 5, sampleEnv3) := by
    rw [redstat_sample 3 (by decide) (by decide)]
    have hk : (wrapInt64 (3 + 1)).toNat = 3 + 1 := by decide
    rw [hk, sample_first_round 3 3 none (by decide), if_neg (by decide)]
    rw [sample_second_round 3 2 (some 3) (by decide), if_pos (by decide)]
  rw [h]
  exact ⟨by rfl, by decide⟩

/-- C20, on the code: with an interval of 1 second and a count of 2, `redstat`
makes one report, not two, and returns it: the test `i == count-1` ends the
loop after the first round.  A count of 1 gives one report as well. -/
theorem redstat_count_two :
    ((redstat "u" 1 2 false false (initEnv sampleServer)).toOption.map
        fun p => (p.1, p.2.reports))
      = some (some 3, [⟨6, 0, 1000000000, 0⟩]) ∧
    ((redstat "u" 1 1 false false (initEnv sampleServer)).toOption.map
        fun p => (p.1, p.2.reports))
      = some (some 3, [⟨6, 0, 1000000000, 0⟩]) ∧
    ((redstat "u" 1 0 false false (initEnv sampleServer)).toOption.map
        fun p => (p.1, p.2.reports))
      = some (some 1, [⟨10, 0, 0, 0⟩]) ∧
    ((redstat "u" 1 (-1) false false (initEnv sampleServer)).toOption.map
        fun p => (p.1, p.2.reports))
      = some (some 1, [⟨10, 0, 0, 0⟩]) ∧
    [(⟨6, 0, 1000000000, 0⟩ : Red)].length ≠ 2 := by
  have h2 : redstat "u" 1 2 false false (initEnv sampleServer) = .ok (some 3, sampleEnv2) := by
    rw [redstat_sample 2 (by decide) (by decide)]
    have hk : (wrapInt64 (2 + 1)).toNat = 2 + 1 := by decide
    rw [hk, sample_first_round 2 2 none (by decide), if_pos (by decide)]
  have h1 : redstat "u" 1 1 false false (initEnv sampleServer) = .ok (some 3, sampleEnv2) := by
    rw [redstat_sample 1 (by decide) (by decide)]
    have hk : (wrapInt64 (1 + 1)).toNat = 1 + 1 := by decide
    rw [hk, sample_first_round 1 1 none (by decide), if_neg (by decide)]
    simp only [redstatLoop]
    rw [if_neg (by decide)]
  have hrep := report_ok 1 ⟨10, 0, 0, 0⟩ false sampleEnv1 (by rfl)
  have h0 : ∀ count : Int, count = -1 ∨ count = 0 →
      ((redstat "u" 1 count false false (initEnv sampleServer)).toOption.map
        fun p => (p.1, p.2.reports)) = some (some 1, [⟨10, 0, 0, 0⟩]) := by
    intro count hc
    simp only [redstat, hc, if_true, sample_first_fetch, hrep]
    rfl
  rw [h2, h1]
  exact ⟨by rfl, by rfl, h0 0 (Or.inr rfl), h0 (-1) (Or.inl rfl), by decide⟩

/-! ## Many goroutines calling at once -/

theorem worker_frame (ms : List msg) :
    ∀ (w w1 : World), worker ms w = .ok w1 →
      w1.clock = w.clock ∧ w1.tick = w.tick + ms.length := by
  induction ms with
  | nil =>
    intro w w1 h
    simp only [worker, Except.ok.injEq] at h
    subst h
    simp
  | cons m ms ih =>
    intro w w1 h
    simp only [worker] at h
    cases hstep : workerStep (w.clock w.tick) w.main m with
    | error e => rw [hstep] at h; cases h
    | ok p =>
      rw [hstep] at h
      obtain ⟨h1, h2⟩ := ih _ _ h
      refine ⟨h1, ?_⟩
      rw [h2]
      simp only [List.length_cons]
      omega

theorem worker_snoc (ms : List msg) (m : msg) (w w1 : World) (s1 : Red) (rs : List Red)
    (h : worker ms w = .ok w1)
    (hstep : workerStep (w1.clock w1.tick) w1.main m = .ok (s1, rs)) :
    worker (ms ++ [m]) w
      = .ok { w1 with main := s1, fromWorker := w1.fromWorker ++ rs, tick := w1.tick + 1 } := by
  rw [worker_append, h]
  simp only [worker, hstep]

theorem callsOf_snoc (j i : Nat) (c : Call) (order : List (Nat × Call)) :
    callsOf j (order ++ [(i, c)]) = callsOf j order ++ (if i = j then [c] else []) := by
  unfold callsOf
  by_cases h : i = j <;> simp [List.filter_append, List.filter_cons, h]

theorem messages_snoc (i : Nat) (c : Call) (order : List (Nat × Call)) :
    messages (order ++ [(i, c)]) = messages order ++ c.message.toList := by
  unfold messages
  cases h : c.message <;> simp [List.filterMap_append, List.filterMap_cons, h]

theorem waitingCount_set (gs : List Goroutine) :
    ∀ (i : Nat) (g g1 : Goroutine), gs[i]? = some g →
      waitingCount (gs.set i g1) + (if g.phase = .waiting then 1 else 0)
        = waitingCount gs + (if g1.phase = .waiting then 1 else 0) := by
  induction gs with
  | nil => intro i g g1 h; simp at h
  | cons x xs ih =>
    intro i g g1 h
    cases i with
    | zero =>
      simp only [List.getElem?_cons_zero, Option.some.injEq] at h
      subst h
      simp only [List.set_cons_zero, waitingCount, List.filter_cons]
      by_cases h1 : x.phase = .waiting <;> by_cases h2 : g1.phase = .waiting <;>
        simp [h1, h2]
    | succ n =>
      simp only [List.getElem?_cons_succ] at h
      have := ih n g g1 h
      simp only [List.set_cons_succ, waitingCount, List.filter_cons] at this ⊢
      by_cases h1 : x.phase = .waiting <;> simp [h1] <;> omega
theorem getElem?_set_cases (gs : List Goroutine) (i j : Nat) (g g1 g2 : Goroutine)
    (hg : gs[i]? = some g) (h : (gs.set i g1)[j]? = some g2) :
    (i = j ∧ g2 = g1) ∨ (i ≠ j ∧ gs[j]? = some g2) := by
  by_cases hij : i = j
  · subst hij
    left
    have hlt : i < gs.length := by
      rcases Nat.lt_or_ge i gs.length with h1 | h1
      · exact h1
      · rw [List.getElem?_eq_none h1] at hg; cases hg
    rw [List.getElem?_set_self hlt] at h
    exact ⟨rfl, (Option.some.inj h).symm⟩
  · right
    rw [List.getElem?_set_ne hij] at h
    exact ⟨hij, h⟩

theorem prog_call (progs : List (Nat × List Call)) (gs : List Goroutine)
    (order : List (Nat × Call)) (i : Nat) (g g1 : Goroutine) (c : Call) (rest : List Call)
    (hprog : ∀ j g2, gs[j]? = some g2 →
      ∃ p, progs[j]? = some p ∧ g2.handle = p.1 ∧ callsOf j order ++ g2.todo = p.2)
    (hg : gs[i]? = some g) (htodo : g.todo = c :: rest) (h1 : g1.handle = g.handle)
    (h2 : g1.todo = rest) :
    ∀ j g2, (gs.set i g1)[j]? = some g2 →
      ∃ p, progs[j]? = some p ∧ g2.handle = p.1 ∧
        callsOf j (order ++ [(i, c)]) ++ g2.todo = p.2 := by
  intro j g2 h
  rcases getElem?_set_cases gs i j g g1 g2 hg h with ⟨hij, hg2⟩ | ⟨hij, hg2⟩
  · subst hij
    subst hg2
    obtain ⟨p, hp, hh, hc⟩ := hprog i g hg
    refine ⟨p, hp, by rw [h1, hh], ?_⟩
    rw [callsOf_snoc, if_pos rfl, h2, List.append_assoc, List.singleton_append, ← htodo, hc]
  · obtain ⟨p, hp, hh, hc⟩ := hprog j g2 hg2
    refine ⟨p, hp, hh, ?_⟩
    rw [callsOf_snoc, if_neg hij, List.append_nil, hc]

theorem prog_same (progs : List (Nat × List Call)) (gs : List Goroutine)
    (order : List (Nat × Call)) (i : Nat) (g g1 : Goroutine)
    (hprog : ∀ j g2, gs[j]? = some g2 →
      ∃ p, progs[j]? = some p ∧ g2.handle = p.1 ∧ callsOf j order ++ g2.todo = p.2)
    (hg : gs[i]? = some g) (h1 : g1.handle = g.handle) (h2 : g1.todo = g.todo) :
    ∀ j g2, (gs.set i g1)[j]? = some g2 →
      ∃ p, progs[j]? = some p ∧ g2.handle = p.1 ∧ callsOf j order ++ g2.todo = p.2 := by
  intro j g2 h
  rcases getElem?_set_cases gs i j g g1 g2 hg h with ⟨hij, hg2⟩ | ⟨hij, hg2⟩
  · subst hij
    subst hg2
    obtain ⟨p, hp, hh, hc⟩ := hprog i g hg
    exact ⟨p, hp, by rw [h1, hh], by rw [h2, hc]⟩
  · exact hprog j g2 hg2

/-- The six ways in which an action goes through. -/
theorem step_cases (a : Action) (s s1 : Machine) (h : step a s = some s1) :
    (∃ i g c rest, a = .call i ∧ s.goroutines[i]? = some g ∧ g.phase = .idle ∧
      g.todo = c :: rest ∧ c.message = none ∧
      s1 = { s with
        goroutines := s.goroutines.set i { g with todo := rest }
        order := s.order ++ [(i, c)] }) ∨
    (∃ i g c rest m, a = .call i ∧ s.goroutines[i]? = some g ∧ g.phase = .idle ∧
      g.todo = c :: rest ∧ c.message = some m ∧ s.world.toWorker.length < capacity ∧
      s1 = { s with
        world := send m.operation m.operand m.value s.world
        goroutines := s.goroutines.set i { g with todo := rest, phase := .waiting }
        order := s.order ++ [(i, c)] }) ∨
    (∃ m ms main1 replies, a = .take ∧ s.outbox = [] ∧ s.world.toWorker = m :: ms ∧
      workerStep (s.world.clock s.world.tick) s.world.main m = .ok (main1, replies) ∧
      s1 = { s with
        world := { s.world with main := main1, toWorker := ms, tick := s.world.tick + 1 }
        outbox := replies
        handled := s.handled ++ [m] }) ∨
    (∃ r rest, a = .reply ∧ s.outbox = r :: rest ∧ s.world.fromWorker.length < capacity ∧
      s1 = { s with
        world := { s.world with fromWorker := s.world.fromWorker ++ [r] }
        outbox := rest }) ∨
    (∃ i g r rest, a = .receive i ∧ s.goroutines[i]? = some g ∧ g.phase = .waiting ∧
      s.world.fromWorker = r :: rest ∧
      s1 = { s with
        world := { s.world with fromWorker := rest }
        goroutines := s.goroutines.set i { g with phase := .copying r 0 }
        seen := s.seen ++ [(i, r)] }) ∨
    (∃ i g tmp k old, a = .store i ∧ s.goroutines[i]? = some g ∧
      g.phase = .copying tmp k ∧ s.world.heap[g.handle]? = some old ∧
      s1 = { s with
        world := store g.handle
          (if k = 0 then { old with Requests := tmp.Requests }
           else if k = 1 then { old with Errors := tmp.Errors }
           else { old with Duration := tmp.Duration }) s.world
        goroutines := s.goroutines.set i
          { g with phase := if k < 2 then .copying tmp (k + 1) else .idle } }) := by
  cases a with
  | call i =>
    simp only [step] at h
    split at h
    · cases h
    · rename_i g hg
      split at h
      · rename_i c rest hphase htodo
        split at h
        · rename_i hmsg
          simp only [Option.some.injEq] at h
          exact Or.inl ⟨i, g, c, rest, rfl, hg, hphase, htodo, hmsg, h.symm⟩
        · rename_i m hmsg
          split at h
          · rename_i hroom
            simp only [Option.some.injEq] at h
            exact Or.inr (Or.inl ⟨i, g, c, rest, m, rfl, hg, hphase, htodo, hmsg, hroom,
              h.symm⟩)
          · cases h
      · cases h
  | take =>
    simp only [step] at h
    split at h
    · rename_i m ms hout hto
      split at h
      · cases h
      · rename_i main1 replies hws
        simp only [Option.some.injEq] at h
        exact Or.inr (Or.inr (Or.inl ⟨m, ms, main1, replies, rfl, hout, hto, hws, h.symm⟩))
    · cases h
  | reply =>
    simp only [step] at h
    split at h
    · cases h
    · rename_i r rest hout
      split at h
      · rename_i hroom
        simp only [Option.some.injEq] at h
        exact Or.inr (Or.inr (Or.inr (Or.inl ⟨r, rest, rfl, hout, hroom, h.symm⟩)))
      · cases h
  | receive i =>
    simp only [step] at h
    split at h
    · cases h
    · rename_i g hg
      split at h
      · rename_i r rest hphase hfrom
        simp only [Option.some.injEq] at h
        exact Or.inr (Or.inr (Or.inr (Or.inr (Or.inl
          ⟨i, g, r, rest, rfl, hg, hphase, hfrom, h.symm⟩))))
      · cases h
  | store i =>
    simp only [step] at h
    split at h
    · cases h
    · rename_i g hg
      split at h
      · rename_i tmp k hphase
        simp only [storeField] at h
        split at h
        · cases h
        · rename_i w1 hw1
          split at hw1
          · cases hw1
          · rename_i old hold
            simp only [Except.ok.injEq] at hw1
            subst hw1
            simp only [Option.some.injEq] at h
            exact Or.inr (Or.inr (Or.inr (Or.inr (Or.inr
              ⟨i, g, tmp, k, old, rfl, hg, hphase, hold, h.symm⟩))))
      · cases h
theorem step_inv (w0 : World) (progs : List (Nat × List Call)) (a : Action) (s s1 : Machine)
    (hinv : Inv w0 progs s) (hstep : step a s = some s1) : Inv w0 progs s1 := by
  rcases step_cases a s s1 hstep with
    ⟨i, g, c, rest, -, hg, hphase, htodo, hmsg, rfl⟩ |
    ⟨i, g, c, rest, m, -, hg, hphase, htodo, hmsg, -, rfl⟩ |
    ⟨m, ms, main1, replies, -, hout, hto, hws, rfl⟩ |
    ⟨r, rest, -, hout, -, rfl⟩ |
    ⟨i, g, r, rest, -, hg, hphase, hfrom, rfl⟩ |
    ⟨i, g, tmp, k, old, -, hg, hphase, hold, rfl⟩
  · have hcount := waitingCount_set s.goroutines i g { g with todo := rest } hg
    simp only [Nat.add_right_cancel_iff] at hcount
    exact
      { prog := prog_call progs s.goroutines s.order i g _ c rest hinv.prog hg htodo rfl rfl
        size := by simp only [List.length_set]; exact hinv.size
        fifo := by
          simp only [messages_snoc, hmsg, Option.toList, List.append_nil]
          exact hinv.fifo
        clock := hinv.clock
        heap := hinv.heap
        seq := hinv.seq
        count := by
          simp only [messages_snoc, hmsg, Option.toList, List.append_nil]
          have := hinv.count
          omega }
  · have hcount := waitingCount_set s.goroutines i g
      { g with todo := rest, phase := .waiting } hg
    simp only [hphase, if_true, reduceCtorEq, if_false] at hcount
    exact
      { prog := prog_call progs s.goroutines s.order i g _ c rest hinv.prog hg htodo rfl rfl
        size := by simp only [List.length_set]; exact hinv.size
        fifo := by
          simp only [messages_snoc, hmsg, Option.toList, send, ← List.append_assoc]
          rw [hinv.fifo]
        clock := hinv.clock
        heap := hinv.heap
        seq := hinv.seq
        count := by
          simp only [messages_snoc, hmsg, Option.toList, List.length_append,
            List.length_singleton]
          have := hinv.count
          omega }
  · obtain ⟨w1, hrun, hmain, htick, hfrom⟩ := hinv.seq
    have hclock := (worker_frame _ _ _ hrun).1
    have hws1 : workerStep (w1.clock w1.tick) w1.main m = .ok (main1, replies) := by
      rw [hclock, htick, hmain, ← hinv.clock]
      exact hws
    exact
      { prog := hinv.prog
        size := hinv.size
        fifo := by
          have := hinv.fifo
          rw [hto] at this
          simp only [List.append_assoc, List.singleton_append]
          exact this
        clock := hinv.clock
        heap := hinv.heap
        seq := ⟨_, worker_snoc _ _ _ _ _ _ hrun hws1, rfl, by simp only [htick], by
          simp only [hfrom, hout, List.append_nil]⟩
        count := hinv.count }
  · obtain ⟨w1, hrun, hmain, htick, hfrom⟩ := hinv.seq
    exact
      { prog := hinv.prog
        size := hinv.size
        fifo := hinv.fifo
        clock := hinv.clock
        heap := hinv.heap
        seq := ⟨w1, hrun, hmain, htick, by
          simp only [hfrom, hout, List.append_assoc, List.singleton_append]⟩
        count := hinv.count }
  · obtain ⟨w2, hrun, hmain, htick, hfromW⟩ := hinv.seq
    have hcount := waitingCount_set s.goroutines i g { g with phase := .copying r 0 } hg
    simp only [hphase, if_true, reduceCtorEq, if_false] at hcount
    exact
      { prog := prog_same progs s.goroutines s.order i g _ hinv.prog hg rfl rfl
        size := by simp only [List.length_set]; exact hinv.size
        fifo := hinv.fifo
        clock := hinv.clock
        heap := hinv.heap
        seq := ⟨w2, hrun, hmain, htick, by
          simp only [hfromW, hfrom, List.map_append, List.map_cons, List.map_nil,
            List.append_assoc, List.singleton_append]⟩
        count := by
          simp only [List.length_append, List.length_singleton]
          have := hinv.count
          omega }
  · have hcount := waitingCount_set s.goroutines i g
      { g with phase := if k < 2 then .copying tmp (k + 1) else .idle } hg
    have hnw : ¬ (if k < 2 then Phase.copying tmp (k + 1) else Phase.idle) = Phase.waiting := by
      split_ifs <;> simp
    simp only [hphase, reduceCtorEq, if_false, hnw, Nat.add_zero] at hcount
    exact
      { prog := prog_same progs s.goroutines s.order i g _ hinv.prog hg rfl rfl
        size := by simp only [List.length_set]; exact hinv.size
        fifo := hinv.fifo
        clock := hinv.clock
        heap := by simp only [store, List.length_set]; exact hinv.heap
        seq := hinv.seq
        count := by
          show waitingCount (s.goroutines.set i _) + s.seen.length = (messages s.order).length
          have := hinv.count
          omega }

theorem init_inv (w0 : World) (progs : List (Nat × List Call)) :
    Inv w0 progs (initMachine w0 progs) where
  prog := by
    intro i g h
    simp only [initMachine, List.getElem?_map] at h
    cases hp : progs[i]? with
    | none => rw [hp] at h; cases h
    | some p =>
      rw [hp] at h
      simp only [Option.map_some', Option.some.injEq] at h
      subst h
      exact ⟨p, rfl, rfl, by simp [initMachine, callsOf]⟩
  size := by simp [initMachine]
  fifo := by simp [initMachine, messages]
  clock := rfl
  heap := rfl
  seq := ⟨w0, rfl, rfl, rfl, by simp [initMachine]⟩
  count := by
    simp only [initMachine, messages, List.filterMap_nil, List.length_nil, Nat.add_zero,
      waitingCount, List.length_eq_zero, List.filter_eq_nil_iff, List.mem_map]
    rintro g ⟨p, -, rfl⟩
    simp

theorem run_inv (w0 : World) (progs : List (Nat × List Call)) (acts : List Action) :
    ∀ s s1 : Machine, Inv w0 progs s → run acts s = some s1 → Inv w0 progs s1 := by
  induction acts with
  | nil =>
    intro s s1 hinv h
    simp only [run, Option.some.injEq] at h
    subst h
    exact hinv
  | cons a rest ih =>
    intro s s1 hinv h
    simp only [run] at h
    cases hstep : step a s with
    | none => rw [hstep] at h; cases h
    | some s2 =>
      rw [hstep] at h
      exact ih s2 s1 (step_inv w0 progs a s s2 hinv hstep) h

theorem message_isUpdate (c : Call) (m : msg) (h : c.message = some m) :
    IsUpdate m ∧ m.operation ≠ start := by
  unfold Call.message at h
  by_cases hf : c.field = REQUESTS ∨ c.field = ERRORS
  · rw [if_pos hf] at h
    simp only [Option.some.injEq] at h
    subst h
    cases c.isSet <;> simp [IsUpdate, hf, add, set, start]
  · rw [if_neg hf] at h
    cases h

theorem messages_isUpdate (order : List (Nat × Call)) :
    ∀ m ∈ messages order, IsUpdate m ∧ m.operation ≠ start := by
  intro m hm
  simp only [messages, List.mem_filterMap] at hm
  obtain ⟨p, -, hp⟩ := hm
  exact message_isUpdate p.2 m hp

theorem workerStep_update (t : Int) (s : Red) (m : msg) (hm : IsUpdate m) :
    ∃ s1 : Red, workerStep t s m = .ok (s1, if m.operation = start then [] else [s1]) := by
  rcases hm with h | ⟨h | h, hf | hf⟩
  · exact ⟨_, by rw [workerStep_start t s m h, if_pos h]⟩
  · simp [workerStep, h, hf, add, start]
  · simp [workerStep, h, hf, add, start, REQUESTS, ERRORS]
  · simp [workerStep, h, hf, add, set, start]
  · simp [workerStep, h, hf, add, set, start, REQUESTS, ERRORS]

/-- The worker run over updates returns, having queued one reply for every
message other than `start`, each reply the store as it was right after a
whole number of the messages. -/
theorem worker_updates (ms : List msg) :
    ∀ w : World, (∀ m ∈ ms, IsUpdate m) →
      ∃ (w1 : World) (rs : List Red), worker ms w = .ok w1 ∧
        w1.fromWorker = w.fromWorker ++ rs ∧ rs.length = answered ms ∧
        ∀ r ∈ rs, ∃ (k : Nat) (wk : World), k ≤ ms.length ∧
          worker (ms.take k) w = .ok wk ∧ r = wk.main := by
  induction ms with
  | nil =>
    intro w _
    exact ⟨w, [], rfl, by simp, rfl, by simp⟩
  | cons m ms ih =>
    intro w hall
    obtain ⟨s1, hstep⟩ := workerStep_update (w.clock w.tick) w.main m
      (hall m (List.mem_cons_self _ _))
    obtain ⟨w1, rs, hrun, hfrom, hlen, hrs⟩ := ih
      { w with main := s1,
               fromWorker := w.fromWorker ++ (if m.operation = start then [] else [s1]),
               tick := w.tick + 1 }
      (fun x hx => hall x (List.mem_cons_of_mem _ hx))
    refine ⟨w1, (if m.operation = start then [] else [s1]) ++ rs, ?_, ?_, ?_, ?_⟩
    · simp only [worker, hstep, hrun]
    · rw [hfrom, List.append_assoc]
    · by_cases hs : m.operation = start
      · simp [answered, List.filter_cons, hs, hlen]
      · simp [answered, List.filter_cons, hs, hlen]
    · intro r hr
      rcases List.mem_append.mp hr with h1 | h1
      · by_cases hs : m.operation = start
        · simp [hs] at h1
        · simp only [hs, if_false, List.mem_singleton] at h1
          subst h1
          have hone : worker (List.take 1 (m :: ms)) w
              = .ok { w with main := r, fromWorker := w.fromWorker ++ [r],
                             tick := w.tick + 1 } := by
            simp only [List.take_succ_cons, List.take_zero, worker, hstep, hs, if_false]
          exact ⟨1, _, by simp, hone, rfl⟩
      · obtain ⟨k, wk, hk, hwk, hr2⟩ := hrs r h1
        refine ⟨k + 1, wk, by simp; omega, ?_, hr2⟩
        simp only [List.take_succ_cons, worker, hstep, hwk]

theorem answered_append (xs ys : List msg) : answered (xs ++ ys) = answered xs + answered ys := by
  simp [answered, List.filter_append]

theorem answered_starts (ms : List msg) (h : ∀ m ∈ ms, m.operation = start) :
    answered ms = 0 := by
  simp only [answered, List.length_eq_zero, List.filter_eq_nil_iff]
  intro m hm
  simp [h m hm]

theorem answered_messages (order : List (Nat × Call)) :
    answered (messages order) = (messages order).length := by
  unfold answered
  rw [List.filter_eq_self.mpr]
  intro m hm
  simpa using (messages_isUpdate order m hm).2

theorem starts_of_answered (ms : List msg) (h : answered ms = 0) :
    ∀ m ∈ ms, m.operation = start := by
  intro m hm
  simp only [answered, List.length_eq_zero, List.filter_eq_nil_iff] at h
  simpa using h m hm

theorem worker_starts (ms : List msg) :
    ∀ w : World, (∀ m ∈ ms, m.operation = start) →
      worker ms w = .ok { w with main := settle w.clock ms w.tick w.main,
                                 tick := w.tick + ms.length } := by
  induction ms with
  | nil => intro w _; rfl
  | cons m ms ih =>
    intro w h
    simp only [worker, workerStep_start _ _ m (h m (List.mem_cons_self _ _)), List.append_nil]
    rw [ih _ (fun x hx => h x (List.mem_cons_of_mem _ hx))]
    simp only [settle, List.length_cons, Nat.add_assoc, Nat.add_comm 1]

theorem worker_congr (ms : List msg) :
    ∀ w v w1 : World, w.main = v.main → w.tick = v.tick → w.clock = v.clock →
      worker ms w = .ok w1 → ∃ v1 : World, worker ms v = .ok v1 ∧ v1.main = w1.main := by
  induction ms with
  | nil =>
    intro w v w1 hm _ _ h
    simp only [worker, Except.ok.injEq] at h
    subst h
    exact ⟨v, rfl, hm.symm⟩
  | cons m ms ih =>
    intro w v w1 hm ht hc h
    have hv : workerStep (v.clock v.tick) v.main m = workerStep (w.clock w.tick) w.main m := by
      rw [hm, ht, hc]
    simp only [worker, hv] at h ⊢
    cases hstep : workerStep (w.clock w.tick) w.main m with
    | error e => rw [hstep] at h; cases h
    | ok p =>
      rw [hstep] at h
      exact ih { w with main := p.1, fromWorker := w.fromWorker ++ p.2, tick := w.tick + 1 }
        { v with main := p.1, fromWorker := v.fromWorker ++ p.2, tick := v.tick + 1 } w1 rfl
        (by simp only [ht]) hc h

theorem message_valid (c : Call) (hf : c.field = REQUESTS ∨ c.field = ERRORS) :
    c.message = some ⟨if c.isSet then set else add, c.field, c.value⟩ := by
  simp only [Call.message, hf, if_true]

theorem message_invalid (c : Call) (hf : ¬ (c.field = REQUESTS ∨ c.field = ERRORS)) :
    c.message = none := by
  simp only [Call.message, hf, if_false]

/-- The calls `cs` made one after the other by a single caller leave the store
the worker reaches when it is run over the pending messages and then the
messages of `cs`. -/
theorem runCalls_worker (a : Nat) (cs : List Call) :
    ∀ w : World, SingleCaller w → (∃ old, w.heap[a]? = some old) →
      ∃ w2 w1 : World, runCalls (some a) cs w = .ok w2 ∧ SingleCaller w2 ∧
        worker (w.toWorker ++ cs.filterMap Call.message) w = .ok w1 ∧
        settledMain w2 = w1.main := by
  induction cs with
  | nil =>
    intro w hw _
    refine ⟨w, { w with main := settle w.clock w.toWorker w.tick w.main,
                        tick := w.tick + w.toWorker.length }, rfl, hw, ?_, rfl⟩
    simp only [List.filterMap_nil, List.append_nil, worker_starts w.toWorker w hw.2]
  | cons c cs ih =>
    intro w hw ha
    obtain ⟨old, hold⟩ := ha
    by_cases hf : c.field = REQUESTS ∨ c.field = ERRORS
    · have key : ∀ (op : ops) (s1 : Red),
          workerStep (w.clock (settledTick w)) (settledMain w) ⟨op, c.field, c.value⟩
            = .ok (s1, [s1]) →
          c.message = some ⟨op, c.field, c.value⟩ →
          ∃ w2 w1 : World,
            runCalls (some a) cs (replied w a old s1 s1 ⟨op, c.field, c.value⟩) = .ok w2 ∧
            SingleCaller w2 ∧
            worker (w.toWorker ++ (c :: cs).filterMap Call.message) w = .ok w1 ∧
            settledMain w2 = w1.main := by
        intro op s1 hstep hmsg
        obtain ⟨w2, v1, hrun, hsc, hwork, hmain⟩ :=
          ih (replied w a old s1 s1 ⟨op, c.field, c.value⟩)
            (replied_singleCaller _ _ _ _ _ _) ⟨_, replied_heap w a old s1 s1 _ hold⟩
        have hwork1 : worker (cs.filterMap Call.message)
            (replied w a old s1 s1 ⟨op, c.field, c.value⟩) = .ok v1 := hwork
        obtain ⟨v2, hv2, hv2m⟩ := worker_congr (cs.filterMap Call.message)
          (replied w a old s1 s1 ⟨op, c.field, c.value⟩)
          { w with main := s1, fromWorker := w.fromWorker ++ [s1],
                   tick := w.tick + w.toWorker.length + 1 }
          v1 rfl rfl rfl hwork1
        refine ⟨w2, v2, hrun, hsc, ?_, by rw [hmain, hv2m]⟩
        rw [List.filterMap_cons, hmsg, worker_append, worker_starts w.toWorker w hw.2]
        have hstep1 : workerStep (w.clock (w.tick + w.toWorker.length))
            (settle w.clock w.toWorker w.tick w.main) ⟨op, c.field, c.value⟩
              = .ok (s1, [s1]) := hstep
        simp only [worker, hstep1]
        exact hv2
      cases hset : c.isSet with
      | false =>
        obtain ⟨s1, hstep, hcall⟩ := Add_single w a old c.field c.value hw hold hf
        obtain ⟨w2, w1, hrun, hsc, hwork, hmain⟩ := key add s1 hstep
          (by rw [message_valid c hf, hset]; rfl)
        refine ⟨w2, w1, ?_, hsc, hwork, hmain⟩
        simp only [runCalls, hset, hcall]
        exact hrun
      | true =>
        obtain ⟨s1, hstep, hcall⟩ := Set_single w a old c.field c.value hw hold hf
        obtain ⟨w2, w1, hrun, hsc, hwork, hmain⟩ := key set s1 hstep
          (by rw [message_valid c hf, hset]; rfl)
        refine ⟨w2, w1, ?_, hsc, hwork, hmain⟩
        simp only [runCalls, hset, hcall]
        exact hrun
    · obtain ⟨w2, w1, hrun, hsc, hwork, hmain⟩ := ih w hw ⟨old, hold⟩
      refine ⟨w2, w1, ?_, hsc, ?_, hmain⟩
      · cases hset : c.isSet with
        | false =>
          simp only [runCalls, hset, Red.Add, hf, if_false]
          exact hrun
        | true =>
          simp only [runCalls, hset, Red.Set, hf, if_false]
          exact hrun
      · rw [List.filterMap_cons, message_invalid c hf]
        exact hwork

theorem inv_facts (w0 : World) (hw : SingleCaller w0) (progs : List (Nat × List Call))
    (s : Machine) (hinv : Inv w0 progs s) :
    (∀ m ∈ s.handled ++ s.world.toWorker, IsUpdate m) ∧
    waitingCount s.goroutines
      = s.world.fromWorker.length + s.outbox.length + answered s.world.toWorker ∧
    ∀ r ∈ s.seen.map Prod.snd ++ s.world.fromWorker ++ s.outbox,
      ∃ (k : Nat) (wk : World), k ≤ s.handled.length ∧
        worker (s.handled.take k) w0 = .ok wk ∧ r = wk.main := by
  have htotal : ∀ m ∈ s.handled ++ s.world.toWorker, IsUpdate m := by
    intro m hm
    rw [hinv.fifo] at hm
    rcases List.mem_append.mp hm with h | h
    · exact Or.inl (hw.2 m h)
    · exact (messages_isUpdate s.order m h).1
  obtain ⟨w1, rs, hrun, hfrom, hlen, hrs⟩ := worker_updates s.handled w0
    (fun m hm => htotal m (List.mem_append_left _ hm))
  obtain ⟨w2, hrun2, -, -, hfrom2⟩ := hinv.seq
  rw [hrun] at hrun2
  simp only [Except.ok.injEq] at hrun2
  subst hrun2
  rw [hw.1, List.nil_append] at hfrom
  rw [hfrom] at hfrom2
  refine ⟨htotal, ?_, ?_⟩
  · have h1 := congrArg answered hinv.fifo
    rw [answered_append, answered_append, answered_starts _ hw.2, answered_messages] at h1
    have h2 := congrArg List.length hfrom2
    simp only [List.length_append, List.length_map] at h2
    have h3 := hinv.count
    omega
  · intro r hr
    rw [← hfrom2] at hr
    exact hrs r hr

theorem waitingCount_finished (s : Machine) (h : Finished s) : waitingCount s.goroutines = 0 := by
  simp only [waitingCount, List.length_eq_zero, List.filter_eq_nil_iff]
  intro g hg
  simp [(h g hg).2]

theorem messages_eq (order : List (Nat × Call)) :
    (order.map Prod.snd).filterMap Call.message = messages order := by
  simp only [messages, List.filterMap_map]
  rfl

theorem last_eq_of_append (xs ys us vs : List msg) (x y : msg)
    (h : xs ++ (ys ++ [x]) = us ++ (vs ++ [y])) : x = y := by
  rw [← List.append_assoc, ← List.append_assoc] at h
  have := List.append_inj_right' h rfl
  simpa using this

theorem finished_facts (w0 : World) (hw : SingleCaller w0) (progs : List (Nat × List Call))
    (s : Machine) (hinv : Inv w0 progs s) (hfin : Finished s) :
    SingleCaller s.world ∧ s.outbox = [] ∧
    (messages s.order ≠ [] → s.world.toWorker = []) ∧
    ∃ w1 : World, worker (w0.toWorker ++ messages s.order) w0 = .ok w1 ∧
      settledMain s.world = w1.main := by
  obtain ⟨-, hcount, -⟩ := inv_facts w0 hw progs s hinv
  rw [waitingCount_finished s hfin] at hcount
  have hfrom : s.world.fromWorker = [] := List.length_eq_zero.mp (by omega)
  have hout : s.outbox = [] := List.length_eq_zero.mp (by omega)
  have hstarts := starts_of_answered s.world.toWorker (by omega)
  obtain ⟨w1, hrun, hmain, htick, -⟩ := hinv.seq
  have hclock := (worker_frame _ _ _ hrun).1
  refine ⟨⟨hfrom, hstarts⟩, hout, ?_, ?_⟩
  · intro hne
    rcases List.eq_nil_or_concat s.world.toWorker with h | ⟨L, x, hL⟩
    · exact h
    · rcases List.eq_nil_or_concat (messages s.order) with h | ⟨M, y, hM⟩
      · exact absurd h hne
      · have hfifo := hinv.fifo
        rw [hL, hM, List.concat_eq_append, List.concat_eq_append] at hfifo
        have hxy := last_eq_of_append _ _ _ _ _ _ hfifo
        have hx : x.operation = start := hstarts x (by rw [hL, List.concat_eq_append]; simp)
        have hy := (messages_isUpdate s.order y (by rw [hM, List.concat_eq_append]; simp)).2
        rw [hxy] at hx
        exact absurd hx hy
  · rw [← hinv.fifo, worker_append, hrun]
    simp only [worker_starts s.world.toWorker w1 hstarts]
    refine ⟨_, rfl, ?_⟩
    simp only [settledMain, hclock, hmain, htick, hinv.clock]

theorem waiting_exists (gs : List Goroutine) (h : 0 < waitingCount gs) :
    ∃ (i : Nat) (g : Goroutine), gs[i]? = some g ∧ g.phase = .waiting := by
  unfold waitingCount at h
  obtain ⟨g, hg⟩ := List.exists_mem_of_length_pos h
  obtain ⟨hmem, hwait⟩ := List.mem_filter.mp hg
  obtain ⟨i, hi⟩ := List.mem_iff_getElem?.mp hmem
  exact ⟨i, g, hi, by simpa using hwait⟩

theorem receive_enabled (s : Machine) (i : Nat) (g : Goroutine)
    (hg : s.goroutines[i]? = some g) (hwait : g.phase = .waiting)
    (hfrom : s.world.fromWorker ≠ []) : ∃ s1 : Machine, step (.receive i) s = some s1 := by
  obtain ⟨r, rest, hr⟩ := List.exists_cons_of_ne_nil hfrom
  simp only [step, hg, hwait, hr]
  exact ⟨_, rfl⟩

theorem store_enabled (w0 : World) (progs : List (Nat × List Call))
    (hh : ∀ p ∈ progs, p.1 < w0.heap.length) (s : Machine) (hinv : Inv w0 progs s)
    (i : Nat) (g : Goroutine) (tmp : Red) (k : Nat) (hg : s.goroutines[i]? = some g)
    (hphase : g.phase = .copying tmp k) : ∃ s1 : Machine, step (.store i) s = some s1 := by
  obtain ⟨p, hp, hhandle, -⟩ := hinv.prog i g hg
  have hlt : g.handle < s.world.heap.length := by
    rw [hinv.heap, hhandle]
    exact hh p (List.getElem?_mem hp)
  have hold : s.world.heap[g.handle]? = some s.world.heap[g.handle] :=
    List.getElem?_eq_getElem hlt
  simp only [step, hg, hphase, storeField, hold]
  exact ⟨_, rfl⟩

/-- No deadlock: until every goroutine has returned and the worker has emptied
`toWorker`, some action is enabled. -/
theorem step_enabled (w0 : World) (hw : SingleCaller w0) (progs : List (Nat × List Call))
    (hh : ∀ p ∈ progs, p.1 < w0.heap.length) (s : Machine) (hinv : Inv w0 progs s)
    (hne : ¬ (Finished s ∧ s.world.toWorker = [])) :
    ∃ (a : Action) (s1 : Machine), step a s = some s1 := by
  obtain ⟨hupd, hcount, -⟩ := inv_facts w0 hw progs s hinv
  cases hout : s.outbox with
  | cons r rest =>
    by_cases hroom : s.world.fromWorker.length < capacity
    · refine ⟨.reply, ?_⟩
      simp only [step, hout, hroom, if_true]
      exact ⟨_, rfl⟩
    · have hfrom : s.world.fromWorker ≠ [] := by
        intro h
        rw [h] at hroom
        exact hroom (by decide)
      have hpos : 0 < waitingCount s.goroutines := by
        rw [hcount, hout]
        simp only [List.length_cons]
        omega
      obtain ⟨i, g, hg, hwait⟩ := waiting_exists _ hpos
      obtain ⟨s1, h1⟩ := receive_enabled s i g hg hwait hfrom
      exact ⟨_, s1, h1⟩
  | nil =>
    cases hto : s.world.toWorker with
    | cons m ms =>
      obtain ⟨m1, hstep⟩ := workerStep_update (s.world.clock s.world.tick) s.world.main m
        (hupd m (by rw [hto]; simp))
      refine ⟨.take, ?_⟩
      simp only [step, hout, hto, hstep]
      exact ⟨_, rfl⟩
    | nil =>
      have hnf : ¬ Finished s := fun hf => hne ⟨hf, hto⟩
      simp only [Finished, not_forall] at hnf
      obtain ⟨g, hmem, hg⟩ := hnf
      obtain ⟨i, hi⟩ := List.mem_iff_getElem?.mp hmem
      cases hphase : g.phase with
      | copying tmp k =>
        obtain ⟨s1, h1⟩ := store_enabled w0 progs hh s hinv i g tmp k hi hphase
        exact ⟨_, s1, h1⟩
      | waiting =>
        have hpos : 0 < waitingCount s.goroutines := by
          unfold waitingCount
          exact List.length_pos_of_mem (List.mem_filter.mpr ⟨hmem, by simpa using hphase⟩)
        have hfrom : s.world.fromWorker ≠ [] := by
          intro h
          rw [hcount, hout, hto, h] at hpos
          simp [answered] at hpos
        obtain ⟨s1, h1⟩ := receive_enabled s i g hi hphase hfrom
        exact ⟨_, s1, h1⟩
      | idle =>
        cases htodo : g.todo with
        | nil => exact absurd ⟨htodo, hphase⟩ hg
        | cons c rest =>
          cases hmsg : c.message with
          | none =>
            refine ⟨.call i, ?_⟩
            simp only [step, hi, hphase, htodo, hmsg]
            exact ⟨_, rfl⟩
          | some m =>
            have hroom : s.world.toWorker.length < capacity := by
              rw [hto]
              decide
            refine ⟨.call i, ?_⟩
            simp only [step, hi, hphase, htodo, hmsg, hroom, if_true]
            exact ⟨_, rfl⟩

theorem fuel_sum_set (gs : List Goroutine) :
    ∀ (i : Nat) (g g1 : Goroutine), gs[i]? = some g →
      ((gs.set i g1).map fun g => 7 * g.todo.length + g.phase.left).sum
          + (7 * g.todo.length + g.phase.left)
        = (gs.map fun g => 7 * g.todo.length + g.phase.left).sum
          + (7 * g1.todo.length + g1.phase.left) := by
  induction gs with
  | nil => intro i g g1 h; simp at h
  | cons x xs ih =>
    intro i g g1 h
    cases i with
    | zero =>
      simp only [List.getElem?_cons_zero, Option.some.injEq] at h
      subst h
      simp only [List.set_cons_zero, List.map_cons, List.sum_cons]
      omega
    | succ n =>
      simp only [List.getElem?_cons_succ] at h
      have := ih n g g1 h
      simp only [List.set_cons_succ, List.map_cons, List.sum_cons]
      omega

theorem left_store (tmp : Red) (k : Nat) :
    (if k < 2 then Phase.copying tmp (k + 1) else Phase.idle).left + 1
      = (Phase.copying tmp k).left := by
  match k with
  | 0 => rfl
  | 1 => rfl
  | k + 2 => simp [Phase.left]

/-- Every action uses up fuel, so every schedule is finite. -/
theorem step_fuel (w0 : World) (hw : SingleCaller w0) (progs : List (Nat × List Call))
    (a : Action) (s s1 : Machine) (hinv : Inv w0 progs s) (hstep : step a s = some s1) :
    s1.fuel < s.fuel := by
  obtain ⟨hupd, -, -⟩ := inv_facts w0 hw progs s hinv
  have hl0 : Phase.idle.left = 0 := rfl
  have hl1 : Phase.waiting.left = 0 := rfl
  have hl2 : ∀ r : Red, (Phase.copying r 0).left = 3 := fun _ => rfl
  rcases step_cases a s s1 hstep with
    ⟨i, g, c, rest, -, hg, hphase, htodo, hmsg, rfl⟩ |
    ⟨i, g, c, rest, m, -, hg, hphase, htodo, hmsg, -, rfl⟩ |
    ⟨m, ms, main1, replies, -, hout, hto, hws, rfl⟩ |
    ⟨r, rest, -, hout, -, rfl⟩ |
    ⟨i, g, r, rest, -, hg, hphase, hfrom, rfl⟩ |
    ⟨i, g, tmp, k, old, -, hg, hphase, hold, rfl⟩
  · have := fuel_sum_set s.goroutines i g { g with todo := rest } hg
    simp only [htodo, List.length_cons] at this
    simp only [Machine.fuel]
    omega
  · have := fuel_sum_set s.goroutines i g { g with todo := rest, phase := .waiting } hg
    simp only [htodo, hphase, List.length_cons, hl0, hl1] at this
    simp only [Machine.fuel, send, List.length_append, List.length_singleton]
    omega
  · obtain ⟨m1, hm1⟩ := workerStep_update (s.world.clock s.world.tick) s.world.main m
      (hupd m (by rw [hto]; simp))
    rw [hws] at hm1
    simp only [Except.ok.injEq, Prod.mk.injEq] at hm1
    have hlen : replies.length ≤ 1 := by
      rw [hm1.2]
      split_ifs <;> simp
    simp only [Machine.fuel, hto, hout, List.length_cons, List.length_nil]
    omega
  · simp only [Machine.fuel, hout, List.length_cons, List.length_append,
      List.length_singleton, List.length_nil]
    omega
  · have := fuel_sum_set s.goroutines i g { g with phase := .copying r 0 } hg
    simp only [hphase, hl1, hl2] at this
    simp only [Machine.fuel, hfrom, List.length_cons]
    omega
  · have := fuel_sum_set s.goroutines i g
      { g with phase := if k < 2 then .copying tmp (k + 1) else .idle } hg
    have hl := left_store tmp k
    simp only [hphase] at this
    simp only [Machine.fuel, store]
    omega
theorem run_append (xs ys : List Action) :
    ∀ s : Machine, run (xs ++ ys) s
      = match run xs s with
        | none => none
        | some s1 => run ys s1 := by
  induction xs with
  | nil => intro s; rfl
  | cons a xs ih =>
    intro s
    simp only [List.cons_append, run]
    cases step a s with
    | none => rfl
    | some s1 => exact ih s1

theorem run_fuel (w0 : World) (hw : SingleCaller w0) (progs : List (Nat × List Call))
    (acts : List Action) :
    ∀ s s1 : Machine, Inv w0 progs s → run acts s = some s1 →
      acts.length + s1.fuel ≤ s.fuel := by
  induction acts with
  | nil =>
    intro s s1 _ h
    simp only [run, Option.some.injEq] at h
    subst h
    simp
  | cons a rest ih =>
    intro s s1 hinv h
    simp only [run] at h
    cases hstep : step a s with
    | none => rw [hstep] at h; cases h
    | some s2 =>
      rw [hstep] at h
      have h1 := step_fuel w0 hw progs a s s2 hinv hstep
      have h2 := ih s2 s1 (step_inv w0 progs a s s2 hinv hstep) h
      simp only [List.length_cons]
      omega

/-- From every state a schedule reaches, some further schedule lets every
goroutine return and the worker empty `toWorker`. -/
theorem machine_completes (w0 : World) (hw : SingleCaller w0) (progs : List (Nat × List Call))
    (hh : ∀ p ∈ progs, p.1 < w0.heap.length) :
    ∀ (n : Nat) (s : Machine), s.fuel ≤ n → Inv w0 progs s →
      ∃ (more : List Action) (s1 : Machine), run more s = some s1 ∧ Finished s1 ∧
        s1.world.toWorker = [] := by
  intro n
  induction n with
  | zero =>
    intro s hn hinv
    by_cases hdone : Finished s ∧ s.world.toWorker = []
    · exact ⟨[], s, rfl, hdone.1, hdone.2⟩
    · obtain ⟨a, s1, hstep⟩ := step_enabled w0 hw progs hh s hinv hdone
      have := step_fuel w0 hw progs a s s1 hinv hstep
      omega
  | succ n ih =>
    intro s hn hinv
    by_cases hdone : Finished s ∧ s.world.toWorker = []
    · exact ⟨[], s, rfl, hdone.1, hdone.2⟩
    · obtain ⟨a, s1, hstep⟩ := step_enabled w0 hw progs hh s hinv hdone
      have hlt := step_fuel w0 hw progs a s s1 hinv hstep
      obtain ⟨more, s2, hrun, hfin, hto⟩ := ih s1 (by omega)
        (step_inv w0 progs a s s1 hinv hstep)
      exact ⟨a :: more, s2, by simp only [run, hstep, hrun], hfin, hto⟩

theorem lastSeen_snoc (i j : Nat) (r : Red) (seen : List (Nat × Red)) :
    lastSeen i (seen ++ [(j, r)]) = if j = i then some r else lastSeen i seen := by
  unfold lastSeen
  by_cases h : j = i
  · simp [List.filter_append, List.filter_cons, h]
  · simp [List.filter_append, List.filter_cons, h]

theorem copied_startTime (init : Red) (last : Option Red) :
    (copied init last).StartTime = init.StartTime := by
  cases last <;> rfl

theorem init_owns (w0 : World) (progs : List (Nat × List Call)) (i : Nat) :
    Owns w0 i (initMachine w0 progs) := by
  intro g init hg hinit
  simp only [initMachine, List.getElem?_map] at hg
  cases hp : progs[i]? with
  | none => rw [hp] at hg; cases hg
  | some p =>
    rw [hp] at hg
    simp only [Option.map_some', Option.some.injEq] at hg
    subst hg
    simpa [OwnsCell, initMachine, lastSeen, copied] using hinit

/-- The three stores one after the other, with nothing in between, are the
assignment as a single caller makes it. -/
theorem storeField_all (a : Nat) (tmp : Red) (w : World) :
    (match storeField a 0 tmp w with
      | .error e => .error e
      | .ok w1 =>
        match storeField a 1 tmp w1 with
        | .error e => .error e
        | .ok w2 => storeField a 2 tmp w2) = assignFrom a tmp w := by
  cases h : w.heap[a]? with
  | none => simp [storeField, assignFrom, h]
  | some old =>
    have hlt := heap_lt_of_getElem? w a old h
    simp [storeField, assignFrom, h, store, List.getElem?_set, hlt]

/-- A handle that only goroutine `i` copies into holds a whole reply whenever
that goroutine is outside the copy. -/
theorem step_owns (w0 : World) (progs : List (Nat × List Call)) (i : Nat)
    (hexcl : ∀ j p q, progs[i]? = some p → progs[j]? = some q → j ≠ i → q.1 ≠ p.1)
    (a : Action) (s s1 : Machine) (hinv : Inv w0 progs s) (hown : Owns w0 i s)
    (hstep : step a s = some s1) : Owns w0 i s1 := by
  intro g1 init hg1 hinit
  rcases step_cases a s s1 hstep with
    ⟨j, g, c, rest, -, hg, hphase, htodo, hmsg, rfl⟩ |
    ⟨j, g, c, rest, m, -, hg, hphase, htodo, hmsg, -, rfl⟩ |
    ⟨m, ms, main1, replies, -, hout, hto, hws, rfl⟩ |
    ⟨r, rest, -, hout, -, rfl⟩ |
    ⟨j, g, r, rest, -, hg, hphase, hfrom, rfl⟩ |
    ⟨j, g, tmp, k, old, -, hg, hphase, hold, rfl⟩
  · rcases getElem?_set_cases s.goroutines j i g _ g1 hg hg1 with ⟨hji, rfl⟩ | ⟨hji, hgi⟩
    · subst hji
      have := hown g init hg hinit
      simpa [hphase, OwnsCell] using this
    · exact hown g1 init hgi hinit
  · rcases getElem?_set_cases s.goroutines j i g _ g1 hg hg1 with ⟨hji, rfl⟩ | ⟨hji, hgi⟩
    · subst hji
      have := hown g init hg hinit
      simpa [hphase, OwnsCell, send] using this
    · exact hown g1 init hgi hinit
  · exact hown g1 init hg1 hinit
  · exact hown g1 init hg1 hinit
  · rcases getElem?_set_cases s.goroutines j i g _ g1 hg hg1 with ⟨hji, rfl⟩ | ⟨hji, hgi⟩
    · subst hji
      have := hown g init hg hinit
      simp only [hphase, OwnsCell] at this
      simp only [OwnsCell, lastSeen_snoc, if_true]
      exact ⟨trivial, by omega, _, this, copied_startTime _ _, by omega, by omega⟩
    · have := hown g1 init hgi hinit
      simp only [lastSeen_snoc, if_neg hji]
      exact this
  · rcases getElem?_set_cases s.goroutines j i g _ g1 hg hg1 with ⟨hji, rfl⟩ | ⟨hji, hgi⟩
    · subst hji
      have := hown g init hg hinit
      simp only [hphase, OwnsCell] at this
      obtain ⟨hlast, hk, c, hc, hst, hrq, her⟩ := this
      have hco : c = old := by
        rw [hold] at hc
        exact (Option.some.inj hc).symm
      subst hco
      have hcell := fun v : Red => store_heap_same s.world g.handle v c hold
      match k, hk with
      | 0, _ =>
        simp only [OwnsCell, Nat.lt_irrefl, if_true, Nat.zero_lt_succ, Nat.zero_add, hcell]
        exact ⟨hlast, by omega, _, rfl, hst, fun _ => rfl, fun h => h.elim⟩
      | 1, _ =>
        simp only [OwnsCell, Nat.one_lt_two, if_true, hcell]
        exact ⟨hlast, by omega, _, rfl, hst, fun _ => hrq (by omega), fun _ => rfl⟩
      | 2, _ =>
        simp only [OwnsCell, Nat.lt_irrefl, if_false, hcell, hlast, copied]
        have h1 := hrq (by omega)
        have h2 := her (by omega)
        simp [← h1, ← h2, ← hst]
    · obtain ⟨q, hq, hgq, -⟩ := hinv.prog j g hg
      obtain ⟨p, hp, hgp, -⟩ := hinv.prog i g1 hgi
      have hne : g.handle ≠ g1.handle := by
        rw [hgq, hgp]
        exact hexcl j p q hp hq hji
      have := hown g1 init hgi hinit
      show OwnsCell g1.phase (lastSeen i s.seen) init (store g.handle _ s.world).heap[g1.handle]?
      rw [store_heap_ne s.world g.handle g1.handle _ hne]
      exact this

theorem run_owns (w0 : World) (progs : List (Nat × List Call)) (i : Nat)
    (hexcl : ∀ j p q, progs[i]? = some p → progs[j]? = some q → j ≠ i → q.1 ≠ p.1)
    (acts : List Action) :
    ∀ s s1 : Machine, Inv w0 progs s → Owns w0 i s → run acts s = some s1 → Owns w0 i s1 := by
  induction acts with
  | nil =>
    intro s s1 _ hown h
    simp only [run, Option.some.injEq] at h
    subst h
    exact hown
  | cons a rest ih =>
    intro s s1 hinv hown h
    simp only [run] at h
    cases hstep : step a s with
    | none => rw [hstep] at h; cases h
    | some s2 =>
      rw [hstep] at h
      exact ih s2 s1 (step_inv w0 progs a s s2 hinv hstep)
        (step_owns w0 progs i hexcl a s s2 hinv hown hstep) h
/-- What the code guarantees to concurrent callers (the part of C13 that
holds).  Any number of goroutines make `Add` and `Set` calls, each its own
list of calls in its own order, under any schedule at all (every action of a
schedule is a channel operation of a caller or of the worker, or one store of
a caller into its handle).  At every moment: the calls
begun so far, in the order `s.order` in which they were begun, contain the
calls of each goroutine in that goroutine's own order; the worker has handled
a prefix of their messages in that same order, and the stored `main` is the
result of the worker run over that prefix from the initial store; every reply
received, queued or about to be sent is the stored value right after a whole
number of the handled messages, never one in between; and a handle that no
other goroutine uses holds, whenever its goroutine is not in the middle of the
three stores, what it held at first or the three fields of the last reply that
goroutine received.  Every schedule is finite, and when the handles are
allocated it can be continued until every goroutine has returned.  Once every
goroutine has returned, `s.order` holds every call of every program, no reply
is left over, and the store is the one the worker reaches over all the
messages in that order, which is also the store a single caller leaves that
makes all the calls one after the other in that order. -/
theorem concurrent_calls_spec (w0 : World) (hw : SingleCaller w0)
    (progs : List (Nat × List Call)) (acts : List Action) (s : Machine)
    (hrun : run acts (initMachine w0 progs) = some s) :
    (∀ i p, progs[i]? = some p →
      ∃ g, s.goroutines[i]? = some g ∧ callsOf i s.order ++ g.todo = p.2) ∧
    s.handled ++ s.world.toWorker = w0.toWorker ++ messages s.order ∧
    (∃ w1 : World, worker s.handled w0 = .ok w1 ∧ s.world.main = w1.main) ∧
    (∀ r ∈ s.seen.map Prod.snd ++ s.world.fromWorker ++ s.outbox,
      ∃ (k : Nat) (wk : World), k ≤ s.handled.length ∧
        worker (s.handled.take k) w0 = .ok wk ∧ r = wk.main) ∧
    (∀ i p init, progs[i]? = some p →
      (∀ j q, progs[j]? = some q → j ≠ i → q.1 ≠ p.1) → w0.heap[p.1]? = some init →
      ∃ g, s.goroutines[i]? = some g ∧
        ((∀ tmp k, g.phase ≠ .copying tmp k) →
          s.world.heap[p.1]? = some (copied init (lastSeen i s.seen)))) ∧
    acts.length + s.fuel ≤ (initMachine w0 progs).fuel ∧
    ((∀ p ∈ progs, p.1 < w0.heap.length) →
      ∃ (more : List Action) (s1 : Machine),
        run (acts ++ more) (initMachine w0 progs) = some s1 ∧ Finished s1) ∧
    (Finished s →
      (∀ i p, progs[i]? = some p → callsOf i s.order = p.2) ∧
      SingleCaller s.world ∧ s.outbox = [] ∧
      (messages s.order ≠ [] → s.world.toWorker = []) ∧
      (∃ w1 : World, worker (w0.toWorker ++ messages s.order) w0 = .ok w1 ∧
        settledMain s.world = w1.main) ∧
      ∀ a, a < w0.heap.length →
        ∃ w2 : World, runCalls (some a) (s.order.map Prod.snd) w0 = .ok w2 ∧
          settledMain s.world = settledMain w2) := by
  have hinv := run_inv w0 progs acts _ s (init_inv w0 progs) hrun
  have hprog : ∀ i p, progs[i]? = some p →
      ∃ g, s.goroutines[i]? = some g ∧ callsOf i s.order ++ g.todo = p.2 := by
    intro i p hp
    have hlt : i < s.goroutines.length := by
      rw [hinv.size]
      rcases Nat.lt_or_ge i progs.length with h | h
      · exact h
      · rw [List.getElem?_eq_none h] at hp; cases hp
    refine ⟨s.goroutines[i], List.getElem?_eq_getElem hlt, ?_⟩
    obtain ⟨q, hq, -, hc⟩ := hinv.prog i _ (List.getElem?_eq_getElem hlt)
    rw [hp] at hq
    cases hq
    exact hc
  obtain ⟨-, -, hseen⟩ := inv_facts w0 hw progs s hinv
  obtain ⟨w1, hw1, hmain, -, -⟩ := hinv.seq
  have hhandle : ∀ i p init, progs[i]? = some p →
      (∀ j q, progs[j]? = some q → j ≠ i → q.1 ≠ p.1) → w0.heap[p.1]? = some init →
      ∃ g, s.goroutines[i]? = some g ∧
        ((∀ tmp k, g.phase ≠ .copying tmp k) →
          s.world.heap[p.1]? = some (copied init (lastSeen i s.seen))) := by
    intro i p init hp hexcl hinit
    obtain ⟨g, hg, -⟩ := hprog i p hp
    obtain ⟨q, hq, hgq, -⟩ := hinv.prog i g hg
    rw [hp] at hq
    cases hq
    have hown := run_owns w0 progs i
      (fun j p1 q1 hp1 hq1 hji => by
        rw [hp] at hp1
        cases hp1
        exact hexcl j q1 hq1 hji)
      acts _ s (init_inv w0 progs) (init_owns w0 progs i) hrun g init hg
      (by rw [hgq]; exact hinit)
    refine ⟨g, hg, fun hnot => ?_⟩
    rw [hgq] at hown
    cases hphase : g.phase with
    | copying tmp k => exact absurd hphase (hnot tmp k)
    | idle => simpa [hphase, OwnsCell] using hown
    | waiting => simpa [hphase, OwnsCell] using hown
  refine ⟨hprog, hinv.fifo, ⟨w1, hw1, hmain.symm⟩, hseen, hhandle,
    run_fuel w0 hw progs acts _ s (init_inv w0 progs) hrun, fun hh => ?_, fun hfin => ?_⟩
  · obtain ⟨more, s1, hmore, hfin1, -⟩ := machine_completes w0 hw progs hh s.fuel s
      (Nat.le_refl _) hinv
    exact ⟨more, s1, by rw [run_append, hrun]; exact hmore, hfin1⟩
  obtain ⟨hsc, hout, hdrained, v1, hv1, hsettled⟩ := finished_facts w0 hw progs s hinv hfin
  refine ⟨?_, hsc, hout, hdrained, ⟨v1, hv1, hsettled⟩, ?_⟩
  · intro i p hp
    obtain ⟨g, hg, hc⟩ := hprog i p hp
    have := (hfin g (List.getElem?_mem hg)).1
    rw [this, List.append_nil] at hc
    exact hc
  · intro a ha
    obtain ⟨w2, v2, hrun2, -, hv2, hm2⟩ := runCalls_worker a (s.order.map Prod.snd) w0 hw
      ⟨_, List.getElem?_eq_getElem ha⟩
    rw [messages_eq, hv1] at hv2
    simp only [Except.ok.injEq] at hv2
    subst hv2
    exact ⟨w2, hrun2, by rw [hsettled, hm2]⟩

/-- A sample run of two goroutines on two handles: after
two calls of `Start()`, one goroutine calls `Add(REQUESTS, 1)` and then
`Set(ERRORS, 7)`, another `Add(REQUESTS, 2)`; both send before the worker
runs, the second goroutine is the one that receives the reply to the first
one's `add`, and their stores are interleaved.  The store ends at
Requests = 3, Errors = 7, as it does for a single caller making the three
calls in the order in which they were begun, and each handle holds the last
reply its goroutine received. -/
theorem concurrent_calls_spec_witness :
    SingleCaller sampleStarted ∧
    run sampleSchedule (initMachine sampleStarted sampleProgs) = some sampleFinal ∧
    Finished sampleFinal ∧
    sampleFinal.world.main = ⟨3, 7, 0, 1030⟩ ∧
    sampleFinal.seen = [(1, ⟨1, 0, 0, 1030⟩), (0, ⟨3, 0, 0, 1030⟩), (0, ⟨3, 7, 0, 1030⟩)] ∧
    sampleFinal.world.heap = [⟨3, 7, 0, 1000⟩, ⟨1, 0, 0, 1010⟩] ∧
    ∃ w2 : World,
      runCalls (some 0) (sampleFinal.order.map Prod.snd) sampleStarted = .ok w2 ∧
      settledMain sampleFinal.world = settledMain w2 :=
  ⟨by decide, by rfl, by decide, by rfl, by rfl, by rfl,
    ((concurrent_calls_spec sampleStarted (by decide) sampleProgs sampleSchedule sampleFinal
      (by rfl)).2.2.2.2.2.2.2 (by decide)).2.2.2.2.2 0 (by decide)⟩

/-- C13, on the code: two goroutines call on one handle, as the goroutines of
`BenchmarkAdd` do.  The first calls `Add(REQUESTS, 1)`, receives its reply
(1, 0) and is preempted after the first of its three stores; the second makes
`Add(ERRORS, 1)` and `Add(REQUESTS, 1)` from start to end; then the first
makes its other two stores.  Every call has returned nil and the store holds
Requests = 2, Errors = 1, but the handle holds Requests = 2, Errors = 0.  The
store went through (0, 0), (1, 0), (1, 1) and (2, 1) and at no time held
that: the handle shows the third `add` without the second. -/
theorem concurrent_handle_torn :
    run sampleTornSchedule (initMachine sampleStarted sampleShared) = some sampleTorn ∧
    Finished sampleTorn ∧
    sampleTorn.world.main = ⟨2, 1, 0, 1030⟩ ∧
    sampleTorn.world.heap[0]? = some ⟨2, 0, 0, 1000⟩ ∧
    sampleTorn.seen = [(0, ⟨1, 0, 0, 1030⟩), (1, ⟨1, 1, 0, 1030⟩), (1, ⟨2, 1, 0, 1030⟩)] ∧
    sampleTorn.handled.length = 5 ∧
    ((List.range 6).map fun k =>
        (worker (sampleTorn.handled.take k) sampleStarted).toOption.map
          fun w => (w.main.Requests, w.main.Errors))
      = [some (0, 0), some (0, 0), some (0, 0), some (1, 0), some (1, 1), some (2, 1)] := by
  refine ⟨by rfl, by decide, by rfl, by rfl, by rfl, by rfl, by rfl⟩

/-! ## No message of the public interface makes the worker panic -/

/-- The worker answers a valid message with one reply, and `start` with none. -/
theorem workerStep_replies (t : Int) (s : Red) (m : msg) (hm : ValidMsg m) :
    ∃ (s1 : Red) (rs : List Red), workerStep t s m = .ok (s1, rs) ∧
      rs.length = if m.operation = start then 0 else 1 := by
  rcases hm with h | h | h | ⟨h | h, hf | hf⟩
  · exact ⟨_, _, workerStep_start t s m h, by simp [h]⟩
  · simp [workerStep, h, getall, start, add, set]
    exact ⟨_, _, ⟨rfl, rfl⟩, rfl⟩
  · simp [workerStep, h, now, getall, start, add, set]
    exact ⟨_, _, ⟨rfl, rfl⟩, rfl⟩
  · simp [workerStep, h, hf, add, start]
    exact ⟨_, _, ⟨rfl, rfl⟩, rfl⟩
  · simp [workerStep, h, hf, add, start, REQUESTS, ERRORS]
    exact ⟨_, _, ⟨rfl, rfl⟩, rfl⟩
  · simp [workerStep, h, hf, add, set, start]
    exact ⟨_, _, ⟨rfl, rfl⟩, rfl⟩
  · simp [workerStep, h, hf, add, set, start, REQUESTS, ERRORS]
    exact ⟨_, _, ⟨rfl, rfl⟩, rfl⟩

/-- The valid messages are exactly the ones the worker handles without
reaching a `panic`. -/
theorem workerStep_ok_iff (t : Int) (s : Red) (m : msg) :
    (∃ p, workerStep t s m = .ok p) ↔ ValidMsg m := by
  constructor
  · rintro ⟨p, hp⟩
    unfold workerStep at hp
    unfold ValidMsg
    split_ifs at hp <;> simp_all
  · intro hm
    obtain ⟨s1, rs, h⟩ := workerStep_valid t s m hm
    exact ⟨_, h⟩

theorem worker_valid (ms : List msg) :
    ∀ w : World, (∀ m ∈ ms, ValidMsg m) → ∃ w1 : World, worker ms w = .ok w1 := by
  induction ms with
  | nil => intro w _; exact ⟨w, rfl⟩
  | cons m ms ih =>
    intro w hall
    obtain ⟨s1, rs, hstep⟩ := workerStep_valid (w.clock w.tick) w.main m
      (hall m (List.mem_cons_self _ _))
    obtain ⟨w1, hrun⟩ := ih
      { w with main := s1, fromWorker := w.fromWorker ++ rs, tick := w.tick + 1 }
      (fun x hx => hall x (List.mem_cons_of_mem _ hx))
    exact ⟨w1, by simp only [worker, hstep, hrun]⟩

/-- Waiting for a reply while only valid messages are pending: a reply comes,
unless no reply is queued and every pending message is a `start`. -/
theorem awaitReply_valid (ms : List msg) :
    ∀ w : World, (∀ m ∈ ms, ValidMsg m) →
      (∃ (r : Red) (w1 : World), awaitReply ms w = .ok (r, w1) ∧ w1.sent = w.sent ∧
        w1.heap = w.heap ∧ (∀ m ∈ w1.toWorker, m ∈ ms)) ∨
      (awaitReply ms w = .error .blocked ∧ w.fromWorker = [] ∧
        ∀ m ∈ ms, m.operation = start) := by
  induction ms with
  | nil =>
    intro w _
    cases hfrom : w.fromWorker with
    | nil => right; simp [awaitReply, hfrom]
    | cons r rest =>
      left
      exact ⟨r, { w with toWorker := [], fromWorker := rest },
        by simp only [awaitReply, hfrom], rfl, rfl, by simp⟩
  | cons m ms ih =>
    intro w hall
    cases hfrom : w.fromWorker with
    | cons r rest =>
      left
      exact ⟨r, { w with toWorker := m :: ms, fromWorker := rest },
        by simp only [awaitReply, hfrom], rfl, rfl, fun x hx => hx⟩
    | nil =>
      obtain ⟨s1, rs, hstep, hlen⟩ := workerStep_replies (w.clock w.tick) w.main m
        (hall m (List.mem_cons_self _ _))
      rcases ih { w with main := s1, fromWorker := rs, tick := w.tick + 1 }
        (fun x hx => hall x (List.mem_cons_of_mem _ hx)) with
        ⟨r, w1, hrun, hsent, hheap, hsub⟩ | ⟨hrun, hempty, hstarts⟩
      · left
        refine ⟨r, w1, ?_, hsent, hheap, fun x hx => List.mem_cons_of_mem _ (hsub x hx)⟩
        simp only [awaitReply, hfrom, hstep, hrun]
      · right
        refine ⟨by simp only [awaitReply, hfrom, hstep, hrun], rfl, ?_⟩
        have hm : m.operation = start := by
          by_contra hne
          simp only [hne, if_false] at hlen
          have hrs : rs = [] := hempty
          rw [hrs] at hlen
          cases hlen
        intro x hx
        rcases List.mem_cons.mp hx with rfl | hx1
        · exact hm
        · exact hstarts x hx1

/-- A round trip with a valid message other than `start`, on a queue of valid
messages: it returns, having sent that one message, unless the pointer points
at no cell. -/
theorem roundTrip_valid (w : World) (a : Nat) (op : ops) (f : Fields) (v : Int)
    (hq : ∀ m ∈ w.toWorker, ValidMsg m) (hm : ValidMsg ⟨op, f, v⟩) (hop : op ≠ start) :
    (a < w.heap.length ∧ ∃ w1 : World, roundTrip a op f v w = .ok w1 ∧
      w1.sent = w.sent ++ [⟨op, f, v⟩] ∧ w1.heap.length = w.heap.length ∧
      ∀ m ∈ w1.toWorker, ValidMsg m) ∨
    (¬ a < w.heap.length ∧ roundTrip a op f v w = .error .nilDereference) := by
  have hvalid : ∀ m ∈ w.toWorker ++ [⟨op, f, v⟩], ValidMsg m := by
    intro m hmem
    rcases List.mem_append.mp hmem with h | h
    · exact hq m h
    · rw [List.mem_singleton.mp h]; exact hm
  have hsend : (send op f v w).toWorker = w.toWorker ++ [⟨op, f, v⟩] := rfl
  rcases awaitReply_valid _ (send op f v w) hvalid with
    ⟨r, w1, hrun, hsent, hheap, hsub⟩ | ⟨-, -, hstarts⟩
  · by_cases ha : a < w.heap.length
    · left
      refine ⟨ha, ?_⟩
      have hcell : w1.heap[a]? = some w.heap[a] := by
        rw [hheap]
        exact List.getElem?_eq_getElem ha
      refine ⟨store a ⟨r.Requests, r.Errors, r.Duration, w.heap[a].StartTime⟩ w1, ?_,
        hsent, ?_, fun m hmem => hvalid m (hsub m hmem)⟩
      · simp only [roundTrip, receive, hsend, hrun, assignFrom, hcell]
      · simp only [store, List.length_set, hheap]
        rfl
    · right
      refine ⟨ha, ?_⟩
      have hcell : w1.heap[a]? = none := by
        rw [hheap]
        exact List.getElem?_eq_none (Nat.le_of_not_lt ha)
      simp only [roundTrip, receive, hsend, hrun, assignFrom, hcell]
  · exact absurd (hstarts ⟨op, f, v⟩ (by simp)) hop

/-- One public call on a queue of valid messages: it returns and has sent at
most one message, a valid one, unless its receiver points at no cell. -/
theorem callPublic_valid (c : PublicCall) (w : World)
    (hq : ∀ m ∈ w.toWorker, ValidMsg m) :
    (∃ w1 : World, callPublic c w = .ok w1 ∧ (∀ m ∈ w1.toWorker, ValidMsg m) ∧
      w1.heap.length = w.heap.length + c.cells ∧ w1.sent = w.sent ++ c.message.toList ∧
      ∀ m ∈ c.message.toList, ValidMsg m) ∨
    (callPublic c w = .error .nilDereference ∧
      ∃ a, c.handle = some a ∧ ¬ a < w.heap.length) := by
  have hadd : add ≠ start := by decide
  have hset : set ≠ start := by decide
  have hget : getall ≠ start := by decide
  have hnow : now ≠ start := by decide
  cases c with
  | Start =>
    left
    refine ⟨(Start w).2, rfl, ?_, ?_, rfl, ?_⟩
    · intro m hm
      have : m ∈ w.toWorker ++ [⟨start, NONE, 0⟩] := hm
      rcases List.mem_append.mp this with h | h
      · exact hq m h
      · rw [List.mem_singleton.mp h]; exact Or.inl rfl
    · simp [Start, send, timeNow, alloc, PublicCall.cells]
    · intro m hm
      simp only [PublicCall.message, Option.toList, List.mem_singleton] at hm
      rw [hm]; exact Or.inl rfl
  | Add r f val =>
    cases r with
    | none =>
      left
      exact ⟨w, rfl, hq, rfl, by simp [PublicCall.message], by simp [PublicCall.message]⟩
    | some a =>
      by_cases hf : f = REQUESTS ∨ f = ERRORS
      · have hm : ValidMsg ⟨add, f, val⟩ := Or.inr (Or.inr (Or.inr ⟨Or.inl rfl, hf⟩))
        rcases roundTrip_valid w a add f val hq hm hadd with
          ⟨ha, w1, hrt, hsent, hheap, hq1⟩ | ⟨ha, hrt⟩
        · left
          exact ⟨w1, by simp only [callPublic, Red.Add, hf, if_true, hrt], hq1, hheap,
            by simp [PublicCall.message, hf, hsent], by simp [PublicCall.message, hf, hm]⟩
        · right
          exact ⟨by simp only [callPublic, Red.Add, hf, if_true, hrt], a, rfl, ha⟩
      · left
        exact ⟨w, by simp only [callPublic, Red.Add, hf, if_false], hq, rfl,
          by simp [PublicCall.message, hf], by simp [PublicCall.message, hf]⟩
  | Set r f val =>
    cases r with
    | none =>
      left
      exact ⟨w, rfl, hq, rfl, by simp [PublicCall.message], by simp [PublicCall.message]⟩
    | some a =>
      by_cases hf : f = REQUESTS ∨ f = ERRORS
      · have hm : ValidMsg ⟨set, f, val⟩ := Or.inr (Or.inr (Or.inr ⟨Or.inr rfl, hf⟩))
        rcases roundTrip_valid w a set f val hq hm hset with
          ⟨ha, w1, hrt, hsent, hheap, hq1⟩ | ⟨ha, hrt⟩
        · left
          exact ⟨w1, by simp only [callPublic, Red.Set, hf, if_true, hrt], hq1, hheap,
            by simp [PublicCall.message, hf, hsent], by simp [PublicCall.message, hf, hm]⟩
        · right
          exact ⟨by simp only [callPublic, Red.Set, hf, if_true, hrt], a, rfl, ha⟩
      · left
        exact ⟨w, by simp only [callPublic, Red.Set, hf, if_false], hq, rfl,
          by simp [PublicCall.message, hf], by simp [PublicCall.message, hf]⟩
  | GetAll r =>
    cases r with
    | none =>
      left
      exact ⟨w, rfl, hq, rfl, by simp [PublicCall.message], by simp [PublicCall.message]⟩
    | some a =>
      have hm : ValidMsg ⟨getall, NONE, 0⟩ := Or.inr (Or.inl rfl)
      rcases roundTrip_valid w a getall NONE 0 hq hm hget with
        ⟨ha, w1, hrt, hsent, hheap, hq1⟩ | ⟨ha, hrt⟩
      · left
        exact ⟨w1, by simp only [callPublic, Red.GetAll, hrt], hq1, hheap,
          by simp [PublicCall.message, hsent], by simp [PublicCall.message, hm]⟩
      · right
        exact ⟨by simp only [callPublic, Red.GetAll, hrt], a, rfl, ha⟩
  | Now r =>
    have hm : ValidMsg ⟨now, NONE, 0⟩ := Or.inr (Or.inr (Or.inl rfl))
    cases r with
    | none =>
      left
      rcases roundTrip_valid (alloc ⟨0, 0, 0, 0⟩ w).2 w.heap.length now NONE 0 hq hm hnow with
        ⟨ha, w1, hrt, hsent, hheap, hq1⟩ | ⟨ha, hrt⟩
      · refine ⟨w1, ?_, hq1, ?_, by simp [PublicCall.message]; exact hsent,
          by simp [PublicCall.message, hm]⟩
        · have hrt1 : roundTrip (alloc ⟨0, 0, 0, 0⟩ w).1 now NONE 0 (alloc ⟨0, 0, 0, 0⟩ w).2
              = .ok w1 := hrt
          simp only [callPublic, Red.Now, hrt1]
        · rw [hheap]
          simp [alloc, PublicCall.cells]
      · exact absurd (by simp [alloc]) ha
    | some a =>
      rcases roundTrip_valid w a now NONE 0 hq hm hnow with
        ⟨ha, w1, hrt, hsent, hheap, hq1⟩ | ⟨ha, hrt⟩
      · left
        exact ⟨w1, by simp only [callPublic, Red.Now, hrt], hq1, hheap,
          by simp [PublicCall.message, hsent], by simp [PublicCall.message, hm]⟩
      · right
        exact ⟨by simp only [callPublic, Red.Now, hrt], a, rfl, ha⟩

/-- Public calls one after the other on a queue of valid messages: they all
return, having sent valid messages only, unless one of them is made on a
pointer that points at no cell. -/
theorem runPublic_valid (cs : List PublicCall) :
    ∀ w : World, (∀ m ∈ w.toWorker, ValidMsg m) → (∀ m ∈ w.sent, ValidMsg m) →
      (∃ w1 : World, runPublic cs w = .ok w1 ∧ (∀ m ∈ w1.toWorker, ValidMsg m) ∧
        (∀ m ∈ w1.sent, ValidMsg m) ∧
        w1.sent = w.sent ++ cs.filterMap PublicCall.message) ∨
      (runPublic cs w = .error .nilDereference ∧ handlesOK w.heap.length cs = false) := by
  induction cs with
  | nil => intro w hq hs; left; exact ⟨w, rfl, hq, hs, by simp⟩
  | cons c cs ih =>
    intro w hq hs
    rcases callPublic_valid c w hq with ⟨w1, hcall, hq1, hheap, hsent, hmsg⟩ | ⟨hcall, a, ha, hlt⟩
    · have hs1 : ∀ m ∈ w1.sent, ValidMsg m := by
        intro m hm
        rw [hsent] at hm
        rcases List.mem_append.mp hm with h | h
        · exact hs m h
        · exact hmsg m h
      rcases ih w1 hq1 hs1 with ⟨w2, hrun, hq2, hs2, hsent2⟩ | ⟨hrun, hbad⟩
      · left
        refine ⟨w2, by simp only [runPublic, hcall, hrun], hq2, hs2, ?_⟩
        rw [hsent2, hsent, List.filterMap_cons]
        cases c.message <;> simp
      · right
        refine ⟨by simp only [runPublic, hcall, hrun], ?_⟩
        rw [hheap] at hbad
        simp only [handlesOK, hbad, Bool.and_false]
    · right
      refine ⟨by simp only [runPublic, hcall], ?_⟩
      simp only [handlesOK, ha, decide_eq_false hlt, Bool.false_and]

/-- C21. From any state whose request queue holds valid messages only (the
state after `init` is one), any sequence of calls of `Start`, `Add`, `Set`,
`GetAll` and `Now`, with any receivers, fields and values, never ends in one of
the worker's panics and never blocks for ever; when it returns, every
message it has handed to `send`, and every message still in the queue, is
valid (its operation is one of the five and, for `add` and `set`, its operand
is REQUESTS or ERRORS), so the worker handles what is left without a panic.
The calls do return when every receiver is nil or points at a cell.  The
valid messages are exactly the ones the worker handles without a panic. -/
theorem no_panic_spec (w : World) (hq : ∀ m ∈ w.toWorker, ValidMsg m)
    (hs : ∀ m ∈ w.sent, ValidMsg m) (cs : List PublicCall) :
    (∀ m, runPublic cs w ≠ .error (.unknownOperand m) ∧
      runPublic cs w ≠ .error (.unknownOpcode m)) ∧
    runPublic cs w ≠ .error .blocked ∧
    (∀ w1, runPublic cs w = .ok w1 →
      (∀ m ∈ w1.sent, ValidMsg m) ∧ (∀ m ∈ w1.toWorker, ValidMsg m) ∧
      w1.sent = w.sent ++ cs.filterMap PublicCall.message ∧
      ∃ w2 : World, worker w1.toWorker w1 = .ok w2) ∧
    (handlesOK w.heap.length cs = true → ∃ w1 : World, runPublic cs w = .ok w1) ∧
    (∀ (t : Int) (s : Red) (m : msg), (∃ p, workerStep t s m = .ok p) ↔ ValidMsg m) := by
  rcases runPublic_valid cs w hq hs with ⟨w1, hrun, hq1, hs1, hsent⟩ | ⟨hrun, hbad⟩
  · refine ⟨fun m => ⟨by rw [hrun]; simp, by rw [hrun]; simp⟩, by rw [hrun]; simp, ?_,
      fun _ => ⟨w1, hrun⟩, workerStep_ok_iff⟩
    intro w2 h2
    rw [hrun] at h2
    simp only [Except.ok.injEq] at h2
    subst h2
    exact ⟨hs1, hq1, hsent, worker_valid _ _ hq1⟩
  · refine ⟨fun m => ⟨by rw [hrun]; simp, by rw [hrun]; simp⟩, by rw [hrun]; simp, ?_, ?_,
      workerStep_ok_iff⟩
    · intro w2 h2
      rw [hrun] at h2
      cases h2
    · intro h
      rw [hbad] at h
      cases h

/-- C21 at a sample of calls made after `init`: calls on nil, on fields that
are not counters and with a negative value among them. -/
theorem no_panic_spec_witness :
    (∀ m ∈ (initWorld sampleClock).toWorker, ValidMsg m) ∧
    (∀ m ∈ (initWorld sampleClock).sent, ValidMsg m) ∧
    handlesOK (initWorld sampleClock).heap.length samplePublic = true ∧
    ∃ w1 : World, runPublic samplePublic (initWorld sampleClock) = .ok w1 :=
  ⟨by decide, by decide, by decide,
    (no_panic_spec (initWorld sampleClock) (by decide) (by decide) samplePublic).2.2.2.1
      (by decide)⟩

/-! ## Requests and replies stay paired -/

/-- In single-caller use the worker, run over what is pending and then a
message it answers with `r`, leaves `r` alone in `fromWorker`. -/
theorem worker_single (w : World) (hw : SingleCaller w) (m : msg) (s1 r : Red)
    (hstep : workerStep (w.clock (settledTick w)) (settledMain w) m = .ok (s1, [r])) :
    ∃ w2 : World, worker (w.toWorker ++ [m]) w = .ok w2 ∧ w2.fromWorker = [r] ∧
      w2.main = s1 := by
  have hstep1 : workerStep (w.clock (w.tick + w.toWorker.length))
      (settle w.clock w.toWorker w.tick w.main) m = .ok (s1, [r]) := hstep
  have hwork : worker (w.toWorker ++ [m]) w
      = .ok { w with main := s1, fromWorker := w.fromWorker ++ [r],
                     tick := w.tick + w.toWorker.length + 1 } := by
    rw [worker_append, worker_starts w.toWorker w hw.2]
    simp only [worker, hstep1]
  exact ⟨_, hwork, by simp only [hw.1, List.nil_append], rfl⟩

/-- In single-caller use a round trip with a valid message other than `start`
returns: the worker, run over what is pending and then this message, queues
one reply, and the round trip reads it. -/
theorem roundTrip_paired (w : World) (a : Nat) (old : Red) (op : ops) (f : Fields) (v : Int)
    (hw : SingleCaller w) (ha : w.heap[a]? = some old) (hm : ValidMsg ⟨op, f, v⟩)
    (hop : op ≠ start) :
    ∃ (s1 r : Red) (w2 : World),
      workerStep (w.clock (settledTick w)) (settledMain w) ⟨op, f, v⟩ = .ok (s1, [r]) ∧
      worker (w.toWorker ++ [⟨op, f, v⟩]) w = .ok w2 ∧ w2.fromWorker = [r] ∧ w2.main = s1 ∧
      roundTrip a op f v w = .ok (replied w a old s1 r ⟨op, f, v⟩) := by
  obtain ⟨s1, rs, hstep, hlen⟩ := workerStep_replies (w.clock (settledTick w)) (settledMain w)
    ⟨op, f, v⟩ hm
  simp only [hop, if_false] at hlen
  obtain ⟨r, hr⟩ := List.length_eq_one.mp hlen
  subst hr
  obtain ⟨w2, hwork, hfrom, hmain⟩ := worker_single w hw ⟨op, f, v⟩ s1 r hstep
  exact ⟨s1, r, w2, hstep, hwork, hfrom, hmain,
    roundTrip_single w a old op f v s1 r hw ha hstep⟩

/-- What a round trip of a single caller leaves behind. -/
theorem roundTrip_single_facts (w : World) (a : Nat) (op : ops) (f : Fields) (v : Int)
    (hw : SingleCaller w) (ha : a < w.heap.length) (hm : ValidMsg ⟨op, f, v⟩)
    (hop : op ≠ start) :
    ∃ w1 : World, roundTrip a op f v w = .ok w1 ∧ SingleCaller w1 ∧
      w1.heap.length = w.heap.length ∧ w1.sent = w.sent ++ [⟨op, f, v⟩] ∧
      ∃ (s1 r : Red) (w2 : World) (st : Int),
        workerStep (w.clock (settledTick w)) (settledMain w) ⟨op, f, v⟩ = .ok (s1, [r]) ∧
        worker (w.toWorker ++ [⟨op, f, v⟩]) w = .ok w2 ∧ w2.fromWorker = [r] ∧
        w1.main = s1 ∧ w1.toWorker = [] ∧
        w1.heap[a]? = some ⟨r.Requests, r.Errors, r.Duration, st⟩ := by
  have hcell : w.heap[a]? = some w.heap[a] := List.getElem?_eq_getElem ha
  obtain ⟨s1, r, w2, hstep, hwork, hfrom, -, hrt⟩ :=
    roundTrip_paired w a _ op f v hw hcell hm hop
  exact ⟨_, hrt, replied_singleCaller _ _ _ _ _ _, by simp [replied], rfl,
    s1, r, w2, _, hstep, hwork, hfrom, rfl, rfl, replied_heap w a _ s1 r _ hcell⟩

/-- One public call in single-caller use, on a receiver that is nil or points
at a cell. -/
theorem callPublic_single (c : PublicCall) (w : World) (hw : SingleCaller w)
    (hh : ∀ a, c.handle = some a → a < w.heap.length) :
    ∃ w1 : World, callPublic c w = .ok w1 ∧ SingleCaller w1 ∧
      w1.heap.length = w.heap.length + c.cells ∧
      w1.sent = w.sent ++ c.message.toList ∧
      (c.message = none → w1 = w) ∧
      (∀ m, c.message = some m → m.operation = start →
        w1.toWorker = w.toWorker ++ [m] ∧ w1.main = w.main) ∧
      (∀ m, c.message = some m → m.operation ≠ start →
        ∃ (s1 r : Red) (w2 : World) (st : Int),
          workerStep (w.clock (settledTick w)) (settledMain w) m = .ok (s1, [r]) ∧
          worker (w.toWorker ++ [m]) w = .ok w2 ∧ w2.fromWorker = [r] ∧
          w1.main = s1 ∧ w1.toWorker = [] ∧
          w1.heap[c.target w.heap.length]? = some ⟨r.Requests, r.Errors, r.Duration, st⟩) := by
  have hadd : add ≠ start := by decide
  have hset : set ≠ start := by decide
  have hget : getall ≠ start := by decide
  have hnow : now ≠ start := by decide
  have key := fun (a : Nat) (op : ops) (f : Fields) (v : Int) (ha : a < w.heap.length) =>
    roundTrip_single_facts w a op f v hw ha
  cases c with
  | Start =>
    refine ⟨(Start w).2, rfl, Start_singleCaller w hw, ?_, rfl, ?_, ?_, ?_⟩
    · simp [Start, send, timeNow, alloc, PublicCall.cells]
    · intro h; simp [PublicCall.message] at h
    · intro m hm _
      simp only [PublicCall.message, Option.some.injEq] at hm
      subst hm
      exact ⟨rfl, rfl⟩
    · intro m hm hne
      simp only [PublicCall.message, Option.some.injEq] at hm
      subst hm
      exact absurd rfl hne
  | Add r f val =>
    cases r with
    | none =>
      exact ⟨w, rfl, hw, rfl, by simp [PublicCall.message], fun _ => rfl,
        fun m hm => by simp [PublicCall.message] at hm,
        fun m hm => by simp [PublicCall.message] at hm⟩
    | some a =>
      by_cases hf : f = REQUESTS ∨ f = ERRORS
      · obtain ⟨w1, hrt, hsc, hheap, hsent, hrest⟩ := key a add f val (hh a rfl)
          (Or.inr (Or.inr (Or.inr ⟨Or.inl rfl, hf⟩))) hadd
        refine ⟨w1, by simp only [callPublic, Red.Add, hf, if_true, hrt], hsc, hheap,
          by simp [PublicCall.message, hf, hsent],
          fun h => by simp [PublicCall.message, hf] at h, ?_, ?_⟩
        · intro m hm hs
          simp [PublicCall.message, hf] at hm
          subst hm
          exact absurd hs hadd
        · intro m hm _
          simp [PublicCall.message, hf] at hm
          subst hm
          exact hrest
      · exact ⟨w, by simp only [callPublic, Red.Add, hf, if_false], hw, rfl,
          by simp [PublicCall.message, hf], fun _ => rfl,
          fun m hm => by simp [PublicCall.message, hf] at hm,
          fun m hm => by simp [PublicCall.message, hf] at hm⟩
  | Set r f val =>
    cases r with
    | none =>
      exact ⟨w, rfl, hw, rfl, by simp [PublicCall.message], fun _ => rfl,
        fun m hm => by simp [PublicCall.message] at hm,
        fun m hm => by simp [PublicCall.message] at hm⟩
    | some a =>
      by_cases hf : f = REQUESTS ∨ f = ERRORS
      · obtain ⟨w1, hrt, hsc, hheap, hsent, hrest⟩ := key a set f val (hh a rfl)
          (Or.inr (Or.inr (Or.inr ⟨Or.inr rfl, hf⟩))) hset
        refine ⟨w1, by simp only [callPublic, Red.Set, hf, if_true, hrt], hsc, hheap,
          by simp [PublicCall.message, hf, hsent],
          fun h => by simp [PublicCall.message, hf] at h, ?_, ?_⟩
        · intro m hm hs
          simp [PublicCall.message, hf] at hm
          subst hm
          exact absurd hs hset
        · intro m hm _
          simp [PublicCall.message, hf] at hm
          subst hm
          exact hrest
      · exact ⟨w, by simp only [callPublic, Red.Set, hf, if_false], hw, rfl,
          by simp [PublicCall.message, hf], fun _ => rfl,
          fun m hm => by simp [PublicCall.message, hf] at hm,
          fun m hm => by simp [PublicCall.message, hf] at hm⟩
  | GetAll r =>
    cases r with
    | none =>
      exact ⟨w, rfl, hw, rfl, by simp [PublicCall.message], fun _ => rfl,
        fun m hm => by simp [PublicCall.message] at hm,
        fun m hm => by simp [PublicCall.message] at hm⟩
    | some a =>
      obtain ⟨w1, hrt, hsc, hheap, hsent, hrest⟩ := key a getall NONE 0 (hh a rfl)
        (Or.inr (Or.inl rfl)) hget
      refine ⟨w1, by simp only [callPublic, Red.GetAll, hrt], hsc, hheap,
        by simp [PublicCall.message, hsent],
        fun h => by simp [PublicCall.message] at h, ?_, ?_⟩
      · intro m hm hs
        simp [PublicCall.message] at hm
        subst hm
        exact absurd hs hget
      · intro m hm _
        simp [PublicCall.message] at hm
        subst hm
        exact hrest
  | Now r =>
    cases r with
    | none =>
      have hw0 : SingleCaller (alloc ⟨0, 0, 0, 0⟩ w).2 := hw
      obtain ⟨w1, hrt, hsc, hheap, hsent, hrest⟩ := roundTrip_single_facts
        (alloc ⟨0, 0, 0, 0⟩ w).2 w.heap.length now NONE 0 hw0 (by simp [alloc])
        (Or.inr (Or.inr (Or.inl rfl))) hnow
      have hrt1 : roundTrip (alloc ⟨0, 0, 0, 0⟩ w).1 now NONE 0 (alloc ⟨0, 0, 0, 0⟩ w).2
          = .ok w1 := hrt
      refine ⟨w1, by simp only [callPublic, Red.Now, hrt1], hsc,
        by rw [hheap]; simp [alloc, PublicCall.cells],
        by simp only [PublicCall.message, Option.toList]; exact hsent,
        fun h => by simp [PublicCall.message] at h, ?_, ?_⟩
      · intro m hm hs
        simp only [PublicCall.message, Option.some.injEq] at hm
        subst hm
        exact absurd hs hnow
      · intro m hm _
        simp only [PublicCall.message, Option.some.injEq] at hm
        subst hm
        obtain ⟨s1, r, -, st, hstep, -, -, hmain, hto, hcell⟩ := hrest
        have hstep1 : workerStep (w.clock (settledTick w)) (settledMain w) ⟨now, NONE, 0⟩
            = .ok (s1, [r]) := hstep
        obtain ⟨w2, hwork, hfrom, -⟩ := worker_single w hw ⟨now, NONE, 0⟩ s1 r hstep1
        exact ⟨s1, r, w2, st, hstep1, hwork, hfrom, hmain, hto, hcell⟩
    | some a =>
      obtain ⟨w1, hrt, hsc, hheap, hsent, hrest⟩ := key a now NONE 0 (hh a rfl)
        (Or.inr (Or.inr (Or.inl rfl))) hnow
      refine ⟨w1, by simp only [callPublic, Red.Now, hrt], hsc, hheap,
        by simp [PublicCall.message, hsent],
        fun h => by simp [PublicCall.message] at h, ?_, ?_⟩
      · intro m hm hs
        simp only [PublicCall.message, Option.some.injEq] at hm
        subst hm
        exact absurd hs hnow
      · intro m hm _
        simp only [PublicCall.message, Option.some.injEq] at hm
        subst hm
        exact hrest

theorem handlesOK_cons (n : Nat) (c : PublicCall) (cs : List PublicCall)
    (h : handlesOK n (c :: cs) = true) :
    (∀ a, c.handle = some a → a < n) ∧ handlesOK (n + c.cells) cs = true := by
  simp only [handlesOK, Bool.and_eq_true] at h
  refine ⟨fun a ha => ?_, h.2⟩
  have h1 := h.1
  rw [ha] at h1
  simpa using h1

/-- Public calls of a single caller, one after the other, on receivers that
are nil or point at cells: they return and leave single-caller use in place
for the calls that follow. -/
theorem runPublic_split (pre rest : List PublicCall) :
    ∀ w : World, SingleCaller w → handlesOK w.heap.length (pre ++ rest) = true →
      ∃ wa : World, runPublic pre w = .ok wa ∧ SingleCaller wa ∧
        handlesOK wa.heap.length rest = true ∧
        ∀ wz, runPublic rest wa = .ok wz → runPublic (pre ++ rest) w = .ok wz := by
  induction pre with
  | nil => intro w hw hh; exact ⟨w, rfl, hw, hh, fun _ h => h⟩
  | cons c cs ih =>
    intro w hw hh
    obtain ⟨hc, hrest⟩ := handlesOK_cons _ c (cs ++ rest) hh
    obtain ⟨w1, hcall, hsc, hheap, -⟩ := callPublic_single c w hw hc
    rw [← hheap] at hrest
    obtain ⟨wa, hrun, hsa, hha, hjoin⟩ := ih w1 hsc hrest
    refine ⟨wa, by simp only [runPublic, hcall, hrun], hsa, hha, fun wz hz => ?_⟩
    simp only [List.cons_append, runPublic, hcall]
    exact hjoin wz hz

/-- C22. The worker answers every valid message with exactly one reply, but
for `start`, which it answers with none.  In single-caller use, with every
receiver nil or pointing at a cell, take any call `c` of any sequence of
calls of `Start`, `Add`, `Set`, `GetAll` and `Now`: the calls before it
return, `c` returns, and the calls after it return, and each time the reply
queue is empty and no message but `start` messages is pending.  A call that
fails (a nil receiver, or a field that is no counter) sends nothing and leaves
the state as it was.  `Start` sends its message and runs no receive: the
message stays pending and the store is not touched.  Every other call sends
one message; the worker, run over what was pending and then over that message,
queues exactly one reply, the reply to that message; the call has taken it
(the queue is empty again) and has copied its three fields into the cell of
its receiver. -/
theorem replies_paired_spec (w : World) (hw : SingleCaller w)
    (pre post : List PublicCall) (c : PublicCall)
    (hh : handlesOK w.heap.length (pre ++ c :: post) = true) :
    (∀ (t : Int) (s : Red) (m : msg), ValidMsg m →
      ∃ (s1 : Red) (rs : List Red), workerStep t s m = .ok (s1, rs) ∧
        rs.length = if m.operation = start then 0 else 1) ∧
    ∃ wa wb wz : World,
      runPublic pre w = .ok wa ∧ callPublic c wa = .ok wb ∧ runPublic post wb = .ok wz ∧
      runPublic (pre ++ c :: post) w = .ok wz ∧
      SingleCaller wa ∧ SingleCaller wb ∧ SingleCaller wz ∧
      wb.sent = wa.sent ++ c.message.toList ∧
      (c.message = none → wb = wa) ∧
      (∀ m, c.message = some m → m.operation = start →
        wb.toWorker = wa.toWorker ++ [m] ∧ wb.main = wa.main) ∧
      (∀ m, c.message = some m → m.operation ≠ start →
        ∃ (s1 r : Red) (w2 : World) (st : Int),
          workerStep (wa.clock (settledTick wa)) (settledMain wa) m = .ok (s1, [r]) ∧
          worker (wa.toWorker ++ [m]) wa = .ok w2 ∧ w2.fromWorker = [r] ∧
          wb.main = s1 ∧ wb.toWorker = [] ∧
          wb.heap[c.target wa.heap.length]?
            = some ⟨r.Requests, r.Errors, r.Duration, st⟩) := by
  refine ⟨workerStep_replies, ?_⟩
  obtain ⟨wa, hpre, hsa, hha, hjoin⟩ := runPublic_split pre (c :: post) w hw hh
  obtain ⟨hc, hrest⟩ := handlesOK_cons _ c post hha
  obtain ⟨wb, hcall, hsb, hheap, hsent, hnone, hstart, hreply⟩ := callPublic_single c wa hsa hc
  rw [← hheap] at hrest
  obtain ⟨wz, hpost, hsz, -, -⟩ := runPublic_split post [] wb hsb
    (by rw [List.append_nil]; exact hrest)
  exact ⟨wa, wb, wz, hpre, hcall, hpost,
    hjoin wz (by simp only [runPublic, hcall, hpost]), hsa, hsb, hsz, hsent, hnone, hstart,
    hreply⟩

/-- C22 at a sample run after `init`: `Start()`, then `Add(REQUESTS, 5)` on
the handle, then `Now()` on nil. -/
theorem replies_paired_spec_witness :
    SingleCaller (initWorld sampleClock) ∧
    handlesOK (initWorld sampleClock).heap.length
      ([.Start] ++ .Add (some 0) REQUESTS 5 :: [.Now none]) = true ∧
    ∃ wz : World,
      runPublic ([.Start] ++ .Add (some 0) REQUESTS 5 :: [.Now none]) (initWorld sampleClock)
        = .ok wz ∧ SingleCaller wz :=
  ⟨by decide, by decide,
    match (replies_paired_spec (initWorld sampleClock) (by decide) [.Start] [.Now none]
      (.Add (some 0) REQUESTS 5) (by decide)).2 with
    | ⟨_, _, wz, _, _, _, hrun, _, _, hsz, _⟩ => ⟨wz, hrun, hsz⟩⟩

end RED
